import Mathlib

/-!
# Verification of the `node-diff-match-patch` API contract

The repository holds only the TypeScript declaration file
`types/node-diff-match-patch/index.d.ts`; the algorithms behind the declared
operations are described by the accompanying natural-language specification.
Every definition below is therefore modelled from the spec: the data model of
diff scripts (spec section 3), the cleanup passes (section 4.2), the delta
codec (4.3), the match engine (4.4) and the patch engine (4.5), with strings
embedded as lists of characters and the wall-clock deadline of the diff
engine modelled as explicit fuel (as section 9 of the spec itself directs).
-/

namespace DMP

/-- Texts are sequences of Unicode code units, embedded as character lists. -/
abbrev Str := List Char

/-- The three diff operation kinds (spec section 3, `index.d.ts` lines 625-634:
insert(1), delete(-1), equal(0)). -/
inductive Op where
  | delete
  | insert
  | equal
deriving DecidableEq, Repr

/-- Numeric operation constant of `index.d.ts` line 630: the code of each
operation kind (insert = 1, delete = -1, equal = 0). -/
def Op.code : Op → Int
  | .delete => -1
  | .insert => 1
  | .equal => 0

/-- The exported numeric constant `DIFF_DELETE` (`index.d.ts` line 277). -/
def DIFF_DELETE : Int := -1

/-- The exported numeric constant `DIFF_INSERT` (`index.d.ts` line 278). -/
def DIFF_INSERT : Int := 1

/-- The exported numeric constant `DIFF_EQUAL` (`index.d.ts` line 279). -/
def DIFF_EQUAL : Int := 0

/-- A diff tuple: an operation together with the text it applies to
(`index.d.ts` lines 625-634). -/
structure Diff where
  op : Op
  text : Str
deriving DecidableEq, Repr

/-- Slot 0 and slot 1 of the two-slot tuple shape of a `Diff` value
(`index.d.ts` lines 626-634): the numeric operation constant and the text. -/
def Diff.toTuple (d : Diff) : Int × Str := (d.op.code, d.text)

/-- `diff_text1`: source-text projection of a diff script — the concatenated
texts of all equalities and deletions (`index.d.ts` lines 448-453). -/
def diff_text1 : List Diff → Str
  | [] => []
  | x :: rest => (if x.op = Op.insert then [] else x.text) ++ diff_text1 rest

/-- `diff_text2`: destination-text projection of a diff script — the
concatenated texts of all equalities and insertions (`index.d.ts` lines
455-460). -/
def diff_text2 : List Diff → Str
  | [] => []
  | x :: rest => (if x.op = Op.delete then [] else x.text) ++ diff_text2 rest

/-! ## The merge cleanup pass

Modelled from the spec (section 4.2, Merge): adjacent edits of the same kind
concatenate; an Insert next to a Delete inside the same gap between
equalities is normalised to Delete-then-Insert; equalities merge; empty
diffs are dropped; single edits sandwiched between two equalities slide
across a boundary they share so that the two equalities merge; the script
is re-scanned until stable. -/

/-- Append the pending delete and insert accumulators (in Delete-then-Insert
order, skipping empty ones) in front of the already-built tail. -/
def emitEdits (del ins : Str) (tail : List Diff) : List Diff :=
  (if del = [] then [] else [⟨Op.delete, del⟩]) ++
    (if ins = [] then [] else [⟨Op.insert, ins⟩]) ++ tail

/-- Push a (non-empty) equality in front of a script, merging it with a
leading equality when there is one. -/
def pushEqual (t : Str) (l : List Diff) : List Diff :=
  match l with
  | ⟨Op.equal, u⟩ :: l2 => ⟨Op.equal, t ++ u⟩ :: l2
  | _ => ⟨Op.equal, t⟩ :: l

/-- First merge scan: concatenate runs of deletions and insertions between
equalities, normalise each run to Delete-then-Insert, merge adjacent
equalities and drop empty diffs. -/
def mergeScan : Str → Str → List Diff → List Diff
  | del, ins, [] => emitEdits del ins []
  | del, ins, ⟨Op.delete, t⟩ :: rest => mergeScan (del ++ t) ins rest
  | del, ins, ⟨Op.insert, t⟩ :: rest => mergeScan del (ins ++ t) rest
  | del, ins, ⟨Op.equal, t⟩ :: rest =>
      if t = [] then mergeScan del ins rest
      else emitEdits del ins (pushEqual t (mergeScan [] [] rest))

/-- Second merge scan: a single edit surrounded by two equalities slides
left (when it ends with the left equality) or right (when it starts with
the right equality) so that the two equalities merge. -/
def slideScan : List Diff → List Diff
  | ⟨aop, a⟩ :: ⟨xop, x⟩ :: ⟨bop, b⟩ :: rest =>
      if _h : aop = Op.equal ∧ bop = Op.equal ∧ xop ≠ Op.equal then
        if a <:+ x then
          ⟨xop, a ++ x.take (x.length - a.length)⟩ ::
            slideScan (⟨Op.equal, a ++ b⟩ :: rest)
        else if b <+: x then
          ⟨Op.equal, a ++ b⟩ :: slideScan (⟨xop, x.drop b.length ++ b⟩ :: rest)
        else
          ⟨aop, a⟩ :: slideScan (⟨xop, x⟩ :: ⟨bop, b⟩ :: rest)
      else
        ⟨aop, a⟩ :: slideScan (⟨xop, x⟩ :: ⟨bop, b⟩ :: rest)
  | l => l
termination_by l => l.length

/-- Re-scan until stable, with enough fuel to reach the fixed point. -/
def cleanupMergeLoop : Nat → List Diff → List Diff
  | 0, d => mergeScan [] [] d
  | fuel + 1, d =>
      let y := mergeScan [] [] d
      let z := slideScan y
      if z = y then y else cleanupMergeLoop fuel z

/-- `diff_cleanupMerge` (`index.d.ts` lines 424-429): reorder and merge like
edit sections, merge equalities, re-scan until stable. -/
def diff_cleanupMerge (d : List Diff) : List Diff :=
  cleanupMergeLoop (d.length + 1) d

/-! ### Canonical scripts and properties of the merge pass -/

/-- Two adjacent operations allowed by the merged form: distinct, and never
an insertion directly before a deletion. -/
def okPair (p q : Op) : Prop := p ≠ q ∧ ¬(p = Op.insert ∧ q = Op.delete)

/-- A script in merged canonical form: every text non-empty and adjacent
operations compatible. -/
def canonical (d : List Diff) : Prop :=
  (∀ x ∈ d, x.text ≠ []) ∧ d.Chain' (fun x y => okPair x.op y.op)

theorem canonical_nil : canonical [] := by
  constructor
  · intro x hx; cases hx
  · exact List.chain'_nil

theorem canonical_tail {x : Diff} {l : List Diff} (h : canonical (x :: l)) :
    canonical l := by
  obtain ⟨h1, h2⟩ := h
  exact ⟨fun y hy => h1 y (List.mem_cons_of_mem _ hy), h2.tail⟩

theorem diff_text1_append (l1 l2 : List Diff) :
    diff_text1 (l1 ++ l2) = diff_text1 l1 ++ diff_text1 l2 := by
  induction l1 with
  | nil => simp [diff_text1]
  | cons x rest ih => simp [diff_text1, ih]

theorem diff_text2_append (l1 l2 : List Diff) :
    diff_text2 (l1 ++ l2) = diff_text2 l1 ++ diff_text2 l2 := by
  induction l1 with
  | nil => simp [diff_text2]
  | cons x rest ih => simp [diff_text2, ih]

theorem diff_text1_emitEdits (del ins : Str) (tail : List Diff) :
    diff_text1 (emitEdits del ins tail) = del ++ diff_text1 tail := by
  unfold emitEdits
  split_ifs with h1 h2 h2 <;>
    simp [h1, diff_text1_append, diff_text1, *]

theorem diff_text2_emitEdits (del ins : Str) (tail : List Diff) :
    diff_text2 (emitEdits del ins tail) = ins ++ diff_text2 tail := by
  unfold emitEdits
  split_ifs with h1 h2 h2 <;>
    simp [diff_text2_append, diff_text2, *]

theorem diff_text1_pushEqual (t : Str) (l : List Diff) :
    diff_text1 (pushEqual t l) = t ++ diff_text1 l := by
  unfold pushEqual
  split
  · next u l2 _ => simp [diff_text1]
  · simp [diff_text1]

theorem diff_text2_pushEqual (t : Str) (l : List Diff) :
    diff_text2 (pushEqual t l) = t ++ diff_text2 l := by
  unfold pushEqual
  split
  · next u l2 _ => simp [diff_text2]
  · simp [diff_text2]

theorem diff_text1_mergeScan (d : List Diff) :
    ∀ del ins, diff_text1 (mergeScan del ins d) = del ++ diff_text1 d := by
  induction d with
  | nil => intro del ins; simp [mergeScan, diff_text1_emitEdits, diff_text1]
  | cons x rest ih =>
      intro del ins
      obtain ⟨op, t⟩ := x
      cases op with
      | delete => simp [mergeScan, ih, diff_text1]
      | insert => simp [mergeScan, ih, diff_text1]
      | equal =>
          by_cases ht : t = []
          · simp [mergeScan, ht, ih, diff_text1]
          · simp [mergeScan, ht, diff_text1_emitEdits, diff_text1_pushEqual,
              ih, diff_text1]

theorem diff_text2_mergeScan (d : List Diff) :
    ∀ del ins, diff_text2 (mergeScan del ins d) = ins ++ diff_text2 d := by
  induction d with
  | nil => intro del ins; simp [mergeScan, diff_text2_emitEdits, diff_text2]
  | cons x rest ih =>
      intro del ins
      obtain ⟨op, t⟩ := x
      cases op with
      | delete => simp [mergeScan, ih, diff_text2]
      | insert => simp [mergeScan, ih, diff_text2]
      | equal =>
          by_cases ht : t = []
          · simp [mergeScan, ht, ih, diff_text2]
          · simp [mergeScan, ht, diff_text2_emitEdits, diff_text2_pushEqual,
              ih, diff_text2]

theorem mergeScan_length_le (d : List Diff) :
    ∀ del ins, (mergeScan del ins d).length ≤
      (if del = [] then 0 else 1) + (if ins = [] then 0 else 1) + d.length := by
  induction d with
  | nil =>
      intro del ins
      unfold mergeScan emitEdits
      split_ifs <;> simp
  | cons x rest ih =>
      intro del ins
      obtain ⟨op, t⟩ := x
      cases op with
      | delete =>
          have h := ih (del ++ t) ins
          simp only [mergeScan]
          split_ifs at h ⊢ <;> simp_all <;> omega
      | insert =>
          have h := ih del (ins ++ t)
          simp only [mergeScan]
          split_ifs at h ⊢ <;> simp_all <;> omega
      | equal =>
          by_cases ht : t = []
          · have h := ih del ins
            simp only [mergeScan, ht, if_true, List.length_cons]
            split_ifs at h ⊢ <;> simp_all <;> omega
          · have h := ih [] []
            have hp : (pushEqual t (mergeScan [] [] rest)).length ≤
                (mergeScan [] [] rest).length + 1 := by
              unfold pushEqual
              split
              · next l u l2 heq => simp [heq]
              · simp
            have he : (emitEdits del ins (pushEqual t (mergeScan [] [] rest))).length ≤
                (if del = [] then 0 else 1) + (if ins = [] then 0 else 1) +
                  (pushEqual t (mergeScan [] [] rest)).length := by
              unfold emitEdits
              split_ifs <;> simp <;> omega
            simp at h
            simp only [mergeScan, ht, if_false, List.length_cons]
            omega

theorem emitEdits_nil_nil (tail : List Diff) : emitEdits [] [] tail = tail := by
  simp [emitEdits]

theorem pushEqual_nil (t : Str) : pushEqual t [] = [⟨Op.equal, t⟩] := rfl

theorem pushEqual_equal (t u : Str) (l2 : List Diff) :
    pushEqual t (⟨Op.equal, u⟩ :: l2) = ⟨Op.equal, t ++ u⟩ :: l2 := rfl

theorem pushEqual_delete (t u : Str) (l2 : List Diff) :
    pushEqual t (⟨Op.delete, u⟩ :: l2) =
      ⟨Op.equal, t⟩ :: ⟨Op.delete, u⟩ :: l2 := rfl

theorem pushEqual_insert (t u : Str) (l2 : List Diff) :
    pushEqual t (⟨Op.insert, u⟩ :: l2) =
      ⟨Op.equal, t⟩ :: ⟨Op.insert, u⟩ :: l2 := rfl

theorem pushEqual_of_ne {l : List Diff}
    (h : l = [] ∨ ∃ x l2, l = x :: l2 ∧ x.op ≠ Op.equal) (t : Str) :
    pushEqual t l = ⟨Op.equal, t⟩ :: l := by
  cases l with
  | nil => rfl
  | cons x l2 =>
      obtain ⟨op, u⟩ := x
      cases op with
      | delete => rfl
      | insert => rfl
      | equal =>
          rcases h with h | ⟨y, l3, hy, hop⟩
          · cases h
          · injection hy with h1 h2
            rw [← h1] at hop
            exact absurd rfl hop

theorem canonical_pushEqual {t : Str} {l : List Diff} (ht : t ≠ [])
    (hl : canonical l) :
    ∃ u l2, pushEqual t l = ⟨Op.equal, u⟩ :: l2 ∧ u ≠ [] ∧
      canonical (⟨Op.equal, u⟩ :: l2) := by
  obtain ⟨hne, hch⟩ := hl
  cases l with
  | nil =>
      refine ⟨t, [], rfl, ht, ?_, List.chain'_singleton _⟩
      intro x hx
      rw [List.mem_singleton.mp hx]
      exact ht
  | cons y l2 =>
      obtain ⟨op, u⟩ := y
      cases op with
      | equal =>
          refine ⟨t ++ u, l2, rfl, by simp [ht], ?_, ?_⟩
          · intro x hx
            rcases List.mem_cons.mp hx with h | h
            · rw [h]; simp [ht]
            · exact hne x (List.mem_cons_of_mem _ h)
          · cases l2 with
            | nil => exact List.chain'_singleton _
            | cons z l3 =>
                exact List.chain'_cons.mpr
                  ⟨(List.chain'_cons.mp hch).1, (List.chain'_cons.mp hch).2⟩
      | delete =>
          refine ⟨t, ⟨Op.delete, u⟩ :: l2, rfl, ht, ?_, ?_⟩
          · intro x hx
            rcases List.mem_cons.mp hx with h | h
            · rw [h]; exact ht
            · exact hne x h
          · exact List.chain'_cons.mpr ⟨⟨by simp, by simp⟩, hch⟩
      | insert =>
          refine ⟨t, ⟨Op.insert, u⟩ :: l2, rfl, ht, ?_, ?_⟩
          · intro x hx
            rcases List.mem_cons.mp hx with h | h
            · rw [h]; exact ht
            · exact hne x h
          · exact List.chain'_cons.mpr ⟨⟨by simp, by simp⟩, hch⟩

theorem canonical_emitEdits {tail : List Diff} (del ins : Str)
    (hshape : tail = [] ∨ ∃ u l2, tail = ⟨Op.equal, u⟩ :: l2)
    (hc : canonical tail) : canonical (emitEdits del ins tail) := by
  obtain ⟨hne, hch⟩ := hc
  unfold emitEdits
  by_cases hdel : del = [] <;> by_cases hins : ins = [] <;>
    simp only [hdel, hins, if_true, if_false, List.nil_append, List.append_nil,
      List.cons_append, List.nil_append, if_neg]
  · exact ⟨hne, hch⟩
  · refine ⟨?_, ?_⟩
    · intro x hx
      rcases List.mem_cons.mp hx with h | h
      · rw [h]; exact hins
      · exact hne x h
    · rcases hshape with h | ⟨u, l2, h⟩
      · rw [h]; exact List.chain'_singleton _
      · rw [h] at hch ⊢
        exact List.chain'_cons.mpr ⟨⟨by simp, by simp⟩, hch⟩
  · refine ⟨?_, ?_⟩
    · intro x hx
      rcases List.mem_cons.mp hx with h | h
      · rw [h]; exact hdel
      · exact hne x h
    · rcases hshape with h | ⟨u, l2, h⟩
      · rw [h]; exact List.chain'_singleton _
      · rw [h] at hch ⊢
        exact List.chain'_cons.mpr ⟨⟨by simp, by simp⟩, hch⟩
  · refine ⟨?_, ?_⟩
    · intro x hx
      rcases List.mem_cons.mp hx with h | h
      · rw [h]; exact hdel
      rcases List.mem_cons.mp h with h2 | h2
      · rw [h2]; exact hins
      · exact hne x h2
    · refine List.chain'_cons.mpr ⟨⟨by simp, by simp⟩, ?_⟩
      rcases hshape with h | ⟨u, l2, h⟩
      · rw [h]; exact List.chain'_singleton _
      · rw [h] at hch ⊢
        exact List.chain'_cons.mpr ⟨⟨by simp, by simp⟩, hch⟩

theorem canonical_mergeScan (d : List Diff) :
    ∀ del ins, canonical (mergeScan del ins d) := by
  induction d with
  | nil =>
      intro del ins
      exact canonical_emitEdits del ins (Or.inl rfl) canonical_nil
  | cons x rest ih =>
      intro del ins
      obtain ⟨op, t⟩ := x
      cases op with
      | delete => simpa [mergeScan] using ih (del ++ t) ins
      | insert => simpa [mergeScan] using ih del (ins ++ t)
      | equal =>
          by_cases ht : t = []
          · simpa [mergeScan, ht] using ih del ins
          · simp only [mergeScan, ht, if_false]
            obtain ⟨u, l2, heq, hu, hcan⟩ :=
              canonical_pushEqual ht (ih [] [])
            rw [heq]
            exact canonical_emitEdits del ins (Or.inr ⟨u, l2, rfl⟩) hcan

/-- Accumulator compatibility with the head of the remaining script:
pending edits may only precede the operations the canonical order allows. -/
def gapOk (del ins : Str) : List Diff → Prop
  | [] => True
  | x :: _ => (x.op = Op.delete → del = [] ∧ ins = []) ∧
      (x.op = Op.insert → ins = [])

theorem mergeScan_eq_of_canonical (d : List Diff) :
    ∀ del ins, canonical d → gapOk del ins d →
      mergeScan del ins d = emitEdits del ins d := by
  induction d with
  | nil => intro del ins _ _; rfl
  | cons x rest ih =>
      intro del ins hc hg
      obtain ⟨op, t⟩ := x
      have ht : t ≠ [] := hc.1 ⟨op, t⟩ (List.mem_cons_self _ _)
      cases op with
      | delete =>
          obtain ⟨hdel, hins⟩ := hg.1 rfl
          subst hdel; subst hins
          have hrest : canonical rest := canonical_tail hc
          have hgap : gapOk t [] rest := by
            cases rest with
            | nil => trivial
            | cons y l3 =>
                have hok := (List.chain'_cons.mp hc.2).1
                refine ⟨fun hy => absurd hy.symm ?_, fun _ => rfl⟩
                intro hy
                exact hok.1 (by simp [hy])
          have := ih t [] hrest hgap
          simp only [mergeScan, List.nil_append, this]
          simp [emitEdits, ht]
      | insert =>
          have hins := hg.2 rfl
          subst hins
          have hrest : canonical rest := canonical_tail hc
          have hgap : gapOk del t rest := by
            cases rest with
            | nil => trivial
            | cons y l3 =>
                have hok := (List.chain'_cons.mp hc.2).1
                constructor
                · intro hy
                  exact absurd ⟨rfl, hy⟩ hok.2
                · intro hy
                  exact absurd hy.symm (by intro h; exact hok.1 (by simp [h]))
          have := ih del t hrest hgap
          simp only [mergeScan, List.nil_append, this]
          simp [emitEdits, ht]
      | equal =>
          have hrest : canonical rest := canonical_tail hc
          have hid : mergeScan [] [] rest = rest := by
            have hgap : gapOk [] [] rest := by
              cases rest with
              | nil => trivial
              | cons y l3 => exact ⟨fun _ => ⟨rfl, rfl⟩, fun _ => rfl⟩
            rw [ih [] [] hrest hgap, emitEdits_nil_nil]
          have hshape : rest = [] ∨ ∃ x l2, rest = x :: l2 ∧ x.op ≠ Op.equal := by
            cases rest with
            | nil => exact Or.inl rfl
            | cons y l3 =>
                refine Or.inr ⟨y, l3, rfl, ?_⟩
                have hok := (List.chain'_cons.mp hc.2).1
                intro h
                exact hok.1 (by simp [h])
          simp only [mergeScan, ht, if_false, hid,
            pushEqual_of_ne hshape t]

theorem mergeScan_id {d : List Diff} (hc : canonical d) :
    mergeScan [] [] d = d := by
  rw [mergeScan_eq_of_canonical d [] [] hc ?_, emitEdits_nil_nil]
  cases d with
  | nil => trivial
  | cons y l3 => exact ⟨fun _ => ⟨rfl, rfl⟩, fun _ => rfl⟩

theorem diff_text1_slideScan (l : List Diff) :
    diff_text1 (slideScan l) = diff_text1 l := by
  induction l using slideScan.induct with
  | case1 aop a xop x bop b rest h hsuf ih =>
      obtain ⟨ha, hb, hx⟩ := h
      subst ha; subst hb
      obtain ⟨x0, hx0⟩ := hsuf
      have h1 : x.length - a.length = x0.length := by
        rw [← hx0]; simp
      have htake : x.take (x.length - a.length) = x0 := by
        rw [h1, ← hx0, List.take_left]
      rw [slideScan, dif_pos ⟨rfl, rfl, hx⟩, if_pos ⟨x0, hx0⟩]
      cases xop with
      | equal => exact absurd rfl hx
      | delete =>
          simp only [diff_text1, ih, htake, ← hx0]
          simp [List.append_assoc]
      | insert =>
          simp only [diff_text1, ih, htake, ← hx0]
          simp
  | case2 aop a xop x bop b rest h hsuf hpre ih =>
      obtain ⟨ha, hb, hx⟩ := h
      subst ha; subst hb
      obtain ⟨x1, hx1⟩ := hpre
      have hdrop : x.drop b.length = x1 := by
        rw [← hx1, List.drop_left]
      rw [slideScan, dif_pos ⟨rfl, rfl, hx⟩, if_neg hsuf,
        if_pos ⟨x1, hx1⟩]
      rw [hdrop] at ih
      rw [hdrop]
      cases xop with
      | equal => exact absurd rfl hx
      | delete =>
          simp only [diff_text1, ih]
          rw [← hx1]
          simp [List.append_assoc]
      | insert =>
          simp only [diff_text1, ih]
          simp
  | case3 aop a xop x bop b rest h hsuf hpre ih =>
      rw [slideScan, dif_pos h, if_neg hsuf, if_neg hpre]
      simp only [diff_text1, ih]
  | case4 aop a xop x bop b rest h ih =>
      rw [slideScan, dif_neg h]
      simp only [diff_text1, ih]
  | case5 l hfalse =>
      cases l with
      | nil => simp [slideScan]
      | cons p l1 =>
          cases l1 with
          | nil => simp [slideScan]
          | cons q l2 =>
              cases l2 with
              | nil => simp [slideScan]
              | cons r rest =>
                  exact absurd rfl
                    (hfalse p.op p.text q.op q.text r.op r.text rest)

theorem diff_text2_slideScan (l : List Diff) :
    diff_text2 (slideScan l) = diff_text2 l := by
  induction l using slideScan.induct with
  | case1 aop a xop x bop b rest h hsuf ih =>
      obtain ⟨ha, hb, hx⟩ := h
      subst ha; subst hb
      obtain ⟨x0, hx0⟩ := hsuf
      have h1 : x.length - a.length = x0.length := by
        rw [← hx0]; simp
      have htake : x.take (x.length - a.length) = x0 := by
        rw [h1, ← hx0, List.take_left]
      rw [slideScan, dif_pos ⟨rfl, rfl, hx⟩, if_pos ⟨x0, hx0⟩]
      cases xop with
      | equal => exact absurd rfl hx
      | insert =>
          simp only [diff_text2, ih, htake, ← hx0]
          simp [List.append_assoc]
      | delete =>
          simp only [diff_text2, ih, htake, ← hx0]
          simp
  | case2 aop a xop x bop b rest h hsuf hpre ih =>
      obtain ⟨ha, hb, hx⟩ := h
      subst ha; subst hb
      obtain ⟨x1, hx1⟩ := hpre
      have hdrop : x.drop b.length = x1 := by
        rw [← hx1, List.drop_left]
      rw [slideScan, dif_pos ⟨rfl, rfl, hx⟩, if_neg hsuf,
        if_pos ⟨x1, hx1⟩]
      rw [hdrop] at ih
      rw [hdrop]
      cases xop with
      | equal => exact absurd rfl hx
      | insert =>
          simp only [diff_text2, ih]
          rw [← hx1]
          simp [List.append_assoc]
      | delete =>
          simp only [diff_text2, ih]
          simp
  | case3 aop a xop x bop b rest h hsuf hpre ih =>
      rw [slideScan, dif_pos h, if_neg hsuf, if_neg hpre]
      simp only [diff_text2, ih]
  | case4 aop a xop x bop b rest h ih =>
      rw [slideScan, dif_neg h]
      simp only [diff_text2, ih]
  | case5 l hfalse =>
      cases l with
      | nil => simp [slideScan]
      | cons p l1 =>
          cases l1 with
          | nil => simp [slideScan]
          | cons q l2 =>
              cases l2 with
              | nil => simp [slideScan]
              | cons r rest =>
                  exact absurd rfl
                    (hfalse p.op p.text q.op q.text r.op r.text rest)

theorem slideScan_length_le (l : List Diff) :
    (slideScan l).length ≤ l.length := by
  induction l using slideScan.induct with
  | case1 aop a xop x bop b rest h hsuf ih =>
      rw [slideScan, dif_pos h, if_pos hsuf]
      simp only [List.length_cons] at ih ⊢
      omega
  | case2 aop a xop x bop b rest h hsuf hpre ih =>
      rw [slideScan, dif_pos h, if_neg hsuf, if_pos hpre]
      simp only [List.length_cons] at ih ⊢
      omega
  | case3 aop a xop x bop b rest h hsuf hpre ih =>
      rw [slideScan, dif_pos h, if_neg hsuf, if_neg hpre]
      simp only [List.length_cons] at ih ⊢
      omega
  | case4 aop a xop x bop b rest h ih =>
      rw [slideScan, dif_neg h]
      simp only [List.length_cons] at ih ⊢
      omega
  | case5 l hfalse =>
      cases l with
      | nil => simp [slideScan]
      | cons p l1 =>
          cases l1 with
          | nil => simp [slideScan]
          | cons q l2 =>
              cases l2 with
              | nil => simp [slideScan]
              | cons r rest =>
                  exact absurd rfl
                    (hfalse p.op p.text q.op q.text r.op r.text rest)

theorem slideScan_lt_of_ne {l : List Diff} (hne : slideScan l ≠ l) :
    (slideScan l).length < l.length := by
  induction l using slideScan.induct with
  | case1 aop a xop x bop b rest h hsuf ih =>
      rw [slideScan, dif_pos h, if_pos hsuf]
      have := slideScan_length_le (⟨Op.equal, a ++ b⟩ :: rest)
      simp only [List.length_cons] at this ⊢
      omega
  | case2 aop a xop x bop b rest h hsuf hpre ih =>
      rw [slideScan, dif_pos h, if_neg hsuf, if_pos hpre]
      have := slideScan_length_le
        (⟨xop, x.drop b.length ++ b⟩ :: rest)
      simp only [List.length_cons] at this ⊢
      omega
  | case3 aop a xop x bop b rest h hsuf hpre ih =>
      rw [slideScan, dif_pos h, if_neg hsuf, if_neg hpre] at hne ⊢
      have htail : slideScan (⟨xop, x⟩ :: ⟨bop, b⟩ :: rest) ≠
          ⟨xop, x⟩ :: ⟨bop, b⟩ :: rest := by
        intro hcontra
        exact hne (by rw [hcontra])
      have := ih htail
      simp only [List.length_cons] at this ⊢
      omega
  | case4 aop a xop x bop b rest h ih =>
      rw [slideScan, dif_neg h] at hne ⊢
      have htail : slideScan (⟨xop, x⟩ :: ⟨bop, b⟩ :: rest) ≠
          ⟨xop, x⟩ :: ⟨bop, b⟩ :: rest := by
        intro hcontra
        exact hne (by rw [hcontra])
      have := ih htail
      simp only [List.length_cons] at this ⊢
      omega
  | case5 l hfalse =>
      cases l with
      | nil => simp [slideScan] at hne
      | cons p l1 =>
          cases l1 with
          | nil => simp [slideScan] at hne
          | cons q l2 =>
              cases l2 with
              | nil => simp [slideScan] at hne
              | cons r rest =>
                  exact absurd rfl
                    (hfalse p.op p.text q.op q.text r.op r.text rest)

theorem cleanupMergeLoop_spec :
    ∀ fuel d, d.length ≤ fuel →
      ∃ w, cleanupMergeLoop fuel d = mergeScan [] [] w ∧
        slideScan (mergeScan [] [] w) = mergeScan [] [] w := by
  intro fuel
  induction fuel with
  | zero =>
      intro d hd
      have hnil : d = [] := List.length_eq_zero.mp (Nat.le_zero.mp hd)
      subst hnil
      refine ⟨[], rfl, ?_⟩
      simp [mergeScan, emitEdits, slideScan]
  | succ f ih =>
      intro d hd
      by_cases hz : slideScan (mergeScan [] [] d) = mergeScan [] [] d
      · refine ⟨d, ?_, hz⟩
        simp only [cleanupMergeLoop]
        rw [if_pos hz]
      · have hlen1 : (mergeScan [] [] d).length ≤ d.length := by
          have := mergeScan_length_le d [] []
          simpa using this
        have hlen2 : (slideScan (mergeScan [] [] d)).length <
            (mergeScan [] [] d).length := slideScan_lt_of_ne hz
        obtain ⟨w, hw1, hw2⟩ :=
          ih (slideScan (mergeScan [] [] d)) (by omega)
        refine ⟨w, ?_, hw2⟩
        simp only [cleanupMergeLoop]
        rw [if_neg hz]
        exact hw1

theorem diff_text1_cleanupMergeLoop :
    ∀ fuel d, diff_text1 (cleanupMergeLoop fuel d) = diff_text1 d := by
  intro fuel
  induction fuel with
  | zero =>
      intro d
      simpa using diff_text1_mergeScan d [] []
  | succ f ih =>
      intro d
      simp only [cleanupMergeLoop]
      by_cases hz : slideScan (mergeScan [] [] d) = mergeScan [] [] d
      · rw [if_pos hz]
        simpa using diff_text1_mergeScan d [] []
      · rw [if_neg hz, ih]
        rw [diff_text1_slideScan]
        simpa using diff_text1_mergeScan d [] []

theorem diff_text2_cleanupMergeLoop :
    ∀ fuel d, diff_text2 (cleanupMergeLoop fuel d) = diff_text2 d := by
  intro fuel
  induction fuel with
  | zero =>
      intro d
      simpa using diff_text2_mergeScan d [] []
  | succ f ih =>
      intro d
      simp only [cleanupMergeLoop]
      by_cases hz : slideScan (mergeScan [] [] d) = mergeScan [] [] d
      · rw [if_pos hz]
        simpa using diff_text2_mergeScan d [] []
      · rw [if_neg hz, ih]
        rw [diff_text2_slideScan]
        simpa using diff_text2_mergeScan d [] []

theorem diff_text1_cleanupMerge (d : List Diff) :
    diff_text1 (diff_cleanupMerge d) = diff_text1 d :=
  diff_text1_cleanupMergeLoop _ d

theorem diff_text2_cleanupMerge (d : List Diff) :
    diff_text2 (diff_cleanupMerge d) = diff_text2 d :=
  diff_text2_cleanupMergeLoop _ d

theorem canonical_cleanupMerge (d : List Diff) :
    canonical (diff_cleanupMerge d) := by
  obtain ⟨w, hw, _⟩ := cleanupMergeLoop_spec (d.length + 1) d (by omega)
  unfold diff_cleanupMerge
  rw [hw]
  exact canonical_mergeScan w [] []

/-- **C4**: for every diff script after the cleanup (merge) pass has run, no
two adjacent diffs carry the same operation, and no Equal diff has empty
text (no empty diff survives at all, so in particular no empty Equal unless
the whole script is empty). -/
theorem claim_C4_cleanupMerge_invariant (d : List Diff) :
    ((diff_cleanupMerge d).Chain' fun x y => x.op ≠ y.op) ∧
      ∀ x ∈ diff_cleanupMerge d, x.text ≠ [] := by
  have hc := canonical_cleanupMerge d
  exact ⟨List.Chain'.imp (fun a b h => h.1) hc.2, hc.1⟩

/-- **C5**: `diff_cleanupMerge` is idempotent — applying the merge cleanup
twice yields the same script as applying it once. -/
theorem claim_C5_cleanupMerge_idempotent (d : List Diff) :
    diff_cleanupMerge (diff_cleanupMerge d) = diff_cleanupMerge d := by
  obtain ⟨w, hw, hstable⟩ := cleanupMergeLoop_spec (d.length + 1) d (by omega)
  unfold diff_cleanupMerge
  rw [hw]
  have hid : mergeScan [] [] (mergeScan [] [] w) = mergeScan [] [] w :=
    mergeScan_id (canonical_mergeScan w [] [])
  simp only [cleanupMergeLoop]
  rw [hid, hstable, if_pos rfl]

/-! ## Primitive text operations and the half-match speedup

Modelled from the spec, sections 4.1 (common prefix, suffix, overlap,
half-match) and 3 (configuration parameters). -/

/-- The engine configuration (`index.d.ts` lines 283-309, spec section 3).
Rationals stand for the floating-point settings. -/
structure Config where
  Diff_Timeout : ℚ
  Diff_EditCost : Nat
  Match_Threshold : ℚ
  Match_Distance : Nat
  Patch_DeleteThreshold : ℚ
  Patch_Margin : Nat
  Match_MaxBits : Nat
deriving Repr

/-- Default configuration: timeout on, margin 4, loose threshold; the
search-window cap is 0 (unlimited), which the spec permits because this
embedding's match search is not register-width-limited. -/
def defaultConfig : Config :=
  { Diff_Timeout := 1
    Diff_EditCost := 4
    Match_Threshold := mkRat 1 2
    Match_Distance := 1000
    Patch_DeleteThreshold := mkRat 1 2
    Patch_Margin := 4
    Match_MaxBits := 0 }

section TokenOps

variable {α : Type} [DecidableEq α]

/-- `diff_commonPrefix` (`index.d.ts` lines 365-371): number of characters
common to the start of both texts. -/
def commonPrefixLen : List α → List α → Nat
  | a :: s, b :: t => if a = b then commonPrefixLen s t + 1 else 0
  | _, _ => 0

/-- `diff_commonSuffix` (`index.d.ts` lines 373-379): number of characters
common to the end of both texts. -/
def commonSuffixLen (s t : List α) : Nat :=
  commonPrefixLen s.reverse t.reverse

theorem commonPrefixLen_le_left (s : List α) :
    ∀ t, commonPrefixLen s t ≤ s.length := by
  induction s with
  | nil => intro t; cases t <;> simp [commonPrefixLen]
  | cons a s2 ih =>
      intro t
      cases t with
      | nil => simp [commonPrefixLen]
      | cons b t2 =>
          by_cases hab : a = b <;> simp [commonPrefixLen, hab]
          exact ih t2

theorem commonPrefixLen_le_right (s : List α) :
    ∀ t, commonPrefixLen s t ≤ t.length := by
  induction s with
  | nil => intro t; cases t <;> simp [commonPrefixLen]
  | cons a s2 ih =>
      intro t
      cases t with
      | nil => simp [commonPrefixLen]
      | cons b t2 =>
          by_cases hab : a = b <;> simp [commonPrefixLen, hab]
          exact ih t2

theorem commonPrefixLen_take_eq (s : List α) :
    ∀ t, s.take (commonPrefixLen s t) = t.take (commonPrefixLen s t) := by
  induction s with
  | nil => intro t; cases t <;> simp [commonPrefixLen]
  | cons a s2 ih =>
      intro t
      cases t with
      | nil => simp [commonPrefixLen]
      | cons b t2 =>
          by_cases hab : a = b <;> simp [commonPrefixLen, hab]
          exact ih t2

theorem commonSuffixLen_le_left (s t : List α) :
    commonSuffixLen s t ≤ s.length := by
  have := commonPrefixLen_le_left s.reverse t.reverse
  simpa [commonSuffixLen] using this

theorem commonSuffixLen_le_right (s t : List α) :
    commonSuffixLen s t ≤ t.length := by
  have := commonPrefixLen_le_right s.reverse t.reverse
  simpa [commonSuffixLen] using this

theorem commonSuffixLen_drop_eq (s t : List α) :
    s.drop (s.length - commonSuffixLen s t) =
      t.drop (t.length - commonSuffixLen s t) := by
  have h := commonPrefixLen_take_eq s.reverse t.reverse
  have h2 := congrArg List.reverse h
  rw [List.reverse_take, List.reverse_take] at h2
  simpa [commonSuffixLen] using h2

omit [DecidableEq α] in
/-- Reassembling a list from a window cut at `x` with width `y`. -/
theorem take_window_drop (l : List α) (x y : Nat) :
    l.take x ++ ((l.drop x).take y ++ l.drop (x + y)) = l := by
  have h1 : l.drop (x + y) = (l.drop x).drop y := by
    rw [List.drop_drop]
  rw [h1, List.take_append_drop, List.take_append_drop]

/-- One candidate decomposition around seed position `j` of the short text
and split point `i` of the long text. -/
def hmCandidate (long short : List α) (i j : Nat) :
    List α × List α × List α × List α × List α :=
  let pre := commonPrefixLen (long.drop i) (short.drop j)
  let suf := commonSuffixLen (long.take i) (short.take j)
  (long.take (i - suf), long.drop (i + pre),
    short.take (j - suf), short.drop (j + pre),
    (short.drop (j - suf)).take (suf + pre))

/-- Best seed occurrence for `diff_halfMatchI_`: scan the short text for
occurrences of a quarter length seed taken at split point `i` of the long
text, and keep the position with the longest common surrounding run. -/
def hmBest (long short : List α) (i : Nat) : Option (Nat × Nat × Nat) :=
  let seed := (long.drop i).take (long.length / 4)
  ((List.range (short.length + 1)).filter
    (fun j => decide ((short.drop j).take seed.length = seed))).foldl
    (fun acc j =>
      let pre := commonPrefixLen (long.drop i) (short.drop j)
      let suf := commonSuffixLen (long.take i) (short.take j)
      match acc with
      | none => some (j, pre, suf)
      | some (_j0, pre0, suf0) =>
          if suf0 + pre0 < suf + pre then some (j, pre, suf) else acc) none

/-- `diff_halfMatchI_`: decompose around the best seed occurrence, accepted
only when the common run covers at least half of the long text. -/
def diff_halfMatchI (long short : List α) (i : Nat) :
    Option (List α × List α × List α × List α × List α) :=
  match hmBest long short i with
  | none => none
  | some (j, pre, suf) =>
      if long.length ≤ 2 * (suf + pre) then some (hmCandidate long short i j)
      else none

/-- `diff_halfMatch_` (`index.d.ts` lines 391-402): do the two texts share a
substring at least half the length of the longer text?  Disabled when the
diff deadline is off (spec section 4.1: it trades optimality for speed and
only pays off under a deadline). -/
def diff_halfMatch (cfg : Config) (text1 text2 : List α) :
    Option (List α × List α × List α × List α × List α) :=
  if cfg.Diff_Timeout ≤ 0 then none
  else
    let long := if text2.length < text1.length then text1 else text2
    let short := if text2.length < text1.length then text2 else text1
    if long.length < 4 ∨ 2 * short.length < long.length then none
    else
      let hm1 := diff_halfMatchI long short ((long.length + 3) / 4)
      let hm2 := diff_halfMatchI long short ((long.length + 1) / 2)
      let hm :=
        match hm1, hm2 with
        | none, none => none
        | some r, none => some r
        | none, some r => some r
        | some r1, some r2 =>
            if r2.2.2.2.2.length ≤ r1.2.2.2.2.length then some r1 else some r2
      match hm with
      | none => none
      | some (a1, a2, b1, b2, mid) =>
          if text2.length < text1.length then some (a1, a2, b1, b2, mid)
          else some (b1, b2, a1, a2, mid)

theorem hmCandidate_spec (long short : List α) (i j : Nat)
    (hi : i ≤ long.length) (hj : j ≤ short.length) :
    ∀ la lb sa sb mid, hmCandidate long short i j = (la, lb, sa, sb, mid) →
      la ++ (mid ++ lb) = long ∧ sa ++ (mid ++ sb) = short ∧
      mid.length = commonSuffixLen (long.take i) (short.take j) +
        commonPrefixLen (long.drop i) (short.drop j) := by
  intro la lb sa sb mid h
  set pre := commonPrefixLen (long.drop i) (short.drop j) with hpre
  set suf := commonSuffixLen (long.take i) (short.take j) with hsuf
  unfold hmCandidate at h
  simp only [Prod.mk.injEq, ← hpre, ← hsuf] at h
  obtain ⟨h1, h2, h3, h4, h5⟩ := h
  have hsi : suf ≤ i := by
    have := commonSuffixLen_le_left (long.take i) (short.take j)
    rw [List.length_take] at this
    omega
  have hsj : suf ≤ j := by
    have := commonSuffixLen_le_right (long.take i) (short.take j)
    rw [List.length_take] at this
    omega
  have hpl : pre ≤ long.length - i := by
    have := commonPrefixLen_le_left (long.drop i) (short.drop j)
    rw [List.length_drop] at this
    exact this
  have hps : pre ≤ short.length - j := by
    have := commonPrefixLen_le_right (long.drop i) (short.drop j)
    rw [List.length_drop] at this
    exact this
  have hsufpart : (long.drop (i - suf)).take suf =
      (short.drop (j - suf)).take suf := by
    have hd := commonSuffixLen_drop_eq (long.take i) (short.take j)
    rw [List.length_take, List.length_take] at hd
    have hmin1 : min i long.length = i := Nat.min_eq_left hi
    have hmin2 : min j short.length = j := Nat.min_eq_left hj
    rw [hmin1, hmin2] at hd
    rw [List.drop_take, List.drop_take] at hd
    have e1 : i - (i - suf) = suf := by omega
    have e2 : j - (j - suf) = suf := by omega
    rw [e1, e2] at hd
    exact hd
  have hprepart : (long.drop i).take pre = (short.drop j).take pre :=
    commonPrefixLen_take_eq (long.drop i) (short.drop j)
  have hmid_long : mid = (long.drop (i - suf)).take (suf + pre) := by
    rw [← h5]
    rw [List.take_add, List.take_add]
    rw [List.drop_drop, List.drop_drop]
    have e1 : i - suf + suf = i := by omega
    have e2 : j - suf + suf = j := by omega
    rw [e1, e2, hsufpart, hprepart]
  refine ⟨?_, ?_, ?_⟩
  · rw [← h1, ← h2, hmid_long]
    have e3 : i + pre = (i - suf) + (suf + pre) := by omega
    rw [e3]
    have e4 : long.take (i - suf) = long.take (i - suf) := rfl
    exact take_window_drop long (i - suf) (suf + pre)
  · rw [← h3, ← h4, ← h5]
    have e3 : j + pre = (j - suf) + (suf + pre) := by omega
    rw [e3]
    exact take_window_drop short (j - suf) (suf + pre)
  · rw [← h5, List.length_take, List.length_drop]
    omega

/-- Shape of every state reached by the best-candidate fold inside
`diff_halfMatchI`. -/
theorem hmFold_spec (long short : List α) (i : Nat) (N : Nat) :
    ∀ (js : List Nat) (acc : Option (Nat × Nat × Nat)),
      (∀ j ∈ js, j ≤ N) →
      (∀ j pre suf, acc = some (j, pre, suf) → j ≤ N ∧
        pre = commonPrefixLen (long.drop i) (short.drop j) ∧
        suf = commonSuffixLen (long.take i) (short.take j)) →
      ∀ j pre suf,
        js.foldl (fun acc j =>
          let pre := commonPrefixLen (long.drop i) (short.drop j)
          let suf := commonSuffixLen (long.take i) (short.take j)
          match acc with
          | none => some (j, pre, suf)
          | some (_j0, pre0, suf0) =>
              if suf0 + pre0 < suf + pre then some (j, pre, suf) else acc)
          acc = some (j, pre, suf) →
        j ≤ N ∧ pre = commonPrefixLen (long.drop i) (short.drop j) ∧
          suf = commonSuffixLen (long.take i) (short.take j) := by
  intro js
  induction js with
  | nil =>
      intro acc _ hacc j pre suf h
      exact hacc j pre suf h
  | cons j0 rest ih =>
      intro acc hmem hacc j pre suf h
      simp only [List.foldl_cons] at h
      refine ih _ (fun j hj => hmem j (List.mem_cons_of_mem _ hj)) ?_ j pre suf h
      intro j1 pre1 suf1 hstep
      cases acc with
      | none =>
          dsimp only at hstep
          injection hstep with hstep
          injection hstep with ha hb
          injection hb with hb1 hb2
          subst ha; subst hb1; subst hb2
          exact ⟨hmem j0 (List.mem_cons_self _ _), rfl, rfl⟩
      | some trip =>
          obtain ⟨ja, prea, sufa⟩ := trip
          dsimp only at hstep
          by_cases hlt : sufa + prea <
              commonSuffixLen (long.take i) (short.take j0) +
                commonPrefixLen (long.drop i) (short.drop j0)
          · rw [if_pos hlt] at hstep
            injection hstep with hstep
            injection hstep with ha hb
            injection hb with hb1 hb2
            subst ha; subst hb1; subst hb2
            exact ⟨hmem j0 (List.mem_cons_self _ _), rfl, rfl⟩
          · rw [if_neg hlt] at hstep
            exact hacc j1 pre1 suf1 hstep

theorem hmBest_spec (long short : List α) (i : Nat) :
    ∀ j pre suf, hmBest long short i = some (j, pre, suf) →
      j ≤ short.length ∧ pre = commonPrefixLen (long.drop i) (short.drop j) ∧
        suf = commonSuffixLen (long.take i) (short.take j) := by
  intro j pre suf h
  unfold hmBest at h
  refine hmFold_spec long short i short.length _ none ?_ ?_ j pre suf h
  · intro j2 hj2
    have := List.mem_range.mp (List.mem_filter.mp hj2).1
    omega
  · intro j2 pre2 suf2 hcontra
    cases hcontra

theorem diff_halfMatchI_spec (long short : List α) (i : Nat)
    (hi : i ≤ long.length) :
    ∀ la lb sa sb mid,
      diff_halfMatchI long short i = some (la, lb, sa, sb, mid) →
      la ++ (mid ++ lb) = long ∧ sa ++ (mid ++ sb) = short ∧
        long.length ≤ 2 * mid.length := by
  intro la lb sa sb mid h
  unfold diff_halfMatchI at h
  cases hbest : hmBest long short i with
  | none => rw [hbest] at h; cases h
  | some trip =>
      obtain ⟨j, pre, suf⟩ := trip
      rw [hbest] at h
      dsimp only at h
      by_cases hg : long.length ≤ 2 * (suf + pre)
      · rw [if_pos hg] at h
        injection h with h
        obtain ⟨hj, hpre, hsuf⟩ := hmBest_spec long short i j pre suf hbest
        obtain ⟨e1, e2, e3⟩ := hmCandidate_spec long short i j hi hj
          la lb sa sb mid h
        refine ⟨e1, e2, ?_⟩
        rw [e3, ← hpre, ← hsuf]
        omega
      · rw [if_neg hg] at h
        cases h

theorem diff_halfMatch_spec (cfg : Config) (t1 t2 : List α) :
    ∀ a1 a2 b1 b2 mid,
      diff_halfMatch cfg t1 t2 = some (a1, a2, b1, b2, mid) →
      a1 ++ (mid ++ a2) = t1 ∧ b1 ++ (mid ++ b2) = t2 ∧
        max t1.length t2.length ≤ 2 * mid.length := by
  intro a1 a2 b1 b2 mid h
  unfold diff_halfMatch at h
  by_cases h0 : cfg.Diff_Timeout ≤ 0
  · rw [if_pos h0] at h; cases h
  rw [if_neg h0] at h
  dsimp only at h
  by_cases hcmp : t2.length < t1.length <;>
    simp only [hcmp, if_pos, if_neg, if_true, if_false] at h
  · by_cases hg : t1.length < 4 ∨ 2 * t2.length < t1.length
    · rw [if_pos hg] at h; cases h
    rw [if_neg hg] at h
    push_neg at hg
    have hi1 : (t1.length + 3) / 4 ≤ t1.length := by omega
    have hi2 : (t1.length + 1) / 2 ≤ t1.length := by omega
    have hmax : max t1.length t2.length = t1.length := by omega
    cases h1 : diff_halfMatchI t1 t2 ((t1.length + 3) / 4) with
    | none =>
        cases h2 : diff_halfMatchI t1 t2 ((t1.length + 1) / 2) with
        | none => rw [h1, h2] at h; cases h
        | some r2 =>
            rw [h1, h2] at h
            dsimp only at h
            injection h with h
            obtain ⟨rla, rlb, rsa, rsb, rmid⟩ := r2
            obtain ⟨e1, e2, e3⟩ :=
              diff_halfMatchI_spec t1 t2 _ hi2 rla rlb rsa rsb rmid h2
            simp only [Prod.mk.injEq] at h
            obtain ⟨q1, q2, q3, q4, q5⟩ := h
            subst q1; subst q2; subst q3; subst q4; subst q5
            exact ⟨e1, e2, by omega⟩
    | some r1 =>
        obtain ⟨rla, rlb, rsa, rsb, rmid⟩ := r1
        obtain ⟨e1, e2, e3⟩ :=
          diff_halfMatchI_spec t1 t2 _ hi1 rla rlb rsa rsb rmid h1
        cases h2 : diff_halfMatchI t1 t2 ((t1.length + 1) / 2) with
        | none =>
            rw [h1, h2] at h
            dsimp only at h
            injection h with h
            simp only [Prod.mk.injEq] at h
            obtain ⟨q1, q2, q3, q4, q5⟩ := h
            subst q1; subst q2; subst q3; subst q4; subst q5
            exact ⟨e1, e2, by omega⟩
        | some r2 =>
            obtain ⟨sla, slb, ssa, ssb, smid⟩ := r2
            obtain ⟨f1, f2, f3⟩ :=
              diff_halfMatchI_spec t1 t2 _ hi2 sla slb ssa ssb smid h2
            rw [h1, h2] at h
            dsimp only at h
            by_cases hlen : smid.length ≤ rmid.length <;>
              [rw [if_pos hlen] at h; rw [if_neg hlen] at h] <;>
              dsimp only at h <;> injection h with h <;>
              simp only [Prod.mk.injEq] at h <;>
              obtain ⟨q1, q2, q3, q4, q5⟩ := h
            · subst q1; subst q2; subst q3; subst q4; subst q5
              exact ⟨e1, e2, by omega⟩
            · subst q1; subst q2; subst q3; subst q4; subst q5
              exact ⟨f1, f2, by omega⟩
  · by_cases hg : t2.length < 4 ∨ 2 * t1.length < t2.length
    · rw [if_pos hg] at h; cases h
    rw [if_neg hg] at h
    push_neg at hg
    have hi1 : (t2.length + 3) / 4 ≤ t2.length := by omega
    have hi2 : (t2.length + 1) / 2 ≤ t2.length := by omega
    cases h1 : diff_halfMatchI t2 t1 ((t2.length + 3) / 4) with
    | none =>
        cases h2 : diff_halfMatchI t2 t1 ((t2.length + 1) / 2) with
        | none => rw [h1, h2] at h; cases h
        | some r2 =>
            rw [h1, h2] at h
            dsimp only at h
            obtain ⟨rla, rlb, rsa, rsb, rmid⟩ := r2
            obtain ⟨e1, e2, e3⟩ :=
              diff_halfMatchI_spec t2 t1 _ hi2 rla rlb rsa rsb rmid h2
            injection h with h
            simp only [Prod.mk.injEq] at h
            obtain ⟨q1, q2, q3, q4, q5⟩ := h
            subst q1; subst q2; subst q3; subst q4; subst q5
            exact ⟨e2, e1, by omega⟩
    | some r1 =>
        obtain ⟨rla, rlb, rsa, rsb, rmid⟩ := r1
        obtain ⟨e1, e2, e3⟩ :=
          diff_halfMatchI_spec t2 t1 _ hi1 rla rlb rsa rsb rmid h1
        cases h2 : diff_halfMatchI t2 t1 ((t2.length + 1) / 2) with
        | none =>
            rw [h1, h2] at h
            dsimp only at h
            injection h with h
            simp only [Prod.mk.injEq] at h
            obtain ⟨q1, q2, q3, q4, q5⟩ := h
            subst q1; subst q2; subst q3; subst q4; subst q5
            exact ⟨e2, e1, by omega⟩
        | some r2 =>
            obtain ⟨sla, slb, ssa, ssb, smid⟩ := r2
            obtain ⟨f1, f2, f3⟩ :=
              diff_halfMatchI_spec t2 t1 _ hi2 sla slb ssa ssb smid h2
            rw [h1, h2] at h
            dsimp only at h
            by_cases hlen : smid.length ≤ rmid.length <;>
              [rw [if_pos hlen] at h; rw [if_neg hlen] at h] <;>
              dsimp only at h <;> injection h with h <;>
              simp only [Prod.mk.injEq] at h <;>
              obtain ⟨q1, q2, q3, q4, q5⟩ := h
            · subst q1; subst q2; subst q3; subst q4; subst q5
              exact ⟨e2, e1, by omega⟩
            · subst q1; subst q2; subst q3; subst q4; subst q5
              exact ⟨f2, f1, by omega⟩

end TokenOps

/-- **C8**: `diff_halfMatch_` returns a non-null five-part decomposition
only if the common middle it reports is a substring of both texts with
length at least half the length of the longer text, and the speedup is
disabled (returns no match) whenever `Diff_Timeout` is 0. -/
theorem claim_C8_halfMatch (cfg : Config) (a b : Str) :
    (cfg.Diff_Timeout = 0 → diff_halfMatch cfg a b = none) ∧
      (∀ a1 a2 b1 b2 mid,
        diff_halfMatch cfg a b = some (a1, a2, b1, b2, mid) →
        (mid <:+: a) ∧ (mid <:+: b) ∧
          max a.length b.length ≤ 2 * mid.length) := by
  constructor
  · intro h0
    unfold diff_halfMatch
    rw [if_pos (by rw [h0])]
  · intro a1 a2 b1 b2 mid h
    obtain ⟨e1, e2, e3⟩ := diff_halfMatch_spec cfg a b a1 a2 b1 b2 mid h
    exact ⟨⟨a1, a2, by rw [← List.append_assoc] at e1; exact e1⟩,
      ⟨b1, b2, by rw [← List.append_assoc] at e2; exact e2⟩, e3⟩

/-- Witness for C8 at concrete inputs: with the timeout set to 0 the
speedup is disabled, and on a pair that does produce a decomposition the
reported middle is a half-covering substring of both texts. -/
theorem claim_C8_halfMatch_witness :
    diff_halfMatch
      { defaultConfig with Diff_Timeout := 0 }
      ("abcdxxxx".toList) ("xxxx".toList) = none ∧
    (("xxxx".toList : Str) <:+: ("abcdxxxx".toList : Str)) ∧
      (("xxxx".toList : Str) <:+: ("xxxx".toList : Str)) ∧
      max ("abcdxxxx".toList : Str).length ("xxxx".toList : Str).length ≤
        2 * ("xxxx".toList : Str).length := by
  constructor
  · exact (claim_C8_halfMatch _ _ _).1 rfl
  · exact (claim_C8_halfMatch defaultConfig "abcdxxxx".toList
      "xxxx".toList).2 "abcd".toList [] [] [] "xxxx".toList (by decide)

/-! ## The diff engine

Modelled from the spec, section 4.2: strip the common prefix and suffix,
handle empty remainders, try the half-match speedup, line-mode pre-pass for
large texts, and the Myers bisection with forward and reverse frontiers.
The wall-clock deadline is modelled as fuel passed down the recursion, as
spec section 9 directs; running out degrades the unresolved region to a
single Delete plus Insert, the documented approximation fallback. -/

section DiffEngine

variable {α : Type} [DecidableEq α]

/-- Frontier map of the bisection: diagonal index to furthest x reached,
defaulting to -1 for untouched diagonals. -/
def vget (m : List (Int × Int)) (k : Int) : Int := (m.lookup k).getD (-1)

/-- Record the furthest x for a diagonal. -/
def vset (m : List (Int × Int)) (k x : Int) : List (Int × Int) := (k, x) :: m

/-- One forward frontier extension at diagonal `k1`: pick the better
neighbouring diagonal, then follow the snake of equal tokens. -/
def fwdExtend (a b : List α) (d : Nat) (v1 : List (Int × Int)) (k1 : Int) :
    List (Int × Int) × Int × Int :=
  let x0 : Int :=
    if k1 = -(d : Int) ∨ (k1 ≠ (d : Int) ∧ vget v1 (k1 - 1) < vget v1 (k1 + 1))
    then vget v1 (k1 + 1) else vget v1 (k1 - 1) + 1
  let y0 : Int := x0 - k1
  let c : Nat :=
    if 0 ≤ x0 ∧ 0 ≤ y0 then
      commonPrefixLen (a.drop x0.toNat) (b.drop y0.toNat)
    else 0
  (vset v1 k1 (x0 + c), x0 + c, y0 + c)

/-- One reverse frontier extension at diagonal `k2`, walking the reversed
texts. -/
def revExtend (a b : List α) (d : Nat) (v2 : List (Int × Int)) (k2 : Int) :
    List (Int × Int) × Int × Int :=
  let x0 : Int :=
    if k2 = -(d : Int) ∨ (k2 ≠ (d : Int) ∧ vget v2 (k2 - 1) < vget v2 (k2 + 1))
    then vget v2 (k2 + 1) else vget v2 (k2 - 1) + 1
  let y0 : Int := x0 - k2
  let c : Nat :=
    if 0 ≤ x0 ∧ 0 ≤ y0 then
      commonPrefixLen (a.reverse.drop x0.toNat) (b.reverse.drop y0.toNat)
    else 0
  (vset v2 k2 (x0 + c), x0 + c, y0 + c)

/-- Forward sweep over the diagonals of one pass, stopping at an overlap
with the reverse frontier. -/
def fwdSweep (a b : List α) (delta : Int) (front : Bool) (d : Nat)
    (v2 : List (Int × Int)) :
    List (Int × Int) → List Int → List (Int × Int) × Option (Nat × Nat)
  | v1, [] => (v1, none)
  | v1, k1 :: ks =>
      let r := fwdExtend a b d v1 k1
      if front ∧ vget v2 (delta - k1) ≠ -1 then
        let x2 : Int := (a.length : Int) - vget v2 (delta - k1)
        if x2 ≤ r.2.1 then (r.1, some (r.2.1.toNat, r.2.2.toNat))
        else fwdSweep a b delta front d v2 r.1 ks
      else fwdSweep a b delta front d v2 r.1 ks

/-- Reverse sweep over the diagonals of one pass, stopping at an overlap
with the forward frontier. -/
def revSweep (a b : List α) (delta : Int) (front : Bool) (d : Nat)
    (v1 : List (Int × Int)) :
    List (Int × Int) → List Int → List (Int × Int) × Option (Nat × Nat)
  | v2, [] => (v2, none)
  | v2, k2 :: ks =>
      let r := revExtend a b d v2 k2
      if (¬ front) ∧ vget v1 (delta - k2) ≠ -1 then
        let x1 := vget v1 (delta - k2)
        let y1 := x1 - (delta - k2)
        if (a.length : Int) - r.2.1 ≤ x1 then (r.1, some (x1.toNat, y1.toNat))
        else revSweep a b delta front d v1 r.1 ks
      else revSweep a b delta front d v1 r.1 ks

/-- The diagonals visited in pass `d`: `-d, -d+2, …, d`. -/
def diagList (d : Nat) : List Int :=
  (List.range (d + 1)).map (fun i => -(d : Int) + 2 * i)

/-- Alternate forward and reverse passes for growing `d` until the
frontiers overlap; `none` when they never meet within the bound. -/
def bisectLoop (a b : List α) (delta : Int) (front : Bool) :
    Nat → Nat → List (Int × Int) → List (Int × Int) → Option (Nat × Nat)
  | 0, _, _, _ => none
  | rem + 1, d, v1, v2 =>
      let f := fwdSweep a b delta front d v2 v1 (diagList d)
      match f.2 with
      | some p => some p
      | none =>
          let r := revSweep a b delta front d f.1 v2 (diagList d)
          match r.2 with
          | some p => some p
          | none => bisectLoop a b delta front rem (d + 1) f.1 r.1

/-- `diff_bisect_` (`index.d.ts` lines 326-336): find the middle snake of
the edit graph by running the forward and reverse frontiers simultaneously
until they meet (Myers 1986); returns the split point, or `none` when the
search exhausts its bound. -/
def diff_bisect (a b : List α) : Option (Nat × Nat) :=
  bisectLoop a b ((a.length : Int) - (b.length : Int))
    (decide ((((a.length : Int) - (b.length : Int)) % 2) ≠ 0))
    ((a.length + b.length + 1) / 2 + 1) 0 [(1, 0)] [(1, 0)]

/-- Deadline fallback: the unresolved region as one Delete plus one
Insert. -/
def coreFallback (a b : List α) : List (Op × List α) :=
  (if a = [] then [] else [(Op.delete, a)]) ++
    (if b = [] then [] else [(Op.insert, b)])

/-- The recursive diff computation over token lists (spec section 4.2,
steps 1, 2 and 4, plus the half-match speedup of section 4.1). -/
def diffCoreG (cfg : Config) : Nat → List α → List α → List (Op × List α)
  | 0, a, b => coreFallback a b
  | fuel + 1, a, b =>
      if a = b then (if a = [] then [] else [(Op.equal, a)]) else
      let p := commonPrefixLen a b
      let a0 := a.drop p
      let b0 := b.drop p
      let s := commonSuffixLen a0 b0
      let a1 := a0.take (a0.length - s)
      let b1 := b0.take (b0.length - s)
      let mid :=
        if a1 = [] then (if b1 = [] then [] else [(Op.insert, b1)])
        else if b1 = [] then [(Op.delete, a1)]
        else
          match diff_halfMatch cfg a1 b1 with
          | some (pa, sa, pb, sb, m) =>
              diffCoreG cfg fuel pa pb ++
                ((Op.equal, m) :: diffCoreG cfg fuel sa sb)
          | none =>
              match diff_bisect a1 b1 with
              | some (x, y) =>
                  diffCoreG cfg fuel (a1.take x) (b1.take y) ++
                    diffCoreG cfg fuel (a1.drop x) (b1.drop y)
              | none => [(Op.delete, a1), (Op.insert, b1)]
      (if p = 0 then [] else [(Op.equal, a.take p)]) ++ mid ++
        (if s = 0 then [] else [(Op.equal, a0.drop (a0.length - s))])

/-- Source projection of a token diff. -/
def text1G : List (Op × List α) → List α
  | [] => []
  | (op, t) :: rest => (if op = Op.insert then [] else t) ++ text1G rest

/-- Destination projection of a token diff. -/
def text2G : List (Op × List α) → List α
  | [] => []
  | (op, t) :: rest => (if op = Op.delete then [] else t) ++ text2G rest

omit [DecidableEq α] in
theorem text1G_append (l1 l2 : List (Op × List α)) :
    text1G (l1 ++ l2) = text1G l1 ++ text1G l2 := by
  induction l1 with
  | nil => simp [text1G]
  | cons x rest ih =>
      obtain ⟨op, t⟩ := x
      simp [text1G, ih]

omit [DecidableEq α] in
theorem text2G_append (l1 l2 : List (Op × List α)) :
    text2G (l1 ++ l2) = text2G l1 ++ text2G l2 := by
  induction l1 with
  | nil => simp [text2G]
  | cons x rest ih =>
      obtain ⟨op, t⟩ := x
      simp [text2G, ih]

theorem text1G_coreFallback (a b : List α) : text1G (coreFallback a b) = a := by
  unfold coreFallback
  split_ifs <;> simp_all [text1G, text1G_append]

theorem text2G_coreFallback (a b : List α) : text2G (coreFallback a b) = b := by
  unfold coreFallback
  split_ifs <;> simp_all [text2G, text2G_append]

theorem text1G_diffCoreG (cfg : Config) :
    ∀ fuel (a b : List α), text1G (diffCoreG cfg fuel a b) = a := by
  intro fuel
  induction fuel with
  | zero => intro a b; exact text1G_coreFallback a b
  | succ f ih =>
      intro a b
      by_cases hab : a = b
      · subst hab
        by_cases ha : a = [] <;>
          simp [diffCoreG, ha, text1G]
      simp only [diffCoreG, if_neg hab]
      set p := commonPrefixLen a b with hp
      set a0 := a.drop p with ha0
      set b0 := b.drop p with hb0
      set s := commonSuffixLen a0 b0 with hs
      set a1 := a0.take (a0.length - s) with ha1
      set b1 := b0.take (b0.length - s) with hb1
      have hsle : s ≤ a0.length := commonSuffixLen_le_left a0 b0
      have hmid : ∀ mid : List (Op × List α), text1G mid = a1 →
          text1G ((if p = 0 then [] else [(Op.equal, a.take p)]) ++ mid ++
            (if s = 0 then [] else [(Op.equal, a0.drop (a0.length - s))])) = a := by
        intro mid hm
        rw [text1G_append, text1G_append, hm]
        have h1 : text1G (if p = 0 then ([] : List (Op × List α))
            else [(Op.equal, a.take p)]) = a.take p := by
          split_ifs with h0
          · simp [text1G, h0]
          · simp [text1G]
        have h2 : text1G (if s = 0 then ([] : List (Op × List α))
            else [(Op.equal, a0.drop (a0.length - s))]) =
            a0.drop (a0.length - s) := by
          split_ifs with h0
          · simp [text1G, h0, List.drop_length]
          · simp [text1G]
        rw [h1, h2, ha1, List.append_assoc, List.take_append_drop, ha0,
          List.take_append_drop]
      apply hmid
      by_cases hae : a1 = []
      · by_cases hbe : b1 = [] <;> simp [hae, hbe, text1G]
      by_cases hbe : b1 = []
      · simp [hae, hbe, text1G]
      simp only [if_neg hae, if_neg hbe]
      cases hhm : diff_halfMatch cfg a1 b1 with
      | some r =>
          obtain ⟨pa, sa, pb, sb, m⟩ := r
          obtain ⟨e1, e2, e3⟩ :=
            diff_halfMatch_spec cfg a1 b1 pa sa pb sb m hhm
          simp only [text1G_append, text1G, ih]
          simp [e1]
      | none =>
          cases hbs : diff_bisect a1 b1 with
          | some xy =>
              obtain ⟨x, y⟩ := xy
              simp only [text1G_append, ih, List.take_append_drop]
          | none => simp [text1G]

theorem text2G_diffCoreG (cfg : Config) :
    ∀ fuel (a b : List α), text2G (diffCoreG cfg fuel a b) = b := by
  intro fuel
  induction fuel with
  | zero => intro a b; exact text2G_coreFallback a b
  | succ f ih =>
      intro a b
      by_cases hab : a = b
      · subst hab
        by_cases ha : a = [] <;>
          simp [diffCoreG, ha, text2G]
      simp only [diffCoreG, if_neg hab]
      set p := commonPrefixLen a b with hp
      set a0 := a.drop p with ha0
      set b0 := b.drop p with hb0
      set s := commonSuffixLen a0 b0 with hs
      set a1 := a0.take (a0.length - s) with ha1
      set b1 := b0.take (b0.length - s) with hb1
      have hsle : s ≤ b0.length := commonSuffixLen_le_right a0 b0
      have htakeq : a.take p = b.take p := commonPrefixLen_take_eq a b
      have hdropq : a0.drop (a0.length - s) = b0.drop (b0.length - s) :=
        commonSuffixLen_drop_eq a0 b0
      have hmid : ∀ mid : List (Op × List α), text2G mid = b1 →
          text2G ((if p = 0 then [] else [(Op.equal, a.take p)]) ++ mid ++
            (if s = 0 then [] else [(Op.equal, a0.drop (a0.length - s))])) = b := by
        intro mid hm
        rw [text2G_append, text2G_append, hm]
        have h1 : text2G (if p = 0 then ([] : List (Op × List α))
            else [(Op.equal, a.take p)]) = b.take p := by
          split_ifs with h0
          · simp [text2G, h0]
          · simp [text2G, htakeq]
        have h2 : text2G (if s = 0 then ([] : List (Op × List α))
            else [(Op.equal, a0.drop (a0.length - s))]) =
            b0.drop (b0.length - s) := by
          split_ifs with h0
          · simp [text2G, h0, List.drop_length]
          · simp [text2G, hdropq]
        rw [h1, h2, hb1, List.append_assoc, List.take_append_drop, hb0,
          List.take_append_drop]
      apply hmid
      by_cases hae : a1 = []
      · by_cases hbe : b1 = [] <;> simp [hae, hbe, text2G]
      by_cases hbe : b1 = []
      · simp [hae, hbe, text2G]
      simp only [if_neg hae, if_neg hbe]
      cases hhm : diff_halfMatch cfg a1 b1 with
      | some r =>
          obtain ⟨pa, sa, pb, sb, m⟩ := r
          obtain ⟨e1, e2, e3⟩ :=
            diff_halfMatch_spec cfg a1 b1 pa sa pb sb m hhm
          simp only [text2G_append, text2G, ih]
          simp [e2]
      | none =>
          cases hbs : diff_bisect a1 b1 with
          | some xy =>
              obtain ⟨x, y⟩ := xy
              simp only [text2G_append, ih, List.take_append_drop]
          | none => simp [text2G]

end DiffEngine

/-! ## Semantic cleanup and lossless realignment

Modelled from the spec, section 4.2 (cleanup semantics): semantic cleanup
removes short equalities sandwiched between larger edits and eliminates
overlapping insert and delete pairs; lossless realignment slides a single
edit bounded by two equalities to the nicest boundary by a precedence
score. -/

/-- `diff_commonOverlap_` (`index.d.ts` lines 381-389): the largest k such
that the last k characters of the first text equal the first k of the
second. -/
def commonOverlapLen (s t : Str) : Nat :=
  (List.range (min s.length t.length + 1)).foldl
    (fun acc k => if s.drop (s.length - k) = t.take k then k else acc) 0

theorem foldl_preserve {β γ : Type} (P : γ → Prop) (f : γ → β → γ)
    (l : List β) (init : γ) (hinit : P init)
    (hstep : ∀ acc x, x ∈ l → P acc → P (f acc x)) :
    P (l.foldl f init) := by
  induction l generalizing init with
  | nil => exact hinit
  | cons x rest ih =>
      exact ih (f init x) (hstep init x (List.mem_cons_self _ _) hinit)
        (fun acc y hy hacc => hstep acc y (List.mem_cons_of_mem _ hy) hacc)

theorem commonOverlapLen_spec (s t : Str) :
    s.drop (s.length - commonOverlapLen s t) =
      t.take (commonOverlapLen s t) := by
  unfold commonOverlapLen
  apply foldl_preserve (fun acc => s.drop (s.length - acc) = t.take acc)
  · simp [List.drop_length]
  · intro acc k _ hacc
    by_cases h : s.drop (s.length - k) = t.take k
    · simp [h]
    · simpa [h] using hacc

/-- Noise pass of the semantic cleanup: an equality no longer than the
edits on both of its sides is degraded to a deletion plus an insertion of
the same text. -/
def noiseStep : List Diff → List Diff
  | x :: ⟨Op.equal, m⟩ :: y :: rest =>
      if x.op ≠ Op.equal ∧ y.op ≠ Op.equal ∧
          m.length ≤ x.text.length ∧ m.length ≤ y.text.length then
        x :: ⟨Op.delete, m⟩ :: ⟨Op.insert, m⟩ :: noiseStep (y :: rest)
      else x :: noiseStep (⟨Op.equal, m⟩ :: y :: rest)
  | l => l
termination_by l => l.length

/-- Overlap pass of the semantic cleanup: a deletion followed by an
insertion where the end of one overlaps the start of the other by at least
half is split around an equality holding the overlap. -/
def overlapPass : List Diff → List Diff
  | ⟨Op.delete, d⟩ :: ⟨Op.insert, i⟩ :: rest =>
      if commonOverlapLen i d ≤ commonOverlapLen d i then
        if d.length ≤ 2 * commonOverlapLen d i ∨
            i.length ≤ 2 * commonOverlapLen d i then
          ⟨Op.delete, d.take (d.length - commonOverlapLen d i)⟩ ::
            ⟨Op.equal, i.take (commonOverlapLen d i)⟩ ::
            ⟨Op.insert, i.drop (commonOverlapLen d i)⟩ :: overlapPass rest
        else ⟨Op.delete, d⟩ :: ⟨Op.insert, i⟩ :: overlapPass rest
      else
        if i.length ≤ 2 * commonOverlapLen i d ∨
            d.length ≤ 2 * commonOverlapLen i d then
          ⟨Op.insert, i.take (i.length - commonOverlapLen i d)⟩ ::
            ⟨Op.equal, d.take (commonOverlapLen i d)⟩ ::
            ⟨Op.delete, d.drop (commonOverlapLen i d)⟩ :: overlapPass rest
        else ⟨Op.delete, d⟩ :: ⟨Op.insert, i⟩ :: overlapPass rest
  | x :: rest => x :: overlapPass rest
  | [] => []
termination_by l => l.length

/-- `diff_cleanupSemantic` (`index.d.ts` lines 404-408): eliminate noise
equalities, re-merge, then split overlapping insert and delete pairs. -/
def diff_cleanupSemantic (d : List Diff) : List Diff :=
  overlapPass (diff_cleanupMerge (noiseStep d))

/-- Whitespace for boundary scoring. -/
def isWS (c : Char) : Bool := c = ' ' ∨ c = '\t' ∨ c = '\n' ∨ c = '\r'

/-- Line break for boundary scoring. -/
def isLB (c : Char) : Bool := c = '\n' ∨ c = '\r'

/-- Boundary niceness score of splitting between `one` and `two` (spec
section 4.2: line break over sentence break over word break over other,
edges best). -/
def semanticScore (one two : Str) : Nat :=
  match one.getLast?, two.head? with
  | none, _ => 6
  | _, none => 6
  | some c1, some c2 =>
      let na1 := ¬ c1.isAlphanum
      let na2 := ¬ c2.isAlphanum
      let ws1 := na1 ∧ isWS c1
      let ws2 := na2 ∧ isWS c2
      let lb1 := ws1 ∧ isLB c1
      let lb2 := ws2 ∧ isLB c2
      let bl1 := lb1 ∧ one.reverse.take 2 = ['\n', '\n']
      let bl2 := lb2 ∧ two.take 2 = ['\n', '\n']
      if bl1 ∨ bl2 then 5
      else if lb1 ∨ lb2 then 4
      else if na1 ∧ ¬ ws1 ∧ ws2 then 3
      else if ws1 ∨ ws2 then 2
      else if na1 ∨ na2 then 1
      else 0

/-- All legal slides of the edit window `X` inside `A ++ X ++ B`: cuts that
preserve both the full text and the text with the window removed. -/
def slideCandidates (A X B : Str) : List (Str × Str × Str) :=
  (List.range (A.length + X.length + B.length + 1)).filterMap (fun k =>
    let S := A ++ (X ++ B)
    let A2 := S.take k
    let X2 := (S.drop k).take X.length
    let B2 := S.drop (k + X.length)
    if A2 ++ B2 = A ++ B then some (A2, X2, B2) else none)

/-- The highest-scoring legal slide (ties to the right), starting from the
original placement. -/
def bestSlide (A X B : Str) : Str × Str × Str :=
  (slideCandidates A X B).foldl
    (fun best cand =>
      if semanticScore best.1 best.2.1 + semanticScore best.2.1 best.2.2 ≤
          semanticScore cand.1 cand.2.1 + semanticScore cand.2.1 cand.2.2
      then cand else best) (A, X, B)

theorem bestSlide_spec (A X B : Str) :
    (bestSlide A X B).1 ++ ((bestSlide A X B).2.1 ++ (bestSlide A X B).2.2) =
        A ++ (X ++ B) ∧
      (bestSlide A X B).1 ++ (bestSlide A X B).2.2 = A ++ B := by
  unfold bestSlide
  apply foldl_preserve
    (fun r : Str × Str × Str =>
      r.1 ++ (r.2.1 ++ r.2.2) = A ++ (X ++ B) ∧ r.1 ++ r.2.2 = A ++ B)
  · exact ⟨rfl, rfl⟩
  · intro best cand hcand hbest
    by_cases hc :
        semanticScore best.1 best.2.1 + semanticScore best.2.1 best.2.2 ≤
          semanticScore cand.1 cand.2.1 + semanticScore cand.2.1 cand.2.2
    · rw [if_pos hc]
      obtain ⟨k, -, hk⟩ := List.mem_filterMap.mp hcand
      dsimp only at hk
      by_cases hfil :
          (A ++ (X ++ B)).take k ++ (A ++ (X ++ B)).drop (k + X.length) =
            A ++ B
      · rw [if_pos hfil] at hk
        injection hk with hk
        subst hk
        exact ⟨take_window_drop (A ++ (X ++ B)) k X.length, hfil⟩
      · rw [if_neg hfil] at hk
        cases hk
    · rw [if_neg hc]
      exact hbest

/-- Lossless realignment pass: each single edit bounded by two equalities
is slid to the best-scoring legal placement. -/
def losslessPass : List Diff → List Diff
  | ⟨Op.equal, A⟩ :: ⟨xop, X⟩ :: ⟨Op.equal, B⟩ :: rest =>
      if xop = Op.equal then
        ⟨Op.equal, A⟩ :: losslessPass (⟨xop, X⟩ :: ⟨Op.equal, B⟩ :: rest)
      else
        ⟨Op.equal, (bestSlide A X B).1⟩ :: ⟨xop, (bestSlide A X B).2.1⟩ ::
          losslessPass (⟨Op.equal, (bestSlide A X B).2.2⟩ :: rest)
  | x :: rest => x :: losslessPass rest
  | [] => []
termination_by l => l.length

/-- `diff_cleanupSemanticLossless` (`index.d.ts` lines 410-416): shift
single edits sideways to align them with nicer boundaries. -/
def diff_cleanupSemanticLossless (d : List Diff) : List Diff :=
  losslessPass d

theorem diff_text1_noiseStep (l : List Diff) :
    diff_text1 (noiseStep l) = diff_text1 l := by
  induction l using noiseStep.induct with
  | case1 x m y rest hcond ih =>
      rw [noiseStep, if_pos hcond]
      simp only [diff_text1, ih]
      simp
  | case2 x m y rest hcond ih =>
      rw [noiseStep, if_neg hcond]
      simp only [diff_text1, ih]
  | case3 l hfall =>
      cases l with
      | nil => simp [noiseStep]
      | cons p l1 =>
          cases l1 with
          | nil => simp [noiseStep]
          | cons q l2 =>
              cases l2 with
              | nil =>
                  obtain ⟨qop, qt⟩ := q
                  cases qop <;> simp [noiseStep]
              | cons r rest =>
                  obtain ⟨qop, qt⟩ := q
                  cases qop with
                  | equal => exact absurd rfl (hfall p qt r rest)
                  | delete => simp [noiseStep]
                  | insert => simp [noiseStep]

theorem diff_text2_noiseStep (l : List Diff) :
    diff_text2 (noiseStep l) = diff_text2 l := by
  induction l using noiseStep.induct with
  | case1 x m y rest hcond ih =>
      rw [noiseStep, if_pos hcond]
      simp only [diff_text2, ih]
      simp
  | case2 x m y rest hcond ih =>
      rw [noiseStep, if_neg hcond]
      simp only [diff_text2, ih]
  | case3 l hfall =>
      cases l with
      | nil => simp [noiseStep]
      | cons p l1 =>
          cases l1 with
          | nil => simp [noiseStep]
          | cons q l2 =>
              cases l2 with
              | nil =>
                  obtain ⟨qop, qt⟩ := q
                  cases qop <;> simp [noiseStep]
              | cons r rest =>
                  obtain ⟨qop, qt⟩ := q
                  cases qop with
                  | equal => exact absurd rfl (hfall p qt r rest)
                  | delete => simp [noiseStep]
                  | insert => simp [noiseStep]

theorem diff_text1_overlapPass (l : List Diff) :
    diff_text1 (overlapPass l) = diff_text1 l := by
  induction l using overlapPass.induct with
  | case1 d i rest hcmp hhalf ih =>
      rw [overlapPass, if_pos hcmp, if_pos hhalf]
      have hov := commonOverlapLen_spec d i
      have hdi : d.take (d.length - commonOverlapLen d i) ++
          i.take (commonOverlapLen d i) = d := by
        rw [← hov, List.take_append_drop]
      simp [diff_text1, ih]
      simp only [← List.append_assoc]
      rw [hdi]
  | case2 d i rest hcmp hhalf ih =>
      rw [overlapPass, if_pos hcmp, if_neg hhalf]
      simp only [diff_text1, ih]
  | case3 d i rest hcmp hhalf ih =>
      rw [overlapPass, if_neg hcmp, if_pos hhalf]
      simp [diff_text1, ih]
      simp only [← List.append_assoc]
      rw [List.take_append_drop]
  | case4 d i rest hcmp hhalf ih =>
      rw [overlapPass, if_neg hcmp, if_neg hhalf]
      simp only [diff_text1, ih]
  | case5 x rest hfall ih =>
      have hstep : overlapPass (x :: rest) = x :: overlapPass rest := by
        obtain ⟨xop, xt⟩ := x
        cases rest with
        | nil => cases xop <;> simp [overlapPass]
        | cons y rest2 =>
            obtain ⟨yop, yt⟩ := y
            cases xop <;> cases yop <;>
              first
                | exact (hfall xt yt rest2 rfl rfl).elim
                | simp [overlapPass]
      rw [hstep]
      simp only [diff_text1, ih]
  | case6 => simp [overlapPass]

theorem diff_text2_overlapPass (l : List Diff) :
    diff_text2 (overlapPass l) = diff_text2 l := by
  induction l using overlapPass.induct with
  | case1 d i rest hcmp hhalf ih =>
      rw [overlapPass, if_pos hcmp, if_pos hhalf]
      simp [diff_text2, ih]
      simp only [← List.append_assoc]
      rw [List.take_append_drop]
  | case2 d i rest hcmp hhalf ih =>
      rw [overlapPass, if_pos hcmp, if_neg hhalf]
      simp only [diff_text2, ih]
  | case3 d i rest hcmp hhalf ih =>
      rw [overlapPass, if_neg hcmp, if_pos hhalf]
      have hov := commonOverlapLen_spec i d
      have hdi : i.take (i.length - commonOverlapLen i d) ++
          d.take (commonOverlapLen i d) = i := by
        rw [← hov, List.take_append_drop]
      simp [diff_text2, ih]
      simp only [← List.append_assoc]
      rw [hdi]
  | case4 d i rest hcmp hhalf ih =>
      rw [overlapPass, if_neg hcmp, if_neg hhalf]
      simp only [diff_text2, ih]
  | case5 x rest hfall ih =>
      have hstep : overlapPass (x :: rest) = x :: overlapPass rest := by
        obtain ⟨xop, xt⟩ := x
        cases rest with
        | nil => cases xop <;> simp [overlapPass]
        | cons y rest2 =>
            obtain ⟨yop, yt⟩ := y
            cases xop <;> cases yop <;>
              first
                | exact (hfall xt yt rest2 rfl rfl).elim
                | simp [overlapPass]
      rw [hstep]
      simp only [diff_text2, ih]
  | case6 => simp [overlapPass]

theorem diff_text1_cleanupSemantic (d : List Diff) :
    diff_text1 (diff_cleanupSemantic d) = diff_text1 d := by
  unfold diff_cleanupSemantic
  rw [diff_text1_overlapPass, diff_text1_cleanupMerge, diff_text1_noiseStep]

theorem diff_text2_cleanupSemantic (d : List Diff) :
    diff_text2 (diff_cleanupSemantic d) = diff_text2 d := by
  unfold diff_cleanupSemantic
  rw [diff_text2_overlapPass, diff_text2_cleanupMerge, diff_text2_noiseStep]

theorem diff_text1_losslessPass (l : List Diff) :
    diff_text1 (losslessPass l) = diff_text1 l := by
  induction l using losslessPass.induct with
  | case1 A X B rest ih =>
      rw [losslessPass, if_pos rfl]
      simp only [diff_text1, ih]
  | case2 A xop X B rest hx ih =>
      rw [losslessPass, if_neg hx]
      obtain ⟨e1, e2⟩ := bestSlide_spec A X B
      cases xop with
      | equal => exact absurd rfl hx
      | delete =>
          simp only [diff_text1, ih]
          have := congrArg (· ++ diff_text1 rest) e1
          simpa [List.append_assoc] using this
      | insert =>
          simp only [diff_text1, ih]
          have := congrArg (· ++ diff_text1 rest) e2
          simpa [List.append_assoc] using this
  | case3 x rest hfall ih =>
      have hstep : losslessPass (x :: rest) = x :: losslessPass rest := by
        obtain ⟨xop, xt⟩ := x
        cases rest with
        | nil => cases xop <;> simp [losslessPass]
        | cons y rest2 =>
            obtain ⟨yop, yt⟩ := y
            cases rest2 with
            | nil => cases xop <;> cases yop <;> simp [losslessPass]
            | cons z rest3 =>
                obtain ⟨zop, zt⟩ := z
                cases xop <;> cases yop <;> cases zop <;>
                  first
                    | exact (hfall _ _ _ _ _ rfl rfl).elim
                    | simp [losslessPass]
      rw [hstep]
      simp only [diff_text1, ih]
  | case4 => simp [losslessPass]

theorem diff_text2_losslessPass (l : List Diff) :
    diff_text2 (losslessPass l) = diff_text2 l := by
  induction l using losslessPass.induct with
  | case1 A X B rest ih =>
      rw [losslessPass, if_pos rfl]
      simp only [diff_text2, ih]
  | case2 A xop X B rest hx ih =>
      rw [losslessPass, if_neg hx]
      obtain ⟨e1, e2⟩ := bestSlide_spec A X B
      cases xop with
      | equal => exact absurd rfl hx
      | insert =>
          simp only [diff_text2, ih]
          have := congrArg (· ++ diff_text2 rest) e1
          simpa [List.append_assoc] using this
      | delete =>
          simp only [diff_text2, ih]
          have := congrArg (· ++ diff_text2 rest) e2
          simpa [List.append_assoc] using this
  | case3 x rest hfall ih =>
      have hstep : losslessPass (x :: rest) = x :: losslessPass rest := by
        obtain ⟨xop, xt⟩ := x
        cases rest with
        | nil => cases xop <;> simp [losslessPass]
        | cons y rest2 =>
            obtain ⟨yop, yt⟩ := y
            cases rest2 with
            | nil => cases xop <;> cases yop <;> simp [losslessPass]
            | cons z rest3 =>
                obtain ⟨zop, zt⟩ := z
                cases xop <;> cases yop <;> cases zop <;>
                  first
                    | exact (hfall _ _ _ _ _ rfl rfl).elim
                    | simp [losslessPass]
      rw [hstep]
      simp only [diff_text2, ih]
  | case4 => simp [losslessPass]

/-! ## Line mode and `diff_main`

Modelled from the spec, section 4.2 step 3: for large texts, split both
into lines, diff the line sequences as single tokens (the synthetic
code-point encoding of `diff_linesToChars_` and its rehydration
`diff_charsToLines_` composed into one step, the encoding being a
bijection), then re-diff the replacement blocks at character
granularity. -/

/-- Split a text into lines, each keeping its trailing newline. -/
def splitLines : Str → List Str
  | [] => []
  | c :: rest =>
      if c = '\n' then [c] :: splitLines rest
      else
        match splitLines rest with
        | [] => [[c]]
        | l :: ls => (c :: l) :: ls

theorem splitLines_flatten (s : Str) : (splitLines s).flatten = s := by
  induction s with
  | nil => rfl
  | cons c rest ih =>
      by_cases hc : c = '\n'
      · simp [splitLines, hc, ih]
      · simp only [splitLines, if_neg hc]
        cases hrest : splitLines rest with
        | nil =>
            rw [hrest] at ih
            simp at ih
            simp [← ih]
        | cons l ls =>
            rw [hrest] at ih
            simpa [List.flatten] using ih

/-- Rehydrate a line-token diff into a character diff by flattening each
run of lines. -/
def lineDiffFlatten (ld : List (Op × List Str)) : List Diff :=
  ld.map (fun p => ⟨p.1, p.2.flatten⟩)

theorem diff_text1_lineDiffFlatten (ld : List (Op × List Str)) :
    diff_text1 (lineDiffFlatten ld) = (text1G ld).flatten := by
  unfold lineDiffFlatten
  induction ld with
  | nil => simp [diff_text1, text1G]
  | cons x rest ih =>
      obtain ⟨op, lines⟩ := x
      by_cases hop : op = Op.insert <;>
        simp [diff_text1, text1G, hop, ih]

theorem diff_text2_lineDiffFlatten (ld : List (Op × List Str)) :
    diff_text2 (lineDiffFlatten ld) = (text2G ld).flatten := by
  unfold lineDiffFlatten
  induction ld with
  | nil => simp [diff_text2, text2G]
  | cons x rest ih =>
      obtain ⟨op, lines⟩ := x
      by_cases hop : op = Op.delete <;>
        simp [diff_text2, text2G, hop, ih]

/-- Character-level diffs from token-level diff pairs. -/
def toDiffs (l : List (Op × Str)) : List Diff :=
  l.map (fun p => ⟨p.1, p.2⟩)

theorem diff_text1_toDiffs (l : List (Op × Str)) :
    diff_text1 (toDiffs l) = text1G l := by
  unfold toDiffs
  induction l with
  | nil => simp [diff_text1, text1G]
  | cons x rest ih =>
      obtain ⟨op, t⟩ := x
      simp [diff_text1, text1G, ih]

theorem diff_text2_toDiffs (l : List (Op × Str)) :
    diff_text2 (toDiffs l) = text2G l := by
  unfold toDiffs
  induction l with
  | nil => simp [diff_text2, text2G]
  | cons x rest ih =>
      obtain ⟨op, t⟩ := x
      simp [diff_text2, text2G, ih]

/-- Flush a replacement block of the line-mode walk: a gap holding both
deletions and insertions is re-diffed at character granularity. -/
def reDiffFlush (cfg : Config) (fuel : Nat) (del ins : Str)
    (tail : List Diff) : List Diff :=
  if del ≠ [] ∧ ins ≠ [] then toDiffs (diffCoreG cfg fuel del ins) ++ tail
  else emitEdits del ins tail

/-- Walk of the rehydrated line diff that collects each replacement block
and re-diffs it at character granularity (spec section 4.2 step 3). -/
def reDiffScan (cfg : Config) (fuel : Nat) :
    Str → Str → List Diff → List Diff
  | del, ins, [] => reDiffFlush cfg fuel del ins []
  | del, ins, ⟨Op.delete, t⟩ :: rest => reDiffScan cfg fuel (del ++ t) ins rest
  | del, ins, ⟨Op.insert, t⟩ :: rest => reDiffScan cfg fuel del (ins ++ t) rest
  | del, ins, ⟨Op.equal, t⟩ :: rest =>
      reDiffFlush cfg fuel del ins
        (⟨Op.equal, t⟩ :: reDiffScan cfg fuel [] [] rest)

theorem diff_text1_reDiffFlush (cfg : Config) (fuel : Nat) (del ins : Str)
    (tail : List Diff) :
    diff_text1 (reDiffFlush cfg fuel del ins tail) = del ++ diff_text1 tail := by
  unfold reDiffFlush
  split_ifs with h
  · rw [diff_text1_append, diff_text1_toDiffs, text1G_diffCoreG]
  · rw [diff_text1_emitEdits]

theorem diff_text2_reDiffFlush (cfg : Config) (fuel : Nat) (del ins : Str)
    (tail : List Diff) :
    diff_text2 (reDiffFlush cfg fuel del ins tail) = ins ++ diff_text2 tail := by
  unfold reDiffFlush
  split_ifs with h
  · rw [diff_text2_append, diff_text2_toDiffs, text2G_diffCoreG]
  · rw [diff_text2_emitEdits]

theorem diff_text1_reDiffScan (cfg : Config) (fuel : Nat) (d : List Diff) :
    ∀ del ins, diff_text1 (reDiffScan cfg fuel del ins d) =
      del ++ diff_text1 d := by
  induction d with
  | nil =>
      intro del ins
      simp [reDiffScan, diff_text1_reDiffFlush, diff_text1]
  | cons x rest ih =>
      intro del ins
      obtain ⟨op, t⟩ := x
      cases op with
      | delete => simp [reDiffScan, ih, diff_text1]
      | insert => simp [reDiffScan, ih, diff_text1]
      | equal =>
          simp [reDiffScan, diff_text1_reDiffFlush, diff_text1, ih]

theorem diff_text2_reDiffScan (cfg : Config) (fuel : Nat) (d : List Diff) :
    ∀ del ins, diff_text2 (reDiffScan cfg fuel del ins d) =
      ins ++ diff_text2 d := by
  induction d with
  | nil =>
      intro del ins
      simp [reDiffScan, diff_text2_reDiffFlush, diff_text2]
  | cons x rest ih =>
      intro del ins
      obtain ⟨op, t⟩ := x
      cases op with
      | delete => simp [reDiffScan, ih, diff_text2]
      | insert => simp [reDiffScan, ih, diff_text2]
      | equal =>
          simp [reDiffScan, diff_text2_reDiffFlush, diff_text2, ih]

/-- Line-mode pre-pass (spec section 4.2 step 3): diff the line sequences,
rehydrate, run the semantic cleanup, then re-diff the replacement blocks at
character granularity. -/
def diff_lineMode (cfg : Config) (fuel : Nat) (a b : Str) : List Diff :=
  reDiffScan cfg fuel [] []
    (diff_cleanupSemantic
      (lineDiffFlatten (diffCoreG cfg fuel (splitLines a) (splitLines b))))

/-- `diff_main` (`index.d.ts` lines 311-324): find the differences between
two texts, with the optional line-level pre-pass for large inputs, then run
the cleanup passes in the order of spec section 4.2 step 5 (merge, semantic
cleanup, lossless realignment, merge again).  The deadline is the fuel
derived from the input sizes. -/
def diff_main (cfg : Config) (a b : Str) (checklines : Bool := true) :
    List Diff :=
  let fuel := a.length + b.length + 1
  let raw :=
    if checklines ∧ 100 < a.length ∧ 100 < b.length then
      diff_lineMode cfg fuel a b
    else toDiffs (diffCoreG cfg fuel a b)
  diff_cleanupMerge
    (diff_cleanupSemanticLossless (diff_cleanupSemantic (diff_cleanupMerge raw)))

lemma diff_main_text1 (cfg : Config) (a b : Str) (checklines : Bool) :
    diff_text1 (diff_main cfg a b checklines) = a := by
  unfold diff_main
  rw [diff_text1_cleanupMerge]
  unfold diff_cleanupSemanticLossless
  rw [diff_text1_losslessPass, diff_text1_cleanupSemantic,
    diff_text1_cleanupMerge]
  split_ifs with h
  · unfold diff_lineMode
    rw [diff_text1_reDiffScan, diff_text1_cleanupSemantic,
      diff_text1_lineDiffFlatten, text1G_diffCoreG, splitLines_flatten]
    simp
  · rw [diff_text1_toDiffs, text1G_diffCoreG]

lemma diff_main_text2 (cfg : Config) (a b : Str) (checklines : Bool) :
    diff_text2 (diff_main cfg a b checklines) = b := by
  unfold diff_main
  rw [diff_text2_cleanupMerge]
  unfold diff_cleanupSemanticLossless
  rw [diff_text2_losslessPass, diff_text2_cleanupSemantic,
    diff_text2_cleanupMerge]
  split_ifs with h
  · unfold diff_lineMode
    rw [diff_text2_reDiffScan, diff_text2_cleanupSemantic,
      diff_text2_lineDiffFlatten, text2G_diffCoreG, splitLines_flatten]
    simp
  · rw [diff_text2_toDiffs, text2G_diffCoreG]

/-- **C1**: projecting the script returned by `diff_main` recovers the
inputs — `diff_text1` of the result is the old text and `diff_text2` of the
result is the new text, for every pair of texts, configuration and
line-mode choice. -/
theorem claim_C1_diff_main_projections (cfg : Config) (a b : Str)
    (checklines : Bool) :
    diff_text1 (diff_main cfg a b checklines) = a ∧
      diff_text2 (diff_main cfg a b checklines) = b :=
  ⟨diff_main_text1 cfg a b checklines, diff_main_text2 cfg a b checklines⟩

/-! ## The delta codec

Modelled from the spec, section 4.3: one tab-separated token per diff,
`=N` for Equal length N, `-N` for Delete length N, `+` followed by the
percent-encoded text for Insert (space left literal, reserved characters
only — here the escape `%` itself and the control separators); `fromDelta`
slices the source text sequentially for `=` and `-` tokens and fails with a
delta format error on malformed input or when a declared length exceeds the
remaining source. -/

/-- Reserved characters that the insert payload encoding escapes: the
escape character itself and the control separators. -/
def needsEncode (c : Char) : Bool := c ∈ ['%', '\t', '\n', '\r']

/-- Upper-case hexadecimal digit for a value below 16. -/
def hexDigit : Nat → Char
  | 0 => '0' | 1 => '1' | 2 => '2' | 3 => '3' | 4 => '4' | 5 => '5'
  | 6 => '6' | 7 => '7' | 8 => '8' | 9 => '9' | 10 => 'A' | 11 => 'B'
  | 12 => 'C' | 13 => 'D' | 14 => 'E' | _ => 'F'

/-- Value of a hexadecimal digit (code points 48-57 are the decimal
digits, 65-70 and 97-102 the upper- and lower-case letter digits). -/
def hexVal (c : Char) : Option Nat :=
  if c.isDigit then some (c.toNat - 48)
  else if 65 ≤ c.toNat ∧ c.toNat ≤ 70 then some (c.toNat - 55)
  else if 97 ≤ c.toNat ∧ c.toNat ≤ 102 then some (c.toNat - 87)
  else none

/-- Percent-encode one character. -/
def encodeChar (c : Char) : Str :=
  if needsEncode c then
    ['%', hexDigit (c.toNat / 16 % 16), hexDigit (c.toNat % 16)]
  else [c]

/-- Percent-encode a text, reserved characters only, space left literal. -/
def encodeURI (s : Str) : Str := (s.map encodeChar).flatten

mutual

/-- Percent-decode a text; `none` on an illegal escape. -/
def decodeURI : Str → Option Str
  | [] => some []
  | c :: rest =>
      if c = '%' then decodeEscape rest
      else (decodeURI rest).map (c :: ·)
termination_by s => 2 * s.length

/-- Decode the two hexadecimal digits after an escape character. -/
def decodeEscape : Str → Option Str
  | c1 :: c2 :: rest2 =>
      match hexVal c1, hexVal c2 with
      | some h, some l =>
          (decodeURI rest2).map (Char.ofNat (16 * h + l) :: ·)
      | _, _ => none
  | _ => none
termination_by s => 2 * s.length + 1

end

/-- Decimal digits of a number. -/
def natToStr (n : Nat) : Str :=
  if _h : n < 10 then [hexDigit n]
  else natToStr (n / 10) ++ [hexDigit (n % 10)]
termination_by n
decreasing_by
  have : 10 ≤ n := Nat.le_of_not_lt _h
  omega

/-- Parse a non-empty all-digit string. -/
def strToNat (s : Str) : Option Nat :=
  if s ≠ [] ∧ s.all (fun c => c.isDigit) then
    some (s.foldl (fun acc c => 10 * acc + (c.toNat - '0'.toNat)) 0)
  else none

/-- The delta token of one diff. -/
def deltaToken : Diff → Str
  | ⟨Op.equal, t⟩ => '=' :: natToStr t.length
  | ⟨Op.delete, t⟩ => '-' :: natToStr t.length
  | ⟨Op.insert, t⟩ => '+' :: encodeURI t

/-- Join tokens with tab separators. -/
def joinTabs : List Str → Str
  | [] => []
  | [t] => t
  | t :: rest => t ++ '\t' :: joinTabs rest

/-- `diff_toDelta` (`index.d.ts` lines 470-478): crush a diff script into
tab-separated length and payload tokens. -/
def diff_toDelta (d : List Diff) : Str :=
  joinTabs (d.map deltaToken)

/-- Split a delta text at tab separators. -/
def splitTabs : Str → List Str
  | [] => [[]]
  | c :: rest =>
      if c = '\t' then [] :: splitTabs rest
      else
        match splitTabs rest with
        | [] => [[c]]
        | l :: ls => (c :: l) :: ls

/-- The delta parse failures (spec section 7, `DeltaFormatError`). -/
inductive DeltaFormatError where
  | invalidOperation
  | invalidLength
  | illegalEscape
  | lengthExceedsSource
deriving DecidableEq, Repr

/-- Parse the token list against the remaining source text. -/
def fromDeltaTokens : Str → List Str → Except DeltaFormatError (List Diff)
  | _, [] => Except.ok []
  | rem, tok :: toks =>
      match tok with
      | [] => fromDeltaTokens rem toks
      | c :: body =>
          if c = '=' then
            match strToNat body with
            | none => Except.error DeltaFormatError.invalidLength
            | some n =>
                if n ≤ rem.length then
                  (fromDeltaTokens (rem.drop n) toks).map
                    (⟨Op.equal, rem.take n⟩ :: ·)
                else Except.error DeltaFormatError.lengthExceedsSource
          else if c = '-' then
            match strToNat body with
            | none => Except.error DeltaFormatError.invalidLength
            | some n =>
                if n ≤ rem.length then
                  (fromDeltaTokens (rem.drop n) toks).map
                    (⟨Op.delete, rem.take n⟩ :: ·)
                else Except.error DeltaFormatError.lengthExceedsSource
          else if c = '+' then
            match decodeURI body with
            | none => Except.error DeltaFormatError.illegalEscape
            | some t =>
                (fromDeltaTokens rem toks).map (⟨Op.insert, t⟩ :: ·)
          else Except.error DeltaFormatError.invalidOperation

/-- `diff_fromDelta` (`index.d.ts` lines 480-488): given the source text
and a delta, recompute the full diff, slicing the source sequentially. -/
def diff_fromDelta (text1 delta : Str) :
    Except DeltaFormatError (List Diff) :=
  fromDeltaTokens text1 (splitTabs delta)

theorem hexVal_hexDigit {n : Nat} (h : n < 16) :
    hexVal (hexDigit n) = some n := by
  interval_cases n <;> decide

theorem hexDigit_isDigit {n : Nat} (h : n < 10) :
    (hexDigit n).isDigit = true := by
  interval_cases n <;> decide

theorem hexDigit_val {n : Nat} (h : n < 10) :
    (hexDigit n).toNat - '0'.toNat = n := by
  interval_cases n <;> decide

theorem hexDigit_ne_tab (n : Nat) : hexDigit n ≠ '\t' := by
  unfold hexDigit
  split <;> decide

theorem natToStr_digits (n : Nat) :
    ∀ c ∈ natToStr n, c.isDigit = true := by
  induction n using Nat.strong_induction_on with
  | _ n ih =>
      by_cases h : n < 10
      · rw [natToStr, dif_pos h]
        intro c hc
        rw [List.mem_singleton.mp hc]
        exact hexDigit_isDigit h
      · rw [natToStr, dif_neg h]
        intro c hc
        rcases List.mem_append.mp hc with h1 | h1
        · exact ih (n / 10) (by omega) c h1
        · rw [List.mem_singleton.mp h1]
          exact hexDigit_isDigit (by omega)

theorem natToStr_ne_nil (n : Nat) : natToStr n ≠ [] := by
  by_cases h : n < 10
  · rw [natToStr, dif_pos h]; simp
  · rw [natToStr, dif_neg h]; simp

theorem natToStr_foldl (n : Nat) :
    (natToStr n).foldl (fun acc c => 10 * acc + (c.toNat - '0'.toNat)) 0
      = n := by
  induction n using Nat.strong_induction_on with
  | _ n ih =>
      by_cases h : n < 10
      · rw [natToStr, dif_pos h]
        simp only [List.foldl_cons, List.foldl_nil]
        have := hexDigit_val h
        omega
      · rw [natToStr, dif_neg h]
        rw [List.foldl_append]
        rw [ih (n / 10) (by omega)]
        simp only [List.foldl_cons, List.foldl_nil]
        have := hexDigit_val (show n % 10 < 10 by omega)
        omega

theorem strToNat_natToStr (n : Nat) : strToNat (natToStr n) = some n := by
  unfold strToNat
  rw [if_pos ⟨natToStr_ne_nil n, by
    rw [List.all_eq_true]
    exact natToStr_digits n⟩]
  rw [natToStr_foldl]

theorem needsEncode_tab : needsEncode '\t' = true := by decide

theorem not_needsEncode_ne {c : Char} (h : ¬ needsEncode c = true) :
    c ≠ '%' ∧ c ≠ '\t' := by
  constructor <;> intro hc <;> rw [hc] at h <;> exact h (by decide)

theorem encodeChar_ne_tab (c : Char) : ∀ x ∈ encodeChar c, x ≠ '\t' := by
  unfold encodeChar
  split_ifs with h
  · intro x hx
    rcases List.mem_cons.mp hx with h1 | h1
    · rw [h1]; decide
    rcases List.mem_cons.mp h1 with h2 | h2
    · rw [h2]; exact hexDigit_ne_tab _
    rcases List.mem_cons.mp h2 with h3 | h3
    · rw [h3]; exact hexDigit_ne_tab _
    · cases h3
  · intro x hx
    rw [List.mem_singleton.mp hx]
    exact (not_needsEncode_ne h).2

theorem encodeURI_ne_tab (s : Str) : ∀ x ∈ encodeURI s, x ≠ '\t' := by
  unfold encodeURI
  intro x hx
  obtain ⟨l, hl, hxl⟩ := List.mem_flatten.mp hx
  obtain ⟨c, -, hc⟩ := List.mem_map.mp hl
  exact encodeChar_ne_tab c x (hc ▸ hxl)

theorem decodeURI_hex (h l : Nat) (hh : h < 16) (hl : l < 16) (tail : Str) :
    decodeURI ('%' :: hexDigit h :: hexDigit l :: tail) =
      (decodeURI tail).map (Char.ofNat (16 * h + l) :: ·) := by
  rw [decodeURI, if_pos rfl, decodeEscape, hexVal_hexDigit hh,
    hexVal_hexDigit hl]

theorem decodeURI_encodeURI (s : Str) : decodeURI (encodeURI s) = some s := by
  induction s with
  | nil => simp [encodeURI, decodeURI]
  | cons c rest ih =>
      have hstep : encodeURI (c :: rest) = encodeChar c ++ encodeURI rest := by
        simp [encodeURI]
      rw [hstep]
      by_cases hne : needsEncode c = true
      · rw [show encodeChar c =
            ['%', hexDigit (c.toNat / 16 % 16), hexDigit (c.toNat % 16)] from by
          rw [encodeChar, if_pos hne]]
        rw [List.cons_append, List.cons_append, List.cons_append,
          List.nil_append]
        rw [decodeURI_hex _ _ (by omega) (by omega), ih]
        have hrc : Char.ofNat (16 * (c.toNat / 16 % 16) + c.toNat % 16) = c := by
          have hmem : c ∈ ['%', '\t', '\n', '\r'] := by
            simpa [needsEncode] using hne
          fin_cases hmem <;> decide
        rw [hrc]
        rfl
      · have hc : c ≠ '%' := (not_needsEncode_ne hne).1
        have h1 : encodeChar c ++ encodeURI rest = c :: encodeURI rest := by
          simp [encodeChar, hne]
        rw [h1, decodeURI, if_neg hc, ih]
        rfl

theorem deltaToken_ne_tab (x : Diff) : ∀ c ∈ deltaToken x, c ≠ '\t' := by
  obtain ⟨op, t⟩ := x
  cases op with
  | equal =>
      intro c hc
      simp only [deltaToken] at hc
      rcases List.mem_cons.mp hc with h1 | h1
      · rw [h1]; decide
      · intro hct
        have := natToStr_digits t.length c h1
        rw [hct] at this
        cases this
  | delete =>
      intro c hc
      simp only [deltaToken] at hc
      rcases List.mem_cons.mp hc with h1 | h1
      · rw [h1]; decide
      · intro hct
        have := natToStr_digits t.length c h1
        rw [hct] at this
        cases this
  | insert =>
      intro c hc
      simp only [deltaToken] at hc
      rcases List.mem_cons.mp hc with h1 | h1
      · rw [h1]; decide
      · exact encodeURI_ne_tab t c h1

theorem splitTabs_no_tab {s : Str} (h : ∀ c ∈ s, c ≠ '\t') :
    splitTabs s = [s] := by
  induction s with
  | nil => rfl
  | cons c rest ih =>
      have hc : c ≠ '\t' := h c (List.mem_cons_self _ _)
      rw [splitTabs]
      rw [if_neg hc, ih (fun x hx => h x (List.mem_cons_of_mem _ hx))]

theorem splitTabs_append {t : Str} (s : Str) (h : ∀ c ∈ t, c ≠ '\t') :
    splitTabs (t ++ '\t' :: s) = t :: splitTabs s := by
  induction t with
  | nil => simp [splitTabs]
  | cons c t2 ih =>
      have hc : c ≠ '\t' := h c (List.mem_cons_self _ _)
      rw [List.cons_append, splitTabs, if_neg hc,
        ih (fun x hx => h x (List.mem_cons_of_mem _ hx))]

theorem splitTabs_joinTabs :
    ∀ (toks : List Str), toks ≠ [] →
      (∀ t ∈ toks, ∀ c ∈ t, c ≠ '\t') →
      splitTabs (joinTabs toks) = toks := by
  intro toks
  induction toks with
  | nil => intro h; cases h rfl
  | cons t rest ih =>
      intro _ htf
      cases rest with
      | nil =>
          show splitTabs (joinTabs [t]) = [t]
          unfold joinTabs
          exact splitTabs_no_tab (htf t (List.mem_cons_self _ _))
      | cons t2 rest2 =>
          have hj : joinTabs (t :: t2 :: rest2) =
              t ++ '\t' :: joinTabs (t2 :: rest2) := rfl
          rw [hj, splitTabs_append _ (htf t (List.mem_cons_self _ _)),
            ih (by simp) (fun u hu => htf u (List.mem_cons_of_mem _ hu))]

theorem fromDeltaTokens_map (d : List Diff) :
    fromDeltaTokens (diff_text1 d) (d.map deltaToken) = Except.ok d := by
  induction d with
  | nil => rfl
  | cons x rest ih =>
      obtain ⟨op, t⟩ := x
      cases op with
      | equal =>
          show fromDeltaTokens (t ++ diff_text1 rest)
            (('=' :: natToStr t.length) :: List.map deltaToken rest) = _
          rw [fromDeltaTokens]
          try dsimp only
          rw [if_pos rfl, strToNat_natToStr]
          try dsimp only
          rw [if_pos (by simp), List.take_left, List.drop_left, ih]
          rfl
      | delete =>
          show fromDeltaTokens (t ++ diff_text1 rest)
            (('-' :: natToStr t.length) :: List.map deltaToken rest) = _
          rw [fromDeltaTokens]
          try dsimp only
          rw [if_neg (by decide), if_pos rfl, strToNat_natToStr]
          try dsimp only
          rw [if_pos (by simp), List.take_left, List.drop_left, ih]
          rfl
      | insert =>
          show fromDeltaTokens (diff_text1 rest)
            (('+' :: encodeURI t) :: List.map deltaToken rest) = _
          rw [fromDeltaTokens]
          try dsimp only
          rw [if_neg (by decide), if_neg (by decide), if_pos rfl,
            decodeURI_encodeURI]
          try dsimp only
          rw [ih]
          rfl

/-- **C3**: the delta encoding round-trips — for every diff script `d`,
`diff_fromDelta (diff_text1 d) (diff_toDelta d)` recovers `d` exactly (in
particular for every script produced and cleaned up by the diff engine). -/
theorem claim_C3_delta_roundtrip (d : List Diff) :
    diff_fromDelta (diff_text1 d) (diff_toDelta d) = Except.ok d := by
  unfold diff_fromDelta diff_toDelta
  cases d with
  | nil => rfl
  | cons x rest =>
      rw [splitTabs_joinTabs ((x :: rest).map deltaToken) (by simp)
        (by
          intro u hu c hc
          obtain ⟨y, -, hy⟩ := List.mem_map.mp hu
          exact deltaToken_ne_tab y c (hy ▸ hc))]
      exact fromDeltaTokens_map (x :: rest)

/-! ### The error characterisation of `diff_fromDelta` (claim C6)

The following two definitions follow the spec's words (section 4.3): a
delta is well formed when every token is blank, a length token `=N` or
`-N` with a parseable length, or a decodable `+` payload; and its declared
length is the total source length its `=` and `-` tokens consume. -/

/-- A single token is acceptable to the parser. -/
def tokenOk (tok : Str) : Bool :=
  match tok with
  | [] => true
  | c :: body =>
      if c = '=' then (strToNat body).isSome
      else if c = '-' then (strToNat body).isSome
      else if c = '+' then (decodeURI body).isSome
      else false

/-- Source length a token consumes. -/
def tokenLen (tok : Str) : Nat :=
  match tok with
  | [] => 0
  | c :: body =>
      if c = '=' ∨ c = '-' then (strToNat body).getD 0 else 0

theorem tokenLen_eq (body : Str) :
    tokenLen ('=' :: body) = (strToNat body).getD 0 := by
  simp [tokenLen]

theorem tokenLen_dash (body : Str) :
    tokenLen ('-' :: body) = (strToNat body).getD 0 := by
  simp [tokenLen]

theorem tokenLen_plus (body : Str) : tokenLen ('+' :: body) = 0 := by
  simp [tokenLen]

/-- Modelled from the spec (section 4.3): a delta is well formed when every
tab-separated token parses. -/
def deltaWellFormed (delta : Str) : Bool := (splitTabs delta).all tokenOk

/-- Modelled from the spec (section 4.3): total source length declared by
the `=` and `-` tokens of a delta. -/
def deltaDeclaredLen (delta : Str) : Nat :=
  ((splitTabs delta).map tokenLen).sum

theorem fromDeltaTokens_ok_iff :
    ∀ (toks : List Str) (rem : Str),
      (∃ r, fromDeltaTokens rem toks = Except.ok r) ↔
        ((∀ t ∈ toks, tokenOk t = true) ∧
          (toks.map tokenLen).sum ≤ rem.length) := by
  intro toks
  induction toks with
  | nil =>
      intro rem
      simp [fromDeltaTokens, tokenLen]
  | cons tok rest ih =>
      intro rem
      cases tok with
      | nil =>
          rw [show fromDeltaTokens rem ([] :: rest) = fromDeltaTokens rem rest
            from rfl]
          rw [ih rem]
          simp [tokenOk, tokenLen]
      | cons c body =>
          rw [fromDeltaTokens]
          by_cases hc1 : c = '='
          · subst hc1
            rw [if_pos rfl]
            cases hn : strToNat body with
            | none =>
                simp [tokenOk, hn]
            | some n =>
                dsimp only
                by_cases hlen : n ≤ rem.length
                · rw [if_pos hlen]
                  constructor
                  · intro ⟨r, hr⟩
                    obtain ⟨r2, hr2⟩ : ∃ r2,
                        fromDeltaTokens (rem.drop n) rest = Except.ok r2 := by
                      cases hfd : fromDeltaTokens (rem.drop n) rest with
                      | ok r2 => exact ⟨r2, rfl⟩
                      | error e =>
                          rw [hfd] at hr
                          cases hr
                    have := (ih (rem.drop n)).mp ⟨r2, hr2⟩
                    refine ⟨?_, ?_⟩
                    · intro t ht
                      rcases List.mem_cons.mp ht with h1 | h1
                      · rw [h1]; simp [tokenOk, hn]
                      · exact this.1 t h1
                    · have h2 := this.2
                      rw [List.length_drop] at h2
                      simp only [List.map_cons, List.sum_cons, tokenLen_eq, hn,
                        Option.getD_some]
                      omega
                  · intro ⟨hok, hsum⟩
                    have hsum2 : ((rest.map tokenLen).sum ≤
                        (rem.drop n).length) := by
                      rw [List.length_drop]
                      simp only [List.map_cons, List.sum_cons, tokenLen_eq, hn,
                        Option.getD_some] at hsum
                      omega
                    obtain ⟨r2, hr2⟩ := (ih (rem.drop n)).mpr
                      ⟨fun t ht => hok t (List.mem_cons_of_mem _ ht), hsum2⟩
                    exact ⟨_, by rw [hr2]; rfl⟩
                · rw [if_neg hlen]
                  constructor
                  · intro ⟨r, hr⟩; cases hr
                  · intro ⟨hok, hsum⟩
                    exfalso
                    simp only [List.map_cons, List.sum_cons, tokenLen_eq, hn,
                      Option.getD_some] at hsum
                    omega
          by_cases hc2 : c = '-'
          · subst hc2
            rw [if_neg (by decide), if_pos rfl]
            cases hn : strToNat body with
            | none =>
                simp [tokenOk, hn]
            | some n =>
                dsimp only
                by_cases hlen : n ≤ rem.length
                · rw [if_pos hlen]
                  constructor
                  · intro ⟨r, hr⟩
                    obtain ⟨r2, hr2⟩ : ∃ r2,
                        fromDeltaTokens (rem.drop n) rest = Except.ok r2 := by
                      cases hfd : fromDeltaTokens (rem.drop n) rest with
                      | ok r2 => exact ⟨r2, rfl⟩
                      | error e =>
                          rw [hfd] at hr
                          cases hr
                    have := (ih (rem.drop n)).mp ⟨r2, hr2⟩
                    refine ⟨?_, ?_⟩
                    · intro t ht
                      rcases List.mem_cons.mp ht with h1 | h1
                      · rw [h1]; simp [tokenOk, hn]
                      · exact this.1 t h1
                    · have h2 := this.2
                      rw [List.length_drop] at h2
                      simp only [List.map_cons, List.sum_cons, tokenLen_dash, hn,
                        Option.getD_some]
                      omega
                  · intro ⟨hok, hsum⟩
                    have hsum2 : ((rest.map tokenLen).sum ≤
                        (rem.drop n).length) := by
                      rw [List.length_drop]
                      simp only [List.map_cons, List.sum_cons, tokenLen_dash, hn,
                        Option.getD_some] at hsum
                      omega
                    obtain ⟨r2, hr2⟩ := (ih (rem.drop n)).mpr
                      ⟨fun t ht => hok t (List.mem_cons_of_mem _ ht), hsum2⟩
                    exact ⟨_, by rw [hr2]; rfl⟩
                · rw [if_neg hlen]
                  constructor
                  · intro ⟨r, hr⟩; cases hr
                  · intro ⟨hok, hsum⟩
                    exfalso
                    simp only [List.map_cons, List.sum_cons, tokenLen_dash, hn,
                      Option.getD_some] at hsum
                    omega
          by_cases hc3 : c = '+'
          · subst hc3
            rw [if_neg (by decide), if_neg (by decide), if_pos rfl]
            cases hd : decodeURI body with
            | none =>
                simp [tokenOk, hd]
            | some t =>
                dsimp only
                constructor
                · intro ⟨r, hr⟩
                  obtain ⟨r2, hr2⟩ : ∃ r2,
                      fromDeltaTokens rem rest = Except.ok r2 := by
                    cases hfd : fromDeltaTokens rem rest with
                    | ok r2 => exact ⟨r2, rfl⟩
                    | error e =>
                        rw [hfd] at hr
                        cases hr
                  have := (ih rem).mp ⟨r2, hr2⟩
                  refine ⟨?_, ?_⟩
                  · intro u hu
                    rcases List.mem_cons.mp hu with h1 | h1
                    · rw [h1]; simp [tokenOk, hd]
                    · exact this.1 u h1
                  · simp only [List.map_cons, List.sum_cons, tokenLen_plus]
                    simpa using this.2
                · intro ⟨hok, hsum⟩
                  have hsum2 : (rest.map tokenLen).sum ≤ rem.length := by
                    simp only [List.map_cons, List.sum_cons, tokenLen_plus]
                      at hsum
                    simpa using hsum
                  obtain ⟨r2, hr2⟩ := (ih rem).mpr
                    ⟨fun u hu => hok u (List.mem_cons_of_mem _ hu), hsum2⟩
                  exact ⟨_, by rw [hr2]; rfl⟩
          · rw [if_neg hc1, if_neg hc2, if_neg hc3]
            constructor
            · intro ⟨r, hr⟩; cases hr
            · rintro ⟨hok, -⟩
              exfalso
              have := hok (c :: body) (List.mem_cons_self _ _)
              simp [tokenOk, hc1, hc2, hc3] at this

/-- **C6**: `diff_fromDelta` fails with a delta format error exactly when
the delta is malformed or the lengths declared by its `=` and `-` tokens
exceed the source text consumed sequentially; on well-formed input whose
token lengths fit within the source it returns a diff script without
error. -/
theorem claim_C6_fromDelta_error_iff (text1 delta : Str) :
    (∃ e, diff_fromDelta text1 delta = Except.error e) ↔
      ¬ (deltaWellFormed delta = true ∧
          deltaDeclaredLen delta ≤ text1.length) := by
  have hiff := fromDeltaTokens_ok_iff (splitTabs delta) text1
  unfold diff_fromDelta deltaWellFormed deltaDeclaredLen
  constructor
  · intro ⟨e, he⟩ ⟨hwf, hlen⟩
    rw [List.all_eq_true] at hwf
    obtain ⟨r, hr⟩ := hiff.mpr ⟨hwf, hlen⟩
    rw [he] at hr
    cases hr
  · intro hno
    cases hres : fromDeltaTokens text1 (splitTabs delta) with
    | ok r =>
        exfalso
        obtain ⟨hok, hlen⟩ := hiff.mp ⟨r, hres⟩
        exact hno ⟨List.all_eq_true.mpr hok, hlen⟩
    | error e => exact ⟨e, rfl⟩

/-! ## The match engine

Modelled from the spec, section 4.4: exact search first; an empty pattern
returns the clamped location; otherwise the approximate sweep scores each
position by a weighted combination of edit distance over pattern length and
normalised distance from the expected location, and the best-scoring
position at or below `Match_Threshold` wins, ties broken by proximity;
`NotFound` (-1) when no position clears the threshold.  The bit-parallel
Bitap realisation of the sweep is modelled by its scoring contract. -/

/-- Levenshtein edit distance, fuelled (the fuel strictly dominates the
summed lengths, so the fallback row is never reached from `editDistance`). -/
def editDistanceF : Nat → Str → Str → Nat
  | 0, s, t => s.length + t.length
  | _ + 1, [], t => t.length
  | _ + 1, s, [] => s.length
  | fuel + 1, a :: s, b :: t =>
      if a = b then editDistanceF fuel s t
      else 1 + min (editDistanceF fuel s (b :: t))
        (min (editDistanceF fuel (a :: s) t) (editDistanceF fuel s t))

/-- Levenshtein edit distance between two texts. -/
def editDistance (s t : Str) : Nat := editDistanceF (s.length + t.length) s t

/-- Fewest errors over all match windows starting at this position: the
minimal edit distance between the pattern and a prefix of the remaining
text. -/
def bestErrorsAt (pattern rest : Str) : Nat :=
  (List.range (rest.length + 1)).foldl
    (fun acc k => min acc (editDistance pattern (rest.take k)))
    pattern.length

/-- `match_bitapScore_`: weighted score of a match with `e` errors at
position `j` (0 perfect, 1 worst): error rate `e / patlen` plus normalised
distance from the expected location, built as one exact fraction (see
`match_bitapScore_eq`); with `Match_Distance = 0` any displacement is
disqualifying. -/
def match_bitapScore (cfg : Config) (patlen loc j : Nat) (e : Nat) : ℚ :=
  if cfg.Match_Distance = 0 then
    if max loc j - min loc j = 0 then mkRat (e : Int) patlen else 1
  else mkRat ((e * cfg.Match_Distance + (max loc j - min loc j) * patlen : Nat) : Int)
    (patlen * cfg.Match_Distance)

/-- The fraction of `match_bitapScore` is exactly accuracy plus weighted
proximity. -/
lemma match_bitapScore_eq (cfg : Config) (patlen loc j e : Nat)
    (hp : patlen ≠ 0) (hd : cfg.Match_Distance ≠ 0) :
    match_bitapScore cfg patlen loc j e =
      (e : ℚ) / (patlen : ℚ) +
        ((max loc j - min loc j : Nat) : ℚ) / (cfg.Match_Distance : ℚ) := by
  have hp' : (patlen : ℚ) ≠ 0 := Nat.cast_ne_zero.mpr hp
  have hd' : (cfg.Match_Distance : ℚ) ≠ 0 := Nat.cast_ne_zero.mpr hd
  unfold match_bitapScore
  rw [if_neg hd, Rat.mkRat_eq_div]
  push_cast
  field_simp

/-- Strictly better candidate: lower score, or equal score and closer to
the expected location. -/
def betterCand (loc : Nat) (p q : Nat × ℚ) : Prop :=
  p.2 < q.2 ∨ (p.2 = q.2 ∧ max loc p.1 - min loc p.1 < max loc q.1 - min loc q.1)

instance (loc : Nat) (p q : Nat × ℚ) : Decidable (betterCand loc p q) :=
  inferInstanceAs (Decidable (Or _ _))

/-- One step of the best-candidate fold: replace the running best only by a
strictly better candidate, so the earliest wins ties. -/
def pickStep (loc : Nat) (best : Option (Nat × ℚ)) (q : Nat × ℚ) : Option (Nat × ℚ) :=
  match best with
  | none => some q
  | some p => if betterCand loc q p then some q else some p

/-- Resolve a candidate list to its best entry. -/
def pickBest (loc : Nat) (l : List (Nat × ℚ)) : Option (Nat × ℚ) :=
  l.foldl (pickStep loc) none

/-- Positions whose best-error score clears the threshold, paired with
their scores. -/
def bitapCands (cfg : Config) (text pattern : Str) (loc : Nat) : List (Nat × ℚ) :=
  (List.range (text.length + 1)).filterMap (fun j =>
    if match_bitapScore cfg pattern.length loc j
        (bestErrorsAt pattern (text.drop j)) ≤ cfg.Match_Threshold
    then some (j, match_bitapScore cfg pattern.length loc j
        (bestErrorsAt pattern (text.drop j)))
    else none)

/-- `match_bitap_` (`index.d.ts` lines 501-510) modelled by its contract:
the candidate positions whose best-error score clears the threshold,
resolved to the best-scoring one, `-1` when none clears it. -/
def match_bitap (cfg : Config) (text pattern : Str) (loc : Nat) : Int :=
  match pickBest loc (bitapCands cfg text pattern loc) with
  | none => -1
  | some p => (p.1 : Int)

/-- Nearest exact occurrence of the pattern to the expected location. -/
def findNear (text pattern : Str) (loc : Nat) : Option Nat :=
  ((List.range (text.length + 1)).filterMap (fun j =>
      if (text.drop j).take pattern.length = pattern then some j
      else none)).foldl
    (fun best j =>
      match best with
      | none => some j
      | some j0 =>
          if max loc j - min loc j < max loc j0 - min loc j0 then some j
          else some j0) none

/-- The requested location clamped to the bounds of the text. -/
def clampLoc (text : Str) (loc : Int) : Nat :=
  (min (max loc 0) (text.length : Int)).toNat

/-- `match_main` (`index.d.ts` lines 492-499): locate the best instance of
the pattern near the location.  The location is clamped to the text; an
empty pattern returns the clamped location; with a threshold of zero only
an exact occurrence is accepted, tried before the approximate sweep. -/
def match_main (cfg : Config) (text pattern : Str) (loc : Int) : Int :=
  if pattern = [] then (clampLoc text loc : Int)
  else if cfg.Match_Threshold = 0 then
    match findNear text pattern (clampLoc text loc) with
    | some j => (j : Int)
    | none => match_bitap cfg text pattern (clampLoc text loc)
  else match_bitap cfg text pattern (clampLoc text loc)

lemma pickStep_some (loc : Nat) (p q : Nat × ℚ) :
    ∃ r, pickStep loc (some p) q = some r := by
  by_cases h : betterCand loc q p
  · exact ⟨q, by simp [pickStep, h]⟩
  · exact ⟨p, by simp [pickStep, h]⟩

lemma foldl_pickStep_some (loc : Nat) (l : List (Nat × ℚ)) (p : Nat × ℚ) :
    ∃ r, l.foldl (pickStep loc) (some p) = some r := by
  induction l generalizing p with
  | nil => exact ⟨p, rfl⟩
  | cons q l ih =>
      obtain ⟨r, hr⟩ := pickStep_some loc p q
      rw [List.foldl_cons, hr]
      exact ih r

lemma pickBest_eq_none_iff (loc : Nat) (l : List (Nat × ℚ)) :
    pickBest loc l = none ↔ l = [] := by
  constructor
  · intro h
    cases l with
    | nil => rfl
    | cons q l =>
        unfold pickBest at h
        rw [List.foldl_cons, show pickStep loc none q = some q from rfl] at h
        obtain ⟨r, hr⟩ := foldl_pickStep_some loc l q
        rw [hr] at h
        exact absurd h (by simp)
  · rintro rfl; rfl

lemma clampLoc_cast (text : Str) (loc : Int) :
    (clampLoc text loc : Int) = min (max loc 0) (text.length : Int) := by
  unfold clampLoc
  exact Int.toNat_of_nonneg (by omega)

/-- A `-1` from the sweep means no position at all cleared the threshold. -/
lemma match_bitap_neg_one (cfg : Config) (text pattern : Str) (loc : Nat)
    (h : match_bitap cfg text pattern loc = -1) :
    ∀ j, j ≤ text.length →
      ¬ match_bitapScore cfg pattern.length loc j
          (bestErrorsAt pattern (text.drop j)) ≤ cfg.Match_Threshold := by
  have hnone : pickBest loc (bitapCands cfg text pattern loc) = none := by
    cases hpb : pickBest loc (bitapCands cfg text pattern loc) with
    | none => rfl
    | some p =>
        simp only [match_bitap, hpb] at h
        exact absurd h (by omega)
  have hnil : bitapCands cfg text pattern loc = [] :=
    (pickBest_eq_none_iff loc _).mp hnone
  intro j hj hscore
  have hjmem : j ∈ List.range (text.length + 1) := List.mem_range.mpr (by omega)
  have hfm := List.filterMap_eq_nil_iff.mp hnil j hjmem
  rw [if_pos hscore] at hfm
  exact absurd hfm (by simp)

/-- C7: with an empty pattern, `match_main` returns the requested location
clamped to the bounds of the text, never the not-found value `-1`; and `-1`
is returned only when the pattern is non-empty and no position in the text
scores at or below `Match_Threshold`. -/
theorem claim_C7_match_main (cfg : Config) (text pattern : Str) (loc : Int) :
    (pattern = [] →
      match_main cfg text pattern loc = min (max loc 0) (text.length : Int) ∧
      match_main cfg text pattern loc ≠ -1) ∧
    (match_main cfg text pattern loc = -1 →
      pattern ≠ [] ∧ ∀ j, j ≤ text.length →
        ¬ match_bitapScore cfg pattern.length (clampLoc text loc) j
            (bestErrorsAt pattern (text.drop j)) ≤ cfg.Match_Threshold) := by
  have hempty : pattern = [] → match_main cfg text pattern loc = (clampLoc text loc : Int) := by
    intro hp
    unfold match_main
    rw [if_pos hp]
  constructor
  · intro hp
    rw [hempty hp, clampLoc_cast]
    exact ⟨rfl, by omega⟩
  · intro hm
    by_cases hp : pattern = []
    · rw [hempty hp] at hm
      exact absurd hm (by omega)
    refine ⟨hp, ?_⟩
    have hb : match_bitap cfg text pattern (clampLoc text loc) = -1 := by
      unfold match_main at hm
      rw [if_neg hp] at hm
      by_cases ht : cfg.Match_Threshold = 0
      · rw [if_pos ht] at hm
        cases hfn : findNear text pattern (clampLoc text loc) with
        | none => simp only [hfn] at hm; exact hm
        | some j => simp only [hfn] at hm; exact absurd hm (by omega)
      · rw [if_neg ht] at hm; exact hm
    exact match_bitap_neg_one cfg text pattern (clampLoc text loc) hb

theorem claim_C7_match_main_witness :
    (match_main defaultConfig "abc".toList [] 5 =
        min (max 5 0) (("abc".toList).length : Int) ∧
      match_main defaultConfig "abc".toList [] 5 ≠ -1) ∧
    ("xyz".toList ≠ [] ∧ ∀ j, j ≤ ("abc".toList).length →
      ¬ match_bitapScore defaultConfig ("xyz".toList).length
          (clampLoc "abc".toList 5) j
          (bestErrorsAt "xyz".toList (("abc".toList).drop j)) ≤
        defaultConfig.Match_Threshold) :=
  ⟨(claim_C7_match_main defaultConfig "abc".toList [] 5).1 rfl,
   (claim_C7_match_main defaultConfig "abc".toList "xyz".toList 5).2 (by decide)⟩

/-! Exact placement: when the pattern occurs verbatim at the expected
location, the sweep resolves to exactly that location.  These lemmas feed
the patch engine's exact-application path. -/

lemma foldl_min_le_init (f : Nat → Nat) (l : List Nat) (init : Nat) :
    l.foldl (fun acc k => min acc (f k)) init ≤ init := by
  induction l generalizing init with
  | nil => exact le_refl _
  | cons z l ih =>
      rw [List.foldl_cons]
      exact le_trans (ih _) (min_le_left _ _)

lemma foldl_min_le_mem (f : Nat → Nat) (l : List Nat) (init x : Nat)
    (hx : x ∈ l) :
    l.foldl (fun acc k => min acc (f k)) init ≤ f x := by
  induction l generalizing init with
  | nil => simp at hx
  | cons z l ih =>
      rw [List.foldl_cons]
      rcases List.mem_cons.mp hx with h | h
      · subst h
        exact le_trans (foldl_min_le_init _ _ _) (min_le_right _ _)
      · exact ih _ h

lemma editDistanceF_self : ∀ (s : Str) (fuel : Nat), s.length ≤ fuel →
    editDistanceF fuel s s = 0 := by
  intro s
  induction s with
  | nil => intro fuel _; cases fuel <;> simp [editDistanceF]
  | cons a s ih =>
      intro fuel hlen
      cases fuel with
      | zero => simp at hlen
      | succ f =>
          simp only [editDistanceF, if_pos rfl]
          exact ih f (by simpa using Nat.le_of_succ_le_succ hlen)

lemma bestErrorsAt_eq_zero (pattern rest : Str) (h : pattern <+: rest) :
    bestErrorsAt pattern rest = 0 := by
  have hlen : pattern.length ≤ rest.length := h.length_le
  have hmem : pattern.length ∈ List.range (rest.length + 1) :=
    List.mem_range.mpr (by omega)
  have htake : rest.take pattern.length = pattern :=
    (List.prefix_iff_eq_take.mp h).symm
  have hle := foldl_min_le_mem
    (fun k => editDistance pattern (rest.take k))
    (List.range (rest.length + 1)) pattern.length pattern.length hmem
  have h0 : editDistance pattern (rest.take pattern.length) = 0 := by
    rw [htake]
    exact editDistanceF_self _ _ (by omega)
  unfold bestErrorsAt
  refine Nat.le_antisymm ?_ (Nat.zero_le _)
  exact le_trans hle (le_of_eq h0)

lemma match_bitapScore_nonneg (cfg : Config) (patlen loc j e : Nat) :
    0 ≤ match_bitapScore cfg patlen loc j e := by
  unfold match_bitapScore
  by_cases hd : cfg.Match_Distance = 0
  · rw [if_pos hd]
    by_cases hp : max loc j - min loc j = 0
    · rw [if_pos hp, Rat.mkRat_eq_div]
      positivity
    · rw [if_neg hp]
      norm_num
  · rw [if_neg hd, Rat.mkRat_eq_div]
    positivity

lemma match_bitapScore_self (cfg : Config) (patlen loc : Nat) :
    match_bitapScore cfg patlen loc loc 0 = 0 := by
  unfold match_bitapScore
  simp [Rat.mkRat_eq_div]

lemma match_bitapScore_pos (cfg : Config) (patlen loc j e : Nat)
    (hp : patlen ≠ 0) (hj : j ≠ loc) :
    0 < match_bitapScore cfg patlen loc j e := by
  have hprox : 0 < max loc j - min loc j := by omega
  unfold match_bitapScore
  by_cases hd : cfg.Match_Distance = 0
  · rw [if_pos hd, if_neg (by omega)]
    norm_num
  · rw [if_neg hd, Rat.mkRat_eq_div]
    have h1 : 0 < e * cfg.Match_Distance + (max loc j - min loc j) * patlen := by
      have := Nat.mul_pos hprox (Nat.pos_of_ne_zero hp)
      omega
    have h2 : 0 < patlen * cfg.Match_Distance :=
      Nat.mul_pos (Nat.pos_of_ne_zero hp) (Nat.pos_of_ne_zero hd)
    exact div_pos (by exact_mod_cast h1) (by exact_mod_cast h2)

lemma betterCand_irrefl (loc : Nat) (p : Nat × ℚ) : ¬ betterCand loc p p := by
  unfold betterCand
  simp

lemma foldl_pickStep_fixed (loc : Nat) (x : Nat × ℚ) :
    ∀ l : List (Nat × ℚ), (∀ y ∈ l, ¬ betterCand loc y x) →
      l.foldl (pickStep loc) (some x) = some x := by
  intro l
  induction l with
  | nil => intro _; rfl
  | cons z l ih =>
      intro h
      rw [List.foldl_cons,
        show pickStep loc (some x) z = some x from by
          simp [pickStep, h z (by simp)]]
      exact ih (fun y hy => h y (by simp [hy]))

lemma foldl_pickStep_reach (loc : Nat) (x : Nat × ℚ) :
    ∀ (l : List (Nat × ℚ)) (y : Nat × ℚ), x ∈ l →
      (∀ z ∈ l, z ≠ x → betterCand loc x z) →
      (∀ z ∈ l, ¬ betterCand loc z x) →
      betterCand loc x y →
      l.foldl (pickStep loc) (some y) = some x := by
  intro l
  induction l with
  | nil => intro y hx _ _ _; simp at hx
  | cons z l ih =>
      intro y hx hdom hworse hxy
      rw [List.foldl_cons]
      by_cases hz : z = x
      · subst hz
        rw [show pickStep loc (some y) z = some z from by simp [pickStep, hxy]]
        exact foldl_pickStep_fixed loc z l (fun w hw => hworse w (by simp [hw]))
      · have hx' : x ∈ l := by
          rcases List.mem_cons.mp hx with h | h
          · exact absurd h.symm hz
          · exact h
        by_cases hzy : betterCand loc z y
        · rw [show pickStep loc (some y) z = some z from by simp [pickStep, hzy]]
          exact ih z hx' (fun w hw hne => hdom w (by simp [hw]) hne)
            (fun w hw => hworse w (by simp [hw])) (hdom z (by simp) hz)
        · rw [show pickStep loc (some y) z = some y from by simp [pickStep, hzy]]
          exact ih y hx' (fun w hw hne => hdom w (by simp [hw]) hne)
            (fun w hw => hworse w (by simp [hw])) hxy

lemma pickBest_dominant (loc : Nat) (x : Nat × ℚ) (l : List (Nat × ℚ))
    (hx : x ∈ l) (hdom : ∀ z ∈ l, z ≠ x → betterCand loc x z)
    (hworse : ∀ z ∈ l, ¬ betterCand loc z x) :
    pickBest loc l = some x := by
  cases l with
  | nil => simp at hx
  | cons z l =>
      unfold pickBest
      rw [List.foldl_cons, show pickStep loc none z = some z from rfl]
      by_cases hz : z = x
      · subst hz
        exact foldl_pickStep_fixed loc z l (fun w hw => hworse w (by simp [hw]))
      · have hx' : x ∈ l := by
          rcases List.mem_cons.mp hx with h | h
          · exact absurd h.symm hz
          · exact h
        exact foldl_pickStep_reach loc x l z hx'
          (fun w hw hne => hdom w (by simp [hw]) hne)
          (fun w hw => hworse w (by simp [hw])) (hdom z (by simp) hz)

lemma match_bitap_exact (cfg : Config) (text pattern : Str) (loc : Nat)
    (hp : pattern ≠ [])
    (hthr : 0 ≤ cfg.Match_Threshold)
    (hloc : loc ≤ text.length)
    (hocc : pattern <+: text.drop loc) :
    match_bitap cfg text pattern loc = (loc : Int) := by
  have hplen : pattern.length ≠ 0 := fun h => hp (List.length_eq_zero.mp h)
  have hscore : match_bitapScore cfg pattern.length loc loc
      (bestErrorsAt pattern (text.drop loc)) = 0 := by
    rw [bestErrorsAt_eq_zero pattern (text.drop loc) hocc]
    exact match_bitapScore_self cfg pattern.length loc
  have hmem : (loc, (0 : ℚ)) ∈ bitapCands cfg text pattern loc := by
    apply List.mem_filterMap.mpr
    refine ⟨loc, List.mem_range.mpr (by omega), ?_⟩
    rw [hscore, if_pos hthr]
  have hshape : ∀ z ∈ bitapCands cfg text pattern loc,
      z = (z.1, match_bitapScore cfg pattern.length loc z.1
        (bestErrorsAt pattern (text.drop z.1))) := by
    intro z hz
    obtain ⟨j, _, hjf⟩ := List.mem_filterMap.mp hz
    by_cases hc : match_bitapScore cfg pattern.length loc j
        (bestErrorsAt pattern (text.drop j)) ≤ cfg.Match_Threshold
    · rw [if_pos hc] at hjf
      rw [← Option.some.inj hjf]
    · rw [if_neg hc] at hjf
      exact absurd hjf (by simp)
  have hdom : ∀ z ∈ bitapCands cfg text pattern loc, z ≠ (loc, (0 : ℚ)) →
      betterCand loc (loc, (0 : ℚ)) z := by
    intro z hz hne
    have hzs := hshape z hz
    by_cases hj : z.1 = loc
    · exfalso
      apply hne
      rw [hzs, hj, hscore]
    · left
      rw [hzs]
      exact match_bitapScore_pos cfg pattern.length loc z.1 _ hplen hj
  have hworse : ∀ z ∈ bitapCands cfg text pattern loc,
      ¬ betterCand loc z (loc, (0 : ℚ)) := by
    intro z hz hbad
    rcases hbad with hlt | ⟨_, hprox⟩
    · have hzs := hshape z hz
      have : (0 : ℚ) ≤ z.2 := by
        rw [hzs]
        exact match_bitapScore_nonneg cfg pattern.length loc z.1 _
      simp at hlt
      exact absurd (lt_of_le_of_lt this hlt) (lt_irrefl _)
    · simp at hprox
  unfold match_bitap
  rw [pickBest_dominant loc (loc, (0 : ℚ)) _ hmem hdom hworse]

lemma match_main_exact (cfg : Config) (text pattern : Str) (loc : Nat)
    (hthr : 0 < cfg.Match_Threshold)
    (hloc : loc ≤ text.length)
    (hocc : pattern <+: text.drop loc) :
    match_main cfg text pattern (loc : Int) = (loc : Int) := by
  have hclamp : clampLoc text (loc : Int) = loc := by
    unfold clampLoc
    omega
  by_cases hp : pattern = []
  · unfold match_main
    rw [if_pos hp, hclamp]
  · unfold match_main
    rw [if_neg hp, if_neg hthr.ne', hclamp]
    exact match_bitap_exact cfg text pattern loc hp hthr.le hloc hocc

/-- C9: every `Diff` value is a two-slot tuple whose slot 0 is one of the
three numeric operation constants `DIFF_INSERT` = 1, `DIFF_DELETE` = -1,
`DIFF_EQUAL` = 0 and whose slot 1 is the text; no other operation code ever
appears. -/
theorem claim_C9_diff_tuple (x : Diff) :
    (x.toTuple.1 = DIFF_INSERT ∨ x.toTuple.1 = DIFF_DELETE ∨
      x.toTuple.1 = DIFF_EQUAL) ∧
    x.toTuple = (x.op.code, x.text) := by
  refine ⟨?_, rfl⟩
  cases hx : x.op <;>
    simp [Diff.toTuple, Op.code, hx, DIFF_INSERT, DIFF_DELETE, DIFF_EQUAL]

/-! ## The patch engine

Modelled from the spec, section 4.5: `patch_make` walks a diff script left
to right, opening a patch at each non-Equal run, absorbing interior Equal
runs of at most twice the margin, closing at longer ones, and giving each
patch up to `Patch_Margin` characters of leading/trailing Equal context;
`start1`/`start2` are the running source/destination offsets and the span
lengths are derived from the diffs.  `patch_apply` pads the text and the
patch edges, splits oversized patches, then applies each patch at its
recorded destination offset corrected by the running drift, by exact match
of the pre-image or by the fuzzy fine-grained path, and finally strips the
padding, returning the text with one applied flag per patch. -/

/-- Characters a diff contributes to the source text. -/
def dLen1 (x : Diff) : Nat := if x.op = Op.insert then 0 else x.text.length

/-- Characters a diff contributes to the destination text. -/
def dLen2 (x : Diff) : Nat := if x.op = Op.delete then 0 else x.text.length

/-- `patch_obj` (`index.d.ts` lines 596-623): a localized edit window — a
diff script scoped to the window, source/destination offsets, and span
lengths derived from the diffs. -/
structure Patch where
  diffs : List Diff
  start1 : Nat
  start2 : Nat
  length1 : Nat
  length2 : Nat
deriving DecidableEq, Repr

/-- Leading Equal context of a patch opened at source offset `p1`: the up
to `m` characters immediately before the window. -/
def preCtx (m : Nat) (a : Str) (p1 : Nat) : Str := (a.take p1).drop (p1 - m)

/-- Trailing Equal context of a patch whose core ends at source offset
`c1`: the up to `m` characters immediately after the window. -/
def sufCtx (m : Nat) (a : Str) (c1 : Nat) : Str := (a.drop c1).take m

/-- A closed patch's diff script: the accumulated core wrapped in its
(non-empty) leading and trailing context equalities. -/
def ctxDiffs (m : Nat) (a : Str) (p1 c1 : Nat) (acc : List Diff) : List Diff :=
  (if preCtx m a p1 = [] then acc else ⟨Op.equal, preCtx m a p1⟩ :: acc) ++
    (if sufCtx m a c1 = [] then [] else [⟨Op.equal, sufCtx m a c1⟩])

/-- Close the patch opened at `(p1, p2)` whose core (spanning up to source
offset `c1`) is `acc`: attach context, pull the starts back over the
leading context, derive the span lengths. -/
def closePatch (m : Nat) (a : Str) (p1 p2 c1 : Nat) (acc : List Diff) : Patch :=
  { diffs := ctxDiffs m a p1 c1 acc
    start1 := p1 - (preCtx m a p1).length
    start2 := p2 - (preCtx m a p1).length
    length1 := (diff_text1 (ctxDiffs m a p1 c1 acc)).length
    length2 := (diff_text2 (ctxDiffs m a p1 c1 acc)).length }

/-- The left-to-right walk of `patch_make` (spec section 4.5): the optional
state holds the open patch's start offsets and accumulated core; `c1`/`c2`
are the running source/destination offsets. -/
def patchWalk (m : Nat) (a : Str) :
    Option ((Nat × Nat) × List Diff) → Nat → Nat → List Diff → List Patch
  | none, _, _, [] => []
  | some ((p1, p2), acc), c1, _, [] => [closePatch m a p1 p2 c1 acc]
  | none, c1, c2, x :: rest =>
      if x.op = Op.equal then
        patchWalk m a none (c1 + x.text.length) (c2 + x.text.length) rest
      else
        patchWalk m a (some ((c1, c2), [x])) (c1 + dLen1 x) (c2 + dLen2 x) rest
  | some ((p1, p2), acc), c1, c2, x :: rest =>
      if x.op = Op.equal then
        if rest = [] then [closePatch m a p1 p2 c1 acc]
        else if x.text.length ≤ 2 * m then
          patchWalk m a (some ((p1, p2), acc ++ [x]))
            (c1 + x.text.length) (c2 + x.text.length) rest
        else
          closePatch m a p1 p2 c1 acc ::
            patchWalk m a none (c1 + x.text.length) (c2 + x.text.length) rest
      else
        patchWalk m a (some ((p1, p2), acc ++ [x]))
          (c1 + dLen1 x) (c2 + dLen2 x) rest

/-- `patch_make` (`index.d.ts` line 553), text/text form: compute the diff
and slice it into context-bounded windows. -/
def patch_make (cfg : Config) (a b : Str) : List Patch :=
  patchWalk cfg.Patch_Margin a none 0 0 (diff_main cfg a b true)

/-- The synthetic padding: `m` null-ish separator characters. -/
def nullPadding (m : Nat) : Str := (List.range m).map (fun i => Char.ofNat (i + 1))

/-- Shift a patch's offsets past the padding prepended to the text. -/
def shiftPatch (m : Nat) (p : Patch) : Patch :=
  { p with start1 := p.start1 + m, start2 := p.start2 + m }

/-- Extend the first patch's leading context into the padding: a missing or
short leading equality grows to the full margin. -/
def padFront (m : Nat) (pad : Str) (p : Patch) : Patch :=
  match p.diffs with
  | ⟨Op.equal, e⟩ :: rest =>
      if m ≤ e.length then p
      else
        { diffs := ⟨Op.equal, pad.drop e.length ++ e⟩ :: rest
          start1 := p.start1 - (m - e.length)
          start2 := p.start2 - (m - e.length)
          length1 := (diff_text1 (⟨Op.equal, pad.drop e.length ++ e⟩ :: rest)).length
          length2 := (diff_text2 (⟨Op.equal, pad.drop e.length ++ e⟩ :: rest)).length }
  | _ =>
      { diffs := ⟨Op.equal, pad⟩ :: p.diffs
        start1 := p.start1 - m
        start2 := p.start2 - m
        length1 := (diff_text1 (⟨Op.equal, pad⟩ :: p.diffs)).length
        length2 := (diff_text2 (⟨Op.equal, pad⟩ :: p.diffs)).length }

/-- Extend a trailing-context diff script into the padding (acting on the
last diff). -/
def padBackDiffs (m : Nat) (pad : Str) : List Diff → List Diff
  | [] => [⟨Op.equal, pad⟩]
  | [x] =>
      if x.op = Op.equal then
        if m ≤ x.text.length then [x]
        else [⟨Op.equal, x.text ++ pad.take (m - x.text.length)⟩]
      else [x, ⟨Op.equal, pad⟩]
  | x :: y :: rest => x :: padBackDiffs m pad (y :: rest)

/-- Extend the last patch's trailing context into the padding. -/
def padBack (m : Nat) (pad : Str) (p : Patch) : Patch :=
  { diffs := padBackDiffs m pad p.diffs
    start1 := p.start1
    start2 := p.start2
    length1 := (diff_text1 (padBackDiffs m pad p.diffs)).length
    length2 := (diff_text2 (padBackDiffs m pad p.diffs)).length }

/-- Apply a function to the head of a list only. -/
def mapHead (f : Patch → Patch) : List Patch → List Patch
  | [] => []
  | p :: rest => f p :: rest

/-- Apply a function to the last element of a list only. -/
def mapLast (f : Patch → Patch) : List Patch → List Patch
  | [] => []
  | [p] => [f p]
  | p :: q :: rest => p :: mapLast f (q :: rest)

/-- `patch_addPadding` (spec section 4.5 step 1): shift every patch past
the padding and extend the first and last patches' context into it, so that
edge-adjacent edits have matchable context. -/
def patch_addPadding (cfg : Config) (ps : List Patch) : List Patch :=
  mapLast (padBack cfg.Patch_Margin (nullPadding cfg.Patch_Margin))
    (mapHead (padFront cfg.Patch_Margin (nullPadding cfg.Patch_Margin))
      (ps.map (shiftPatch cfg.Patch_Margin)))

/-- `patch_splitMax` (`index.d.ts` lines 583-589): split any patch whose
window exceeds `Match_MaxBits`.  This embedding's match sweep is not
register-width-limited, so the modelled configuration keeps
`Match_MaxBits = 0` — an unlimited window, which the spec permits — and no
patch ever exceeds the cap: the pass returns the set unchanged. -/
def patch_splitMax (_cfg : Config) (ps : List Patch) : List Patch := ps

/-- `diff_xIndex` (`index.d.ts` lines 462-468): map a source-text offset
through a diff script to the corresponding destination-text offset. -/
def diff_xIndex : List Diff → Nat → Nat
  | [], loc => loc
  | x :: rest, loc =>
      if loc < dLen1 x then (if x.op = Op.delete then 0 else loc)
      else dLen2 x + diff_xIndex rest (loc - dLen1 x)

/-- Accumulator walk of `diff_levenshtein`: insertions and deletions in one
gap combine by maximum, gaps separated by equalities add up. -/
def levRun : List Diff → Nat → Nat → Nat
  | [], ins, del => max ins del
  | x :: rest, ins, del =>
      if x.op = Op.insert then levRun rest (ins + x.text.length) del
      else if x.op = Op.delete then levRun rest ins (del + x.text.length)
      else max ins del + levRun rest 0 0

/-- `diff_levenshtein`: edit weight of a diff script. -/
def diff_levenshtein (d : List Diff) : Nat := levRun d 0 0

/-- The fine-grained fuzzy application (spec section 4.5 step 4): walk the
patch's edits, translating each source offset through the fine-grained
diff `diffs2` to locate its insertion point in the drifted window at
`sl`. -/
def fuzzyApplyMods (diffs2 : List Diff) (sl : Nat) : List Diff → Nat → Str → Str
  | [], _, text => text
  | mod :: rest, index1, text =>
      if mod.op = Op.equal then
        fuzzyApplyMods diffs2 sl rest (index1 + mod.text.length) text
      else if mod.op = Op.insert then
        fuzzyApplyMods diffs2 sl rest index1
          (text.take (sl + diff_xIndex diffs2 index1) ++ mod.text ++
            text.drop (sl + diff_xIndex diffs2 index1))
      else
        fuzzyApplyMods diffs2 sl rest (index1 + mod.text.length)
          (text.take (sl + diff_xIndex diffs2 index1) ++
            text.drop (sl + diff_xIndex diffs2 (index1 + mod.text.length)))

/-- A found anchor `sl` for one patch: replace directly when the matched
text equals the expected pre-image; otherwise run the fine-grained diff,
rejecting the patch when the mismatch weight exceeds
`Patch_DeleteThreshold`, and apply edit by edit through `diff_xIndex`
otherwise.  Returns the new text, the applied flag, and the new drift. -/
def applyFound (cfg : Config) (p : Patch) (text : Str) (delta : Int) (sl : Nat) :
    Str × Bool × Int :=
  if (text.drop sl).take (diff_text1 p.diffs).length = diff_text1 p.diffs then
    (text.take sl ++ diff_text2 p.diffs ++
        text.drop (sl + (diff_text1 p.diffs).length),
      true, (sl : Int) - ((p.start2 : Int) + delta))
  else if cfg.Patch_DeleteThreshold <
      mkRat (diff_levenshtein (diff_main cfg (diff_text1 p.diffs)
          ((text.drop sl).take (diff_text1 p.diffs).length) false))
        (diff_text1 p.diffs).length then
    (text, false, (sl : Int) - ((p.start2 : Int) + delta))
  else
    (fuzzyApplyMods
        (diff_cleanupSemanticLossless (diff_main cfg (diff_text1 p.diffs)
          ((text.drop sl).take (diff_text1 p.diffs).length) false))
        sl p.diffs 0 text,
      true, (sl : Int) - ((p.start2 : Int) + delta))

/-- One patch of the application loop: search for the pre-image near the
drift-corrected destination offset; on `-1` leave the text untouched, flag
`false` and back the drift out of subsequent patches. -/
def applyStep (cfg : Config) (p : Patch) (text : Str) (delta : Int) :
    Str × Bool × Int :=
  if match_main cfg text (diff_text1 p.diffs) ((p.start2 : Int) + delta) = -1 then
    (text, false, delta - ((p.length2 : Int) - (p.length1 : Int)))
  else
    applyFound cfg p text delta
      ((match_main cfg text (diff_text1 p.diffs) ((p.start2 : Int) + delta)).toNat)

/-- The application loop: fold `applyStep` over the patches, collecting the
flags in order. -/
def applyLoop (cfg : Config) : List Patch → Str → Int → Str × List Bool
  | [], text, _ => (text, [])
  | p :: rest, text, delta =>
      ((applyLoop cfg rest (applyStep cfg p text delta).1
          (applyStep cfg p text delta).2.2).1,
        (applyStep cfg p text delta).2.1 ::
          (applyLoop cfg rest (applyStep cfg p text delta).1
            (applyStep cfg p text delta).2.2).2)

/-- Remove `m` characters of padding from both ends. -/
def stripPadding (m : Nat) (t : Str) : Str := (t.drop m).take (t.length - 2 * m)

/-- `patch_apply` (`index.d.ts` lines 565-573): pad, split, apply each
patch with drift correction, strip the padding, and return the patched text
with one applied flag per patch. -/
def patch_apply (cfg : Config) (ps : List Patch) (text : Str) : Str × List Bool :=
  if ps = [] then (text, [])
  else
    (stripPadding (nullPadding cfg.Patch_Margin).length
        (applyLoop cfg (patch_splitMax cfg (patch_addPadding cfg ps))
          (nullPadding cfg.Patch_Margin ++ text ++ nullPadding cfg.Patch_Margin) 0).1,
      (applyLoop cfg (patch_splitMax cfg (patch_addPadding cfg ps))
        (nullPadding cfg.Patch_Margin ++ text ++ nullPadding cfg.Patch_Margin) 0).2)

/-- A patch set correctly covers the transformation of `a` into `b` from
source offset `c1` / destination offset `c2` on: each patch sits after a
common gap, its pre-image and post-image read off `a` and `b` at its
recorded offsets, and past the last patch the texts agree. -/
inductive Covers (a b : Str) : Nat → Nat → List Patch → Prop
  | nil : ∀ c1 c2, c1 ≤ a.length → c2 ≤ b.length → a.drop c1 = b.drop c2 →
      Covers a b c1 c2 []
  | cons : ∀ c1 c2 g p ps,
      p.start1 = c1 + g →
      p.start2 = c2 + g →
      c1 + g ≤ a.length →
      c2 + g ≤ b.length →
      (a.drop c1).take g = (b.drop c2).take g →
      diff_text1 p.diffs <+: a.drop (c1 + g) →
      diff_text2 p.diffs <+: b.drop (c2 + g) →
      Covers a b (c1 + g + (diff_text1 p.diffs).length)
        (c2 + g + (diff_text2 p.diffs).length) ps →
      Covers a b c1 c2 (p :: ps)

/-- When the patch's pre-image sits exactly at its recorded destination
offset with zero drift, the step is the direct replacement, flagged
applied, with the drift staying zero. -/
lemma applyStep_exact (cfg : Config) (hthr : 0 < cfg.Match_Threshold)
    (p : Patch) (pre suf : Str)
    (hpre : pre.length = p.start2)
    (ht1 : diff_text1 p.diffs <+: suf) :
    applyStep cfg p (pre ++ suf) 0 =
      (pre ++ diff_text2 p.diffs ++ suf.drop (diff_text1 p.diffs).length,
        true, 0) := by
  have hdropp : (pre ++ suf).drop p.start2 = suf := by
    rw [← hpre, List.drop_left]
  have hlen : p.start2 ≤ (pre ++ suf).length := by
    rw [List.length_append]
    omega
  have hmm : match_main cfg (pre ++ suf) (diff_text1 p.diffs)
      ((p.start2 : Int) + 0) = (p.start2 : Int) := by
    rw [show ((p.start2 : Int) + 0) = (p.start2 : Int) from by ring]
    exact match_main_exact cfg _ _ p.start2 hthr hlen (by rw [hdropp]; exact ht1)
  unfold applyStep
  rw [hmm, if_neg (by omega : ¬ ((p.start2 : Int) = -1)),
    show ((p.start2 : Int)).toNat = p.start2 from by omega]
  unfold applyFound
  rw [if_pos (by rw [hdropp]; exact (List.prefix_iff_eq_take.mp ht1).symm)]
  rw [show (pre ++ suf).take p.start2 = pre from by rw [← hpre, List.take_left]]
  rw [show (pre ++ suf).drop (p.start2 + (diff_text1 p.diffs).length) =
      suf.drop (diff_text1 p.diffs).length from by
    rw [← List.drop_drop, hdropp]]
  rw [show (p.start2 : Int) - ((p.start2 : Int) + 0) = 0 from by ring]

/-- Exact application of a covering patch set rewrites the hybrid text all
the way to the destination text, every patch applying. -/
lemma applyLoop_covers (cfg : Config) (hthr : 0 < cfg.Match_Threshold)
    (a b : Str) :
    ∀ (ps : List Patch) (c1 c2 : Nat), Covers a b c1 c2 ps →
      applyLoop cfg ps (b.take c2 ++ a.drop c1) 0 =
        (b, List.replicate ps.length true) := by
  intro ps c1 c2 hcov
  induction hcov with
  | nil c1 c2 h1 h2 heq =>
      show (b.take c2 ++ a.drop c1, []) = _
      rw [heq, List.take_append_drop]
      rfl
  | cons c1 c2 g p ps hs1 hs2 hb1 hb2 hgap ht1 ht2 _ ih =>
      have hH : b.take c2 ++ a.drop c1 = b.take (c2 + g) ++ a.drop (c1 + g) := by
        rw [List.take_add, List.append_assoc, ← hgap]
        congr 1
        rw [← List.drop_drop]
        exact (List.take_append_drop g (a.drop c1)).symm
      have hprelen : (b.take (c2 + g)).length = p.start2 := by
        rw [List.length_take, hs2]
        omega
      have hstep := applyStep_exact cfg hthr p (b.take (c2 + g)) (a.drop (c1 + g))
        hprelen ht1
      have hnext : b.take (c2 + g) ++ diff_text2 p.diffs ++
          (a.drop (c1 + g)).drop (diff_text1 p.diffs).length =
          b.take (c2 + g + (diff_text2 p.diffs).length) ++
            a.drop (c1 + g + (diff_text1 p.diffs).length) := by
        have h2 : b.take (c2 + g + (diff_text2 p.diffs).length) =
            b.take (c2 + g) ++ diff_text2 p.diffs := by
          rw [List.take_add]
          congr 1
          exact (List.prefix_iff_eq_take.mp ht2).symm
        rw [h2, List.append_assoc, List.append_assoc]
        congr 2
        rw [List.drop_drop]
      show ((applyLoop cfg ps (applyStep cfg p (b.take c2 ++ a.drop c1) 0).1
          (applyStep cfg p (b.take c2 ++ a.drop c1) 0).2.2).1,
        (applyStep cfg p (b.take c2 ++ a.drop c1) 0).2.1 ::
          (applyLoop cfg ps (applyStep cfg p (b.take c2 ++ a.drop c1) 0).1
            (applyStep cfg p (b.take c2 ++ a.drop c1) 0).2.2).2) = _
      rw [hH, hstep]
      simp only [hnext, ih]
      rfl

lemma prefix_append_left (l : Str) {x y : Str} (h : x <+: y) :
    l ++ x <+: l ++ y := by
  obtain ⟨t, rfl⟩ := h
  exact ⟨t, by simp⟩

lemma diff_text1_single (x : Diff) :
    diff_text1 [x] = if x.op = Op.insert then [] else x.text := by
  simp [diff_text1]

lemma diff_text2_single (x : Diff) :
    diff_text2 [x] = if x.op = Op.delete then [] else x.text := by
  simp [diff_text2]

lemma diff_text1_single_len (x : Diff) : (diff_text1 [x]).length = dLen1 x := by
  rw [diff_text1_single, dLen1]
  split <;> simp

lemma diff_text2_single_len (x : Diff) : (diff_text2 [x]).length = dLen2 x := by
  rw [diff_text2_single, dLen2]
  split <;> simp

lemma diff_text1_ctxDiffs (m : Nat) (a : Str) (p1 c1 : Nat) (acc : List Diff) :
    diff_text1 (ctxDiffs m a p1 c1 acc) =
      preCtx m a p1 ++ (diff_text1 acc ++ sufCtx m a c1) := by
  unfold ctxDiffs
  by_cases h1 : preCtx m a p1 = [] <;> by_cases h2 : sufCtx m a c1 = [] <;>
    simp [h1, h2, diff_text1_append, diff_text1]

lemma diff_text2_ctxDiffs (m : Nat) (a : Str) (p1 c1 : Nat) (acc : List Diff) :
    diff_text2 (ctxDiffs m a p1 c1 acc) =
      preCtx m a p1 ++ (diff_text2 acc ++ sufCtx m a c1) := by
  unfold ctxDiffs
  by_cases h1 : preCtx m a p1 = [] <;> by_cases h2 : sufCtx m a c1 = [] <;>
    simp [h1, h2, diff_text2_append, diff_text2]

/-- A middle segment of a truncated prefix read through the suffix at an
earlier anchor. -/
lemma seg_of_take_drop (l : Str) (e c n : Nat) (hec : e ≤ c) (hc : c ≤ l.length)
    (hen : e ≤ n) :
    (l.take c).drop n = ((l.drop e).take (c - e)).drop (n - e) := by
  have h1 : l.take c = l.take e ++ (l.drop e).take (c - e) := by
    conv_lhs => rw [show c = e + (c - e) from by omega]
    exact List.take_add l e (c - e)
  have hlen : (l.take e).length = e := by
    rw [List.length_take]
    omega
  rw [h1, List.drop_append_eq_append_drop, hlen,
    List.drop_eq_nil_of_le (by omega : (l.take e).length ≤ n)]
  simp

/-- The `m`-character windows before two aligned offsets agree when they sit
inside a common aligned segment. -/
lemma ctx_common (a b : Str) (m e1 e2 c1 c2 : Nat)
    (he1 : e1 ≤ c1 - m) (he2 : e2 ≤ c2 - m)
    (hoff : c1 - e1 = c2 - e2)
    (hcom : (a.drop e1).take (c1 - e1) = (b.drop e2).take (c2 - e2))
    (hc1 : c1 ≤ a.length) (hc2 : c2 ≤ b.length) :
    (a.take c1).drop (c1 - m) = (b.take c2).drop (c2 - m) := by
  rw [seg_of_take_drop a e1 c1 (c1 - m) (by omega) hc1 he1,
    seg_of_take_drop b e2 c2 (c2 - m) (by omega) hc2 he2, hcom]
  congr 1
  omega

/-- Reading a text from an offset pulled back over the context window. -/
lemma drop_ctx (l : Str) (p k : Nat) (h : p ≤ l.length) :
    l.drop (p - k) = (l.take p).drop (p - k) ++ l.drop p := by
  conv_lhs => rw [← List.take_append_drop p l]
  rw [List.drop_append_of_le_length (by rw [List.length_take]; omega)]

/-- A closed patch prepends correctly to a covering tail anchored right
after its trailing context. -/
lemma closePatch_covers (m : Nat) (a b : Str)
    (p1 p2 c1 c2 e1 e2 : Nat) (acc rest : List Diff)
    (hO3 : a.drop p1 = diff_text1 acc ++ diff_text1 rest)
    (hO4 : b.drop p2 = diff_text2 acc ++ diff_text2 rest)
    (hO5 : c1 = p1 + (diff_text1 acc).length)
    (hO5b : c2 = p2 + (diff_text2 acc).length)
    (hpa : p1 ≤ a.length) (hpb : p2 ≤ b.length)
    (hO6 : (a.take p1).drop (p1 - m) = (b.take p2).drop (p2 - m))
    (he1 : e1 ≤ p1 - m) (he2 : e2 ≤ p2 - m)
    (hoff : (p1 - m) - e1 = (p2 - m) - e2)
    (hcom : (a.drop e1).take ((p1 - m) - e1) = (b.drop e2).take ((p2 - m) - e2))
    (hsuf1 : sufCtx m a c1 <+: diff_text1 rest)
    (hsuf2 : sufCtx m a c1 <+: diff_text2 rest)
    (tail : List Patch)
    (htail : Covers a b (c1 + (sufCtx m a c1).length)
      (c2 + (sufCtx m a c1).length) tail) :
    Covers a b e1 e2 (closePatch m a p1 p2 c1 acc :: tail) := by
  have hprelen : (preCtx m a p1).length = p1 - (p1 - m) := by
    unfold preCtx
    rw [List.length_drop, List.length_take]
    omega
  have hprelen2 : (preCtx m a p1).length = p2 - (p2 - m) := by
    have := congrArg List.length hO6
    rw [List.length_drop, List.length_drop, List.length_take,
      List.length_take] at this
    unfold preCtx
    rw [List.length_drop, List.length_take]
    omega
  have hstart1 : (closePatch m a p1 p2 c1 acc).start1 = e1 + ((p1 - m) - e1) := by
    show p1 - (preCtx m a p1).length = _
    rw [hprelen]
    omega
  have hstart2 : (closePatch m a p1 p2 c1 acc).start2 = e2 + ((p1 - m) - e1) := by
    show p2 - (preCtx m a p1).length = _
    rw [hprelen2]
    omega
  have hgap : (a.drop e1).take ((p1 - m) - e1) = (b.drop e2).take ((p1 - m) - e1) := by
    rw [hcom]
    congr 1
    omega
  have ht1 : diff_text1 (closePatch m a p1 p2 c1 acc).diffs <+:
      a.drop (e1 + ((p1 - m) - e1)) := by
    show diff_text1 (ctxDiffs m a p1 c1 acc) <+: _
    rw [show e1 + ((p1 - m) - e1) = p1 - m from by omega,
      diff_text1_ctxDiffs, drop_ctx a p1 m hpa, hO3]
    exact prefix_append_left _ (prefix_append_left _ hsuf1)
  have ht2 : diff_text2 (closePatch m a p1 p2 c1 acc).diffs <+:
      b.drop (e2 + ((p1 - m) - e1)) := by
    show diff_text2 (ctxDiffs m a p1 c1 acc) <+: _
    rw [show e2 + ((p1 - m) - e1) = p2 - m from by omega,
      diff_text2_ctxDiffs, drop_ctx b p2 m hpb, hO4, ← hO6]
    unfold preCtx
    exact prefix_append_left _ (prefix_append_left _ hsuf2)
  have hend1 : e1 + ((p1 - m) - e1) +
      (diff_text1 (closePatch m a p1 p2 c1 acc).diffs).length =
      c1 + (sufCtx m a c1).length := by
    show _ + (diff_text1 (ctxDiffs m a p1 c1 acc)).length = _
    rw [diff_text1_ctxDiffs]
    simp only [List.length_append]
    omega
  have hend2 : e2 + ((p1 - m) - e1) +
      (diff_text2 (closePatch m a p1 p2 c1 acc).diffs).length =
      c2 + (sufCtx m a c1).length := by
    show _ + (diff_text2 (ctxDiffs m a p1 c1 acc)).length = _
    rw [diff_text2_ctxDiffs]
    simp only [List.length_append]
    omega
  refine Covers.cons e1 e2 ((p1 - m) - e1) _ tail hstart1 hstart2
    (by omega) (by omega) hgap ?_ ?_ ?_
  · exact ht1
  · exact ht2
  · rw [hend1, hend2]
    exact htail

/-- The `patch_make` walk yields a covering patch set, whichever state it is
in: the `none` conjunct covers the closed-patch states, the `some` conjunct
the open-patch states. -/
lemma patchWalk_covers (m : Nat) (a b : Str) :
    ∀ rest : List Diff,
      (∀ c1 c2 e1 e2 : Nat,
        a.drop c1 = diff_text1 rest →
        b.drop c2 = diff_text2 rest →
        c1 ≤ a.length → c2 ≤ b.length →
        e1 ≤ c1 - m → e2 ≤ c2 - m →
        c1 - e1 = c2 - e2 →
        (a.drop e1).take (c1 - e1) = (b.drop e2).take (c2 - e2) →
        Covers a b e1 e2 (patchWalk m a none c1 c2 rest)) ∧
      (∀ (p1 p2 : Nat) (acc : List Diff) (c1 c2 e1 e2 : Nat),
        a.drop c1 = diff_text1 rest →
        b.drop c2 = diff_text2 rest →
        a.drop p1 = diff_text1 acc ++ diff_text1 rest →
        b.drop p2 = diff_text2 acc ++ diff_text2 rest →
        c1 = p1 + (diff_text1 acc).length →
        c2 = p2 + (diff_text2 acc).length →
        p1 ≤ a.length → p2 ≤ b.length →
        (a.take p1).drop (p1 - m) = (b.take p2).drop (p2 - m) →
        e1 ≤ p1 - m → e2 ≤ p2 - m →
        (p1 - m) - e1 = (p2 - m) - e2 →
        (a.drop e1).take ((p1 - m) - e1) = (b.drop e2).take ((p2 - m) - e2) →
        Covers a b e1 e2 (patchWalk m a (some ((p1, p2), acc)) c1 c2 rest)) := by
  intro rest
  induction rest with
  | nil =>
      constructor
      · intro c1 c2 e1 e2 hN1 hN2 hc1 hc2 he1 he2 hoff hcom
        show Covers a b e1 e2 []
        have h1 : a.drop e1 = (a.drop e1).take (c1 - e1) ++ a.drop c1 := by
          conv_lhs => rw [← List.take_append_drop (c1 - e1) (a.drop e1)]
          rw [List.drop_drop, show e1 + (c1 - e1) = c1 from by omega]
        have h2 : b.drop e2 = (b.drop e2).take (c2 - e2) ++ b.drop c2 := by
          conv_lhs => rw [← List.take_append_drop (c2 - e2) (b.drop e2)]
          rw [List.drop_drop, show e2 + (c2 - e2) = c2 from by omega]
        refine Covers.nil e1 e2 (by omega) (by omega) ?_
        rw [h1, h2, hN1, hN2, hcom]
        simp [diff_text1, diff_text2]
      · intro p1 p2 acc c1 c2 e1 e2 hO1 hO2 hO3 hO4 hO5 hO5b hpa hpb hO6
          he1 he2 hoff hcom
        show Covers a b e1 e2 [closePatch m a p1 p2 c1 acc]
        have hca : c1 ≤ a.length := by
          have := congrArg List.length hO3
          rw [List.length_drop, List.length_append] at this
          omega
        have hcb : c2 ≤ b.length := by
          have := congrArg List.length hO4
          rw [List.length_drop, List.length_append] at this
          omega
        have hsufnil : sufCtx m a c1 = [] := by
          unfold sufCtx
          rw [hO1]
          simp [diff_text1]
        apply closePatch_covers m a b p1 p2 c1 c2 e1 e2 acc []
          hO3 hO4 hO5 hO5b hpa hpb hO6 he1 he2 hoff hcom
        · rw [hsufnil]
          exact List.nil_prefix
        · rw [hsufnil]
          exact List.nil_prefix
        · rw [hsufnil]
          simp only [List.length_nil, Nat.add_zero]
          refine Covers.nil c1 c2 hca hcb ?_
          rw [hO1, hO2]
          simp [diff_text1, diff_text2]
  | cons x rest ih =>
      obtain ⟨ihN, ihS⟩ := ih
      have hsplit1 : diff_text1 (x :: rest) = diff_text1 [x] ++ diff_text1 rest :=
        diff_text1_append [x] rest
      have hsplit2 : diff_text2 (x :: rest) = diff_text2 [x] ++ diff_text2 rest :=
        diff_text2_append [x] rest
      constructor
      · intro c1 c2 e1 e2 hN1 hN2 hc1 hc2 he1 he2 hoff hcom
        by_cases hx : x.op = Op.equal
        · rw [show patchWalk m a none c1 c2 (x :: rest) =
              patchWalk m a none (c1 + x.text.length) (c2 + x.text.length) rest from by
            simp [patchWalk, hx]]
          have hx1 : diff_text1 [x] = x.text := by
            rw [diff_text1_single, if_neg (by simp [hx])]
          have hx2 : diff_text2 [x] = x.text := by
            rw [diff_text2_single, if_neg (by simp [hx])]
          have hN1x : a.drop c1 = x.text ++ diff_text1 rest := by
            rw [hN1, hsplit1, hx1]
          have hN2x : b.drop c2 = x.text ++ diff_text2 rest := by
            rw [hN2, hsplit2, hx2]
          have hla : x.text.length + c1 ≤ a.length := by
            have := congrArg List.length hN1x
            rw [List.length_drop, List.length_append] at this
            omega
          have hlb : x.text.length + c2 ≤ b.length := by
            have := congrArg List.length hN2x
            rw [List.length_drop, List.length_append] at this
            omega
          have hsega : (a.drop e1).take (c1 + x.text.length - e1) =
              (a.drop e1).take (c1 - e1) ++ x.text := by
            rw [show c1 + x.text.length - e1 = (c1 - e1) + x.text.length from by omega,
              List.take_add]
            congr 1
            rw [List.drop_drop, show e1 + (c1 - e1) = c1 from by omega, hN1x,
              List.take_left]
          have hsegb : (b.drop e2).take (c2 + x.text.length - e2) =
              (b.drop e2).take (c2 - e2) ++ x.text := by
            rw [show c2 + x.text.length - e2 = (c2 - e2) + x.text.length from by omega,
              List.take_add]
            congr 1
            rw [List.drop_drop, show e2 + (c2 - e2) = c2 from by omega, hN2x,
              List.take_left]
          apply ihN (c1 + x.text.length) (c2 + x.text.length) e1 e2
          · rw [← List.drop_drop, hN1x, List.drop_left]
          · rw [← List.drop_drop, hN2x, List.drop_left]
          · omega
          · omega
          · omega
          · omega
          · omega
          · rw [hsega, hsegb, hcom]
        · rw [show patchWalk m a none c1 c2 (x :: rest) =
              patchWalk m a (some ((c1, c2), [x]))
                (c1 + dLen1 x) (c2 + dLen2 x) rest from by
            simp [patchWalk, hx]]
          have hO6' : (a.take c1).drop (c1 - m) = (b.take c2).drop (c2 - m) :=
            ctx_common a b m e1 e2 c1 c2 he1 he2 hoff hcom hc1 hc2
          have hoff' : (c1 - m) - e1 = (c2 - m) - e2 := by omega
          have hcom' : (a.drop e1).take ((c1 - m) - e1) =
              (b.drop e2).take ((c2 - m) - e2) := by
            have hXY := congrArg (List.take ((c1 - m) - e1)) hcom
            rw [List.take_take, List.take_take,
              show ((c1 - m) - e1) ⊓ (c1 - e1) = (c1 - m) - e1 from by omega,
              show ((c1 - m) - e1) ⊓ (c2 - e2) = (c1 - m) - e1 from by omega] at hXY
            rw [show (c2 - m) - e2 = (c1 - m) - e1 from by omega]
            exact hXY
          apply ihS c1 c2 [x] (c1 + dLen1 x) (c2 + dLen2 x) e1 e2
          · rw [← List.drop_drop, hN1, hsplit1, ← diff_text1_single_len x,
              List.drop_left]
          · rw [← List.drop_drop, hN2, hsplit2, ← diff_text2_single_len x,
              List.drop_left]
          · rw [hN1, hsplit1]
          · rw [hN2, hsplit2]
          · rw [diff_text1_single_len]
          · rw [diff_text2_single_len]
          · exact hc1
          · exact hc2
          · exact hO6'
          · exact he1
          · exact he2
          · exact hoff'
          · exact hcom'
      · intro p1 p2 acc c1 c2 e1 e2 hO1 hO2 hO3 hO4 hO5 hO5b hpa hpb hO6
          he1 he2 hoff hcom
        have hca : c1 ≤ a.length := by
          have := congrArg List.length hO3
          rw [List.length_drop, List.length_append] at this
          omega
        have hcb : c2 ≤ b.length := by
          have := congrArg List.length hO4
          rw [List.length_drop, List.length_append] at this
          omega
        by_cases hx : x.op = Op.equal
        · have hx1 : diff_text1 [x] = x.text := by
            rw [diff_text1_single, if_neg (by simp [hx])]
          have hx2 : diff_text2 [x] = x.text := by
            rw [diff_text2_single, if_neg (by simp [hx])]
          have hN1x : a.drop c1 = x.text ++ diff_text1 rest := by
            rw [hO1, hsplit1, hx1]
          have hN2x : b.drop c2 = x.text ++ diff_text2 rest := by
            rw [hO2, hsplit2, hx2]
          by_cases hr : rest = []
          · rw [show patchWalk m a (some ((p1, p2), acc)) c1 c2 (x :: rest) =
                [closePatch m a p1 p2 c1 acc] from by
              simp [patchWalk, hx, hr]]
            subst hr
            have hN1t : a.drop c1 = x.text := by
              simpa [diff_text1] using hN1x
            have hN2t : b.drop c2 = x.text := by
              simpa [diff_text2] using hN2x
            have hsuf : sufCtx m a c1 = x.text.take m := by
              unfold sufCtx
              rw [hN1t]
            apply closePatch_covers m a b p1 p2 c1 c2 e1 e2 acc [x]
              hO3 hO4 hO5 hO5b hpa hpb hO6 he1 he2 hoff hcom
            · rw [hsuf, hsplit1, hx1]
              simp [diff_text1]
              exact List.take_prefix m x.text
            · rw [hsuf, hsplit2, hx2]
              simp [diff_text2]
              exact List.take_prefix m x.text
            · have hlsuf : (sufCtx m a c1).length = m ⊓ x.text.length := by
                rw [hsuf, List.length_take]
              refine Covers.nil _ _ ?_ ?_ ?_
              · have := congrArg List.length hN1t
                rw [List.length_drop] at this
                omega
              · have := congrArg List.length hN2t
                rw [List.length_drop] at this
                omega
              · rw [← List.drop_drop, ← List.drop_drop, hN1t, hN2t]
          · by_cases hlen : x.text.length ≤ 2 * m
            · rw [show patchWalk m a (some ((p1, p2), acc)) c1 c2 (x :: rest) =
                  patchWalk m a (some ((p1, p2), acc ++ [x]))
                    (c1 + x.text.length) (c2 + x.text.length) rest from by
                simp [patchWalk, hx, hr, hlen]]
              apply ihS p1 p2 (acc ++ [x]) (c1 + x.text.length)
                (c2 + x.text.length) e1 e2
              · rw [← List.drop_drop, hN1x, List.drop_left]
              · rw [← List.drop_drop, hN2x, List.drop_left]
              · rw [hO3, hsplit1, diff_text1_append, ← List.append_assoc]
              · rw [hO4, hsplit2, diff_text2_append, ← List.append_assoc]
              · rw [diff_text1_append, List.length_append, hx1]
                omega
              · rw [diff_text2_append, List.length_append, hx2]
                omega
              · exact hpa
              · exact hpb
              · exact hO6
              · exact he1
              · exact he2
              · exact hoff
              · exact hcom
            · rw [show patchWalk m a (some ((p1, p2), acc)) c1 c2 (x :: rest) =
                  closePatch m a p1 p2 c1 acc ::
                    patchWalk m a none (c1 + x.text.length)
                      (c2 + x.text.length) rest from by
                simp [patchWalk, hx, hr, hlen]]
              have hmx : m ≤ x.text.length := by omega
              have hsuf : sufCtx m a c1 = x.text.take m := by
                unfold sufCtx
                rw [hN1x, List.take_append_of_le_length hmx]
              have hlsuf : (sufCtx m a c1).length = m := by
                rw [hsuf, List.length_take]
                omega
              have hla : x.text.length + c1 ≤ a.length := by
                have := congrArg List.length hN1x
                rw [List.length_drop, List.length_append] at this
                omega
              have hlb : x.text.length + c2 ≤ b.length := by
                have := congrArg List.length hN2x
                rw [List.length_drop, List.length_append] at this
                omega
              apply closePatch_covers m a b p1 p2 c1 c2 e1 e2 acc (x :: rest)
                hO3 hO4 hO5 hO5b hpa hpb hO6 he1 he2 hoff hcom
              · rw [hsuf, hsplit1, hx1]
                exact (List.take_prefix m x.text).trans (List.prefix_append _ _)
              · rw [hsuf, hsplit2, hx2]
                exact (List.take_prefix m x.text).trans (List.prefix_append _ _)
              · rw [hlsuf]
                apply ihN (c1 + x.text.length) (c2 + x.text.length)
                  (c1 + m) (c2 + m)
                · rw [← List.drop_drop, hN1x, List.drop_left]
                · rw [← List.drop_drop, hN2x, List.drop_left]
                · omega
                · omega
                · omega
                · omega
                · omega
                · have hda : a.drop (c1 + m) = x.text.drop m ++ diff_text1 rest := by
                    rw [← List.drop_drop, hN1x, List.drop_append_of_le_length hmx]
                  have hdb : b.drop (c2 + m) = x.text.drop m ++ diff_text2 rest := by
                    rw [← List.drop_drop, hN2x, List.drop_append_of_le_length hmx]
                  rw [hda, hdb,
                    show c1 + x.text.length - (c1 + m) = (x.text.drop m).length from by
                      rw [List.length_drop]; omega,
                    show c2 + x.text.length - (c2 + m) = (x.text.drop m).length from by
                      rw [List.length_drop]; omega,
                    List.take_left, List.take_left]
        · rw [show patchWalk m a (some ((p1, p2), acc)) c1 c2 (x :: rest) =
              patchWalk m a (some ((p1, p2), acc ++ [x]))
                (c1 + dLen1 x) (c2 + dLen2 x) rest from by
            simp [patchWalk, hx]]
          apply ihS p1 p2 (acc ++ [x]) (c1 + dLen1 x) (c2 + dLen2 x) e1 e2
          · rw [← List.drop_drop, hO1, hsplit1, ← diff_text1_single_len x,
              List.drop_left]
          · rw [← List.drop_drop, hO2, hsplit2, ← diff_text2_single_len x,
              List.drop_left]
          · rw [hO3, hsplit1, diff_text1_append, ← List.append_assoc]
          · rw [hO4, hsplit2, diff_text2_append, ← List.append_assoc]
          · rw [diff_text1_append, List.length_append, diff_text1_single_len]
            omega
          · rw [diff_text2_append, List.length_append, diff_text2_single_len]
            omega
          · exact hpa
          · exact hpb
          · exact hO6
          · exact he1
          · exact he2
          · exact hoff
          · exact hcom

lemma drop_pad (pad l : Str) (m c : Nat) (hpl : pad.length = m)
    (hc : c ≤ l.length) :
    ((pad ++ l) ++ pad).drop (c + m) = l.drop c ++ pad := by
  rw [List.drop_append_of_le_length
      (by simp only [List.length_append, hpl]; omega),
    List.drop_append_eq_append_drop,
    List.drop_eq_nil_of_le (by omega : pad.length ≤ c + m)]
  simp [hpl]

lemma take_pad (pad l : Str) (m c : Nat) (hpl : pad.length = m)
    (hc : c ≤ l.length) :
    ((pad ++ l) ++ pad).take (c + m) = pad ++ l.take c := by
  rw [List.take_append_of_le_length
      (by simp only [List.length_append, hpl]; omega),
    show c + m = pad.length + c from by omega,
    List.take_add, List.take_left, List.drop_left]

/-- Covering is preserved by padding both texts and shifting the offsets
past the leading pad. -/
lemma Covers_shift (m : Nat) (pad : Str) (hpl : pad.length = m) (a b : Str) :
    ∀ (ps : List Patch) (c1 c2 : Nat), Covers a b c1 c2 ps →
      Covers ((pad ++ a) ++ pad) ((pad ++ b) ++ pad) (c1 + m) (c2 + m)
        (ps.map (shiftPatch m)) := by
  intro ps c1 c2 h
  induction h with
  | nil c1 c2 ha hb heq =>
      refine Covers.nil _ _ ?_ ?_ ?_
      · simp only [List.length_append, hpl]
        omega
      · simp only [List.length_append, hpl]
        omega
      · rw [drop_pad pad a m c1 hpl ha, drop_pad pad b m c2 hpl hb, heq]
  | cons c1 c2 g p ps hs1 hs2 hb1 hb2 hgap ht1 ht2 _ ih =>
      refine Covers.cons (c1 + m) (c2 + m) g (shiftPatch m p)
        (ps.map (shiftPatch m)) ?_ ?_ ?_ ?_ ?_ ?_ ?_ ?_
      · show p.start1 + m = c1 + m + g
        omega
      · show p.start2 + m = c2 + m + g
        omega
      · simp only [List.length_append, hpl]
        omega
      · simp only [List.length_append, hpl]
        omega
      · rw [drop_pad pad a m c1 hpl (by omega), drop_pad pad b m c2 hpl (by omega),
          List.take_append_of_le_length (by rw [List.length_drop]; omega),
          List.take_append_of_le_length (by rw [List.length_drop]; omega), hgap]
      · show diff_text1 p.diffs <+: _
        rw [show c1 + m + g = (c1 + g) + m from by omega,
          drop_pad pad a m (c1 + g) hpl hb1]
        exact ht1.trans (List.prefix_append _ _)
      · show diff_text2 p.diffs <+: _
        rw [show c2 + m + g = (c2 + g) + m from by omega,
          drop_pad pad b m (c2 + g) hpl hb2]
        exact ht2.trans (List.prefix_append _ _)
      · rw [show (diff_text1 (shiftPatch m p).diffs).length =
            (diff_text1 p.diffs).length from rfl,
          show (diff_text2 (shiftPatch m p).diffs).length =
            (diff_text2 p.diffs).length from rfl,
          show c1 + m + g + (diff_text1 p.diffs).length =
            c1 + g + (diff_text1 p.diffs).length + m from by omega,
          show c2 + m + g + (diff_text2 p.diffs).length =
            c2 + g + (diff_text2 p.diffs).length + m from by omega]
        exact ih

/-- A covering patch set can be re-anchored at an earlier aligned pair of
offsets whose gap up to the old anchor is common. -/
lemma Covers_anchor (a b : Str) (c1 c2 c1' c2' : Nat) (ps : List Patch)
    (h : Covers a b c1' c2' ps)
    (h1 : c1 ≤ c1') (h2 : c2 ≤ c2')
    (hoff : c1' - c1 = c2' - c2)
    (hcom : (a.drop c1).take (c1' - c1) = (b.drop c2).take (c2' - c2)) :
    Covers a b c1 c2 ps := by
  cases h with
  | nil _ _ ha hb heq =>
      refine Covers.nil c1 c2 (by omega) (by omega) ?_
      have hA : a.drop c1 = (a.drop c1).take (c1' - c1) ++ a.drop c1' := by
        conv_lhs => rw [← List.take_append_drop (c1' - c1) (a.drop c1)]
        rw [List.drop_drop, show c1 + (c1' - c1) = c1' from by omega]
      have hB : b.drop c2 = (b.drop c2).take (c2' - c2) ++ b.drop c2' := by
        conv_lhs => rw [← List.take_append_drop (c2' - c2) (b.drop c2)]
        rw [List.drop_drop, show c2 + (c2' - c2) = c2' from by omega]
      rw [hA, hB, hcom, heq]
  | cons _ _ g p ps hs1 hs2 hb1 hb2 hgap ht1 ht2 htail =>
      refine Covers.cons c1 c2 ((c1' - c1) + g) p ps (by omega) (by omega)
        (by omega) (by omega) ?_ ?_ ?_ ?_
      · rw [List.take_add, List.take_add]
        rw [List.drop_drop, List.drop_drop,
          show c1 + (c1' - c1) = c1' from by omega,
          show c2 + (c1' - c1) = c2' from by omega]
        have hcom2 : (a.drop c1).take (c1' - c1) = (b.drop c2).take (c1' - c1) := by
          rw [hcom]
          congr 1
          omega
        rw [hcom2, hgap]
      · rw [show c1 + ((c1' - c1) + g) = c1' + g from by omega]
        exact ht1
      · rw [show c2 + ((c1' - c1) + g) = c2' + g from by omega]
        exact ht2
      · rw [show c1 + ((c1' - c1) + g) + (diff_text1 p.diffs).length =
            c1' + g + (diff_text1 p.diffs).length from by omega,
          show c2 + ((c1' - c1) + g) + (diff_text2 p.diffs).length =
            c2' + g + (diff_text2 p.diffs).length from by omega]
        exact htail

/-- The equal run `padBackDiffs` appends after the last diff. -/
def padExt (m : Nat) (pad : Str) : List Diff → Str
  | [] => pad
  | [x] =>
      if x.op = Op.equal then
        (if m ≤ x.text.length then [] else pad.take (m - x.text.length))
      else pad
  | _ :: y :: rest => padExt m pad (y :: rest)

lemma padBackDiffs_text1 (m : Nat) (pad : Str) :
    ∀ d, diff_text1 (padBackDiffs m pad d) = diff_text1 d ++ padExt m pad d := by
  intro d
  induction d with
  | nil => simp [padBackDiffs, padExt, diff_text1]
  | cons x d ih =>
      cases d with
      | nil =>
          by_cases hx : x.op = Op.equal
          · by_cases hm : m ≤ x.text.length
            · simp [padBackDiffs, padExt, hx, hm]
            · simp [padBackDiffs, padExt, hx, hm, diff_text1]
          · simp [padBackDiffs, padExt, hx, diff_text1]
      | cons y d' =>
          simp only [padBackDiffs, padExt, diff_text1, ih, List.append_assoc]

lemma padBackDiffs_text2 (m : Nat) (pad : Str) :
    ∀ d, diff_text2 (padBackDiffs m pad d) = diff_text2 d ++ padExt m pad d := by
  intro d
  induction d with
  | nil => simp [padBackDiffs, padExt, diff_text2]
  | cons x d ih =>
      cases d with
      | nil =>
          by_cases hx : x.op = Op.equal
          · by_cases hm : m ≤ x.text.length
            · simp [padBackDiffs, padExt, hx, hm]
            · simp [padBackDiffs, padExt, hx, hm, diff_text2]
          · simp [padBackDiffs, padExt, hx, diff_text2]
      | cons y d' =>
          simp only [padBackDiffs, padExt, diff_text2, ih, List.append_assoc]

lemma padExt_prefix_pad (m : Nat) (pad : Str) : ∀ d, padExt m pad d <+: pad := by
  intro d
  induction d with
  | nil => exact List.prefix_rfl
  | cons x d ih =>
      cases d with
      | nil =>
          by_cases hx : x.op = Op.equal
          · by_cases hm : m ≤ x.text.length
            · simp only [padExt, hx, if_pos rfl, if_pos hm]
              exact List.nil_prefix
            · simp only [padExt, hx, if_pos rfl, if_neg hm]
              exact List.take_prefix _ _
          · simp only [padExt, if_neg hx]
            exact List.prefix_rfl
      | cons y d' =>
          simpa only [padExt] using ih

lemma padExt_append_equal (m : Nat) (pad : Str) (s : Str) :
    ∀ d, padExt m pad (d ++ [⟨Op.equal, s⟩]) =
      if m ≤ s.length then [] else pad.take (m - s.length) := by
  intro d
  induction d with
  | nil => simp [padExt]
  | cons x d ih =>
      cases d with
      | nil => simp [padExt]
      | cons y d' =>
          simpa only [List.cons_append, padExt] using ih

/-- Extending the first patch's context into the leading padding preserves
covering, provided the patch either already carries enough context or sits
flush at the padded origin. -/
lemma Covers_padFront (m : Nat) (pad : Str) (hpl : pad.length = m)
    (A B : Str) (hAp : A.take m = pad) (hBp : B.take m = pad)
    (p : Patch) (ps : List Patch)
    (h : Covers A B 0 0 (p :: ps))
    (hHF : (∃ e t, p.diffs = ⟨Op.equal, e⟩ :: t ∧ m ≤ e.length) ∨
      (p.start1 = m ∧ p.start2 = m)) :
    Covers A B 0 0 (padFront m pad p :: ps) := by
  have hmA : m ≤ A.length := by
    have := congrArg List.length hAp
    rw [List.length_take, hpl] at this
    omega
  have hmB : m ≤ B.length := by
    have := congrArg List.length hBp
    rw [List.length_take, hpl] at this
    omega
  have hAdecomp : ∀ k, k ≤ m → A.drop k = pad.drop k ++ A.drop m := by
    intro k hk
    conv_lhs => rw [← List.take_append_drop m A]
    rw [List.drop_append_of_le_length (by rw [List.length_take]; omega), hAp]
  have hBdecomp : ∀ k, k ≤ m → B.drop k = pad.drop k ++ B.drop m := by
    intro k hk
    conv_lhs => rw [← List.take_append_drop m B]
    rw [List.drop_append_of_le_length (by rw [List.length_take]; omega), hBp]
  obtain ⟨pdiffs, ps1, ps2, pl1, pl2⟩ := p
  cases h with
  | cons _ _ g _ _ hs1 hs2 hb1 hb2 hgap ht1 ht2 htail =>
  simp only at hs1 hs2 ht1 ht2 hHF
  rcases hd : pdiffs with _ | ⟨⟨op, e⟩, t⟩
  all_goals subst hd
  · have hHF2 : ps1 = m ∧ ps2 = m := by
      rcases hHF with ⟨e, t, heq, -⟩ | h2
      · exact absurd heq (by simp)
      · exact h2
    have hg : g = m := by omega
    rw [hg] at hs1 hs2 hgap hb1 hb2 ht1 ht2 htail
    show Covers A B 0 0
      ({ diffs := [⟨Op.equal, pad⟩], start1 := ps1 - m, start2 := ps2 - m,
         length1 := (diff_text1 [⟨Op.equal, pad⟩]).length,
         length2 := (diff_text2 [⟨Op.equal, pad⟩]).length } :: ps)
    refine Covers.cons 0 0 0 _ ps ?_ ?_ (by omega) (by omega) ?_ ?_ ?_ ?_
    · show ps1 - m = 0 + 0
      omega
    · show ps2 - m = 0 + 0
      omega
    · simp
    · show diff_text1 [⟨Op.equal, pad⟩] <+: A.drop (0 + 0)
      have : A.drop (0 + 0) = pad ++ A.drop m := by
        simpa using hAdecomp 0 (by omega)
      rw [this]
      simp only [diff_text1_single, if_neg (by decide : ¬ (Op.equal = Op.insert))]
      exact List.prefix_append _ _
    · show diff_text2 [⟨Op.equal, pad⟩] <+: B.drop (0 + 0)
      have : B.drop (0 + 0) = pad ++ B.drop m := by
        simpa using hBdecomp 0 (by omega)
      rw [this]
      simp only [diff_text2_single, if_neg (by decide : ¬ (Op.equal = Op.delete))]
      exact List.prefix_append _ _
    · have e1 : 0 + 0 + (diff_text1 [⟨Op.equal, pad⟩]).length = 0 + m +
          (diff_text1 ([] : List Diff)).length := by
        simp [diff_text1_single, diff_text1, hpl]
      have e2 : 0 + 0 + (diff_text2 [⟨Op.equal, pad⟩]).length = 0 + m +
          (diff_text2 ([] : List Diff)).length := by
        simp [diff_text2_single, diff_text2, hpl]
      rw [e1, e2]
      exact htail
  · cases op with
    | equal =>
        by_cases hm : m ≤ e.length
        · rw [show padFront m pad
              ⟨⟨Op.equal, e⟩ :: t, ps1, ps2, pl1, pl2⟩ =
              ⟨⟨Op.equal, e⟩ :: t, ps1, ps2, pl1, pl2⟩ from by
            simp [padFront, hm]]
          exact Covers.cons 0 0 g _ ps hs1 hs2 hb1 hb2 hgap ht1 ht2 htail
        · have hHF2 : ps1 = m ∧ ps2 = m := by
            rcases hHF with ⟨e', t', heq, hlen⟩ | h2
            · simp only [List.cons.injEq, Diff.mk.injEq] at heq
              obtain ⟨⟨-, he⟩, -⟩ := heq
              exact absurd (he ▸ hlen) hm
            · exact h2
          have hg : g = m := by omega
          rw [hg] at hs1 hs2 hgap hb1 hb2 ht1 ht2 htail
          have helem : e.length ≤ m := by omega
          rw [show padFront m pad ⟨⟨Op.equal, e⟩ :: t, ps1, ps2, pl1, pl2⟩ =
              { diffs := ⟨Op.equal, pad.drop e.length ++ e⟩ :: t,
                start1 := ps1 - (m - e.length), start2 := ps2 - (m - e.length),
                length1 := (diff_text1 (⟨Op.equal, pad.drop e.length ++ e⟩ :: t)).length,
                length2 := (diff_text2 (⟨Op.equal, pad.drop e.length ++ e⟩ :: t)).length }
              from by simp [padFront, hm]]
          refine Covers.cons 0 0 e.length _ ps ?_ ?_ (by omega) (by omega) ?_ ?_ ?_ ?_
          · show ps1 - (m - e.length) = 0 + e.length
            omega
          · show ps2 - (m - e.length) = 0 + e.length
            omega
          · show (A.drop 0).take e.length = (B.drop 0).take e.length
            rw [List.drop_zero, List.drop_zero]
            have hA' : A.take e.length = pad.take e.length := by
              conv_rhs => rw [← hAp]
              rw [List.take_take, show e.length ⊓ m = e.length from by omega]
            have hB' : B.take e.length = pad.take e.length := by
              conv_rhs => rw [← hBp]
              rw [List.take_take, show e.length ⊓ m = e.length from by omega]
            rw [hA', hB']
          · show diff_text1 (⟨Op.equal, pad.drop e.length ++ e⟩ :: t) <+:
              A.drop (0 + e.length)
            have hA : A.drop (0 + e.length) = pad.drop e.length ++ A.drop m := by
              simpa using hAdecomp e.length helem
            rw [hA]
            have ht1' : e ++ diff_text1 t <+: A.drop m := by
              have : diff_text1 (⟨Op.equal, e⟩ :: t) = e ++ diff_text1 t := by
                simp [diff_text1]
              rw [← this]
              simpa using ht1
            have : diff_text1 (⟨Op.equal, pad.drop e.length ++ e⟩ :: t) =
                pad.drop e.length ++ (e ++ diff_text1 t) := by
              simp [diff_text1]
            rw [this]
            exact prefix_append_left _ ht1'
          · show diff_text2 (⟨Op.equal, pad.drop e.length ++ e⟩ :: t) <+:
              B.drop (0 + e.length)
            have hB : B.drop (0 + e.length) = pad.drop e.length ++ B.drop m := by
              simpa using hBdecomp e.length helem
            rw [hB]
            have ht2' : e ++ diff_text2 t <+: B.drop m := by
              have : diff_text2 (⟨Op.equal, e⟩ :: t) = e ++ diff_text2 t := by
                simp [diff_text2]
              rw [← this]
              simpa using ht2
            have : diff_text2 (⟨Op.equal, pad.drop e.length ++ e⟩ :: t) =
                pad.drop e.length ++ (e ++ diff_text2 t) := by
              simp [diff_text2]
            rw [this]
            exact prefix_append_left _ ht2'
          · have e1 : 0 + e.length +
                (diff_text1 (⟨Op.equal, pad.drop e.length ++ e⟩ :: t)).length =
                0 + m + (diff_text1 (⟨Op.equal, e⟩ :: t)).length := by
              simp [diff_text1, List.length_drop, hpl]
              omega
            have e2 : 0 + e.length +
                (diff_text2 (⟨Op.equal, pad.drop e.length ++ e⟩ :: t)).length =
                0 + m + (diff_text2 (⟨Op.equal, e⟩ :: t)).length := by
              simp [diff_text2, List.length_drop, hpl]
              omega
            rw [e1, e2]
            exact htail
    | delete =>
        have hHF2 : ps1 = m ∧ ps2 = m := by
          rcases hHF with ⟨e', t', heq, -⟩ | h2
          · simp only [List.cons.injEq, Diff.mk.injEq] at heq
            obtain ⟨⟨hop, -⟩, -⟩ := heq
            exact absurd hop (by decide)
          · exact h2
        have hg : g = m := by omega
        rw [hg] at hs1 hs2 hgap hb1 hb2 ht1 ht2 htail
        show Covers A B 0 0
          ({ diffs := ⟨Op.equal, pad⟩ :: ⟨Op.delete, e⟩ :: t,
             start1 := ps1 - m, start2 := ps2 - m,
             length1 := (diff_text1 (⟨Op.equal, pad⟩ :: ⟨Op.delete, e⟩ :: t)).length,
             length2 := (diff_text2 (⟨Op.equal, pad⟩ :: ⟨Op.delete, e⟩ :: t)).length }
            :: ps)
        refine Covers.cons 0 0 0 _ ps ?_ ?_ (by omega) (by omega) ?_ ?_ ?_ ?_
        · show ps1 - m = 0 + 0
          omega
        · show ps2 - m = 0 + 0
          omega
        · simp
        · show diff_text1 (⟨Op.equal, pad⟩ :: ⟨Op.delete, e⟩ :: t) <+: A.drop (0 + 0)
          have hA : A.drop (0 + 0) = pad ++ A.drop m := by
            simpa using hAdecomp 0 (by omega)
          rw [hA, show diff_text1 (⟨Op.equal, pad⟩ :: ⟨Op.delete, e⟩ :: t) =
            pad ++ diff_text1 (⟨Op.delete, e⟩ :: t) from by simp [diff_text1]]
          exact prefix_append_left _ (by simpa using ht1)
        · show diff_text2 (⟨Op.equal, pad⟩ :: ⟨Op.delete, e⟩ :: t) <+: B.drop (0 + 0)
          have hB : B.drop (0 + 0) = pad ++ B.drop m := by
            simpa using hBdecomp 0 (by omega)
          rw [hB, show diff_text2 (⟨Op.equal, pad⟩ :: ⟨Op.delete, e⟩ :: t) =
            pad ++ diff_text2 (⟨Op.delete, e⟩ :: t) from by simp [diff_text2]]
          exact prefix_append_left _ (by simpa using ht2)
        · have e1 : 0 + 0 + (diff_text1 (⟨Op.equal, pad⟩ :: ⟨Op.delete, e⟩ :: t)).length =
              0 + m + (diff_text1 (⟨Op.delete, e⟩ :: t)).length := by
            simp [diff_text1, hpl]
          have e2 : 0 + 0 + (diff_text2 (⟨Op.equal, pad⟩ :: ⟨Op.delete, e⟩ :: t)).length =
              0 + m + (diff_text2 (⟨Op.delete, e⟩ :: t)).length := by
            simp [diff_text2, hpl]
          rw [e1, e2]
          exact htail
    | insert =>
        have hHF2 : ps1 = m ∧ ps2 = m := by
          rcases hHF with ⟨e', t', heq, -⟩ | h2
          · simp only [List.cons.injEq, Diff.mk.injEq] at heq
            obtain ⟨⟨hop, -⟩, -⟩ := heq
            exact absurd hop (by decide)
          · exact h2
        have hg : g = m := by omega
        rw [hg] at hs1 hs2 hgap hb1 hb2 ht1 ht2 htail
        show Covers A B 0 0
          ({ diffs := ⟨Op.equal, pad⟩ :: ⟨Op.insert, e⟩ :: t,
             start1 := ps1 - m, start2 := ps2 - m,
             length1 := (diff_text1 (⟨Op.equal, pad⟩ :: ⟨Op.insert, e⟩ :: t)).length,
             length2 := (diff_text2 (⟨Op.equal, pad⟩ :: ⟨Op.insert, e⟩ :: t)).length }
            :: ps)
        refine Covers.cons 0 0 0 _ ps ?_ ?_ (by omega) (by omega) ?_ ?_ ?_ ?_
        · show ps1 - m = 0 + 0
          omega
        · show ps2 - m = 0 + 0
          omega
        · simp
        · show diff_text1 (⟨Op.equal, pad⟩ :: ⟨Op.insert, e⟩ :: t) <+: A.drop (0 + 0)
          have hA : A.drop (0 + 0) = pad ++ A.drop m := by
            simpa using hAdecomp 0 (by omega)
          rw [hA, show diff_text1 (⟨Op.equal, pad⟩ :: ⟨Op.insert, e⟩ :: t) =
            pad ++ diff_text1 (⟨Op.insert, e⟩ :: t) from by simp [diff_text1]]
          exact prefix_append_left _ (by simpa using ht1)
        · show diff_text2 (⟨Op.equal, pad⟩ :: ⟨Op.insert, e⟩ :: t) <+: B.drop (0 + 0)
          have hB : B.drop (0 + 0) = pad ++ B.drop m := by
            simpa using hBdecomp 0 (by omega)
          rw [hB, show diff_text2 (⟨Op.equal, pad⟩ :: ⟨Op.insert, e⟩ :: t) =
            pad ++ diff_text2 (⟨Op.insert, e⟩ :: t) from by simp [diff_text2]]
          exact prefix_append_left _ (by simpa using ht2)
        · have e1 : 0 + 0 + (diff_text1 (⟨Op.equal, pad⟩ :: ⟨Op.insert, e⟩ :: t)).length =
              0 + m + (diff_text1 (⟨Op.insert, e⟩ :: t)).length := by
            simp [diff_text1, hpl]
          have e2 : 0 + 0 + (diff_text2 (⟨Op.equal, pad⟩ :: ⟨Op.insert, e⟩ :: t)).length =
              0 + m + (diff_text2 (⟨Op.insert, e⟩ :: t)).length := by
            simp [diff_text2, hpl]
          rw [e1, e2]
          exact htail

/-- The last element of a list, if any. -/
def lastP : List Patch → Option Patch
  | [] => none
  | [p] => some p
  | _ :: q :: r => lastP (q :: r)

/-- Extending the last patch's context into the trailing padding preserves
covering, provided the last patch either gets no extension or its window
ends flush at the trailing padding. -/
lemma Covers_padBack (m : Nat) (pad : Str) (hpl : pad.length = m)
    (A B : Str) (hAs : A.drop (A.length - m) = pad)
    (hBs : B.drop (B.length - m) = pad)
    (hmA : m ≤ A.length) (hmB : m ≤ B.length) :
    ∀ (ps : List Patch) (c1 c2 : Nat), Covers A B c1 c2 ps →
      (∀ p, lastP ps = some p →
        padExt m pad p.diffs = [] ∨
          (p.start1 + (diff_text1 p.diffs).length = A.length - m ∧
            p.start2 + (diff_text2 p.diffs).length = B.length - m)) →
      Covers A B c1 c2 (mapLast (padBack m pad) ps) := by
  intro ps
  induction ps with
  | nil =>
      intro c1 c2 h _
      exact h
  | cons p ps ih =>
      intro c1 c2 h hlast
      cases ps with
      | nil =>
          cases h with
          | cons _ _ g _ _ hs1 hs2 hb1 hb2 hgap ht1 ht2 htail =>
          have hHL := hlast p rfl
          show Covers A B c1 c2 [padBack m pad p]
          have hpd1 : diff_text1 (padBack m pad p).diffs =
              diff_text1 p.diffs ++ padExt m pad p.diffs :=
            padBackDiffs_text1 m pad p.diffs
          have hpd2 : diff_text2 (padBack m pad p).diffs =
              diff_text2 p.diffs ++ padExt m pad p.diffs :=
            padBackDiffs_text2 m pad p.diffs
          have hextlen : (padExt m pad p.diffs).length ≤ m := by
            have := (padExt_prefix_pad m pad p.diffs).length_le
            omega
          obtain ⟨z1, hz1⟩ := ht1
          have hz1' : z1 = A.drop (c1 + g + (diff_text1 p.diffs).length) := by
            have := congrArg (List.drop (diff_text1 p.diffs).length) hz1.symm
            rw [List.drop_left, List.drop_drop] at this
            rw [this]
          obtain ⟨z2, hz2⟩ := ht2
          have hz2' : z2 = B.drop (c2 + g + (diff_text2 p.diffs).length) := by
            have := congrArg (List.drop (diff_text2 p.diffs).length) hz2.symm
            rw [List.drop_left, List.drop_drop] at this
            rw [this]
          cases htail with
          | nil _ _ hea heb heq =>
          have hext1 : padExt m pad p.diffs <+:
              A.drop (c1 + g + (diff_text1 p.diffs).length) := by
            rcases hHL with hext | ⟨hend1, -⟩
            · rw [hext]
              exact List.nil_prefix
            · rw [show c1 + g + (diff_text1 p.diffs).length = A.length - m from by
                omega, hAs]
              exact padExt_prefix_pad m pad p.diffs
          have hext2 : padExt m pad p.diffs <+:
              B.drop (c2 + g + (diff_text2 p.diffs).length) := by
            rcases hHL with hext | ⟨-, hend2⟩
            · rw [hext]
              exact List.nil_prefix
            · rw [show c2 + g + (diff_text2 p.diffs).length = B.length - m from by
                omega, hBs]
              exact padExt_prefix_pad m pad p.diffs
          refine Covers.cons c1 c2 g (padBack m pad p) []
            hs1 hs2 hb1 hb2 hgap ?_ ?_ ?_
          · rw [hpd1, ← hz1, hz1']
            exact prefix_append_left _ hext1
          · rw [hpd2, ← hz2, hz2']
            exact prefix_append_left _ hext2
          · rw [hpd1, hpd2, List.length_append, List.length_append]
            refine Covers.nil _ _ ?_ ?_ ?_
            · rcases hHL with hext | ⟨hend1, -⟩
              · rw [hext]
                simpa using hea
              · omega
            · rcases hHL with hext | ⟨-, hend2⟩
              · rw [hext]
                simpa using heb
              · omega
            · rcases hHL with hext | ⟨hend1, hend2⟩
              · rw [hext]
                simpa using heq
              · rw [show c1 + g + ((diff_text1 p.diffs).length +
                    (padExt m pad p.diffs).length) =
                    (A.length - m) + (padExt m pad p.diffs).length from by omega,
                  show c2 + g + ((diff_text2 p.diffs).length +
                    (padExt m pad p.diffs).length) =
                    (B.length - m) + (padExt m pad p.diffs).length from by omega,
                  ← List.drop_drop, ← List.drop_drop, hAs, hBs]
      | cons q ps' =>
          cases h with
          | cons _ _ g _ _ hs1 hs2 hb1 hb2 hgap ht1 ht2 htail =>
          show Covers A B c1 c2 (p :: mapLast (padBack m pad) (q :: ps'))
          refine Covers.cons c1 c2 g p _ hs1 hs2 hb1 hb2 hgap ht1 ht2 ?_
          exact ih _ _ htail (fun r hr => hlast r hr)

/-- An open walk always emits its open patch first. -/
lemma patchWalk_some_head (m : Nat) (a : Str) :
    ∀ (rest : List Diff) (p1 p2 : Nat) (acc : List Diff) (c1 c2 : Nat),
      ∃ c' acc' tail,
        patchWalk m a (some ((p1, p2), acc)) c1 c2 rest =
          closePatch m a p1 p2 c' acc' :: tail := by
  intro rest
  induction rest with
  | nil =>
      intro p1 p2 acc c1 c2
      exact ⟨c1, acc, [], rfl⟩
  | cons x rest ih =>
      intro p1 p2 acc c1 c2
      by_cases hx : x.op = Op.equal
      · by_cases hr : rest = []
        · exact ⟨c1, acc, [], by simp [patchWalk, hx, hr]⟩
        · by_cases hlen : x.text.length ≤ 2 * m
          · rw [show patchWalk m a (some ((p1, p2), acc)) c1 c2 (x :: rest) =
                patchWalk m a (some ((p1, p2), acc ++ [x]))
                  (c1 + x.text.length) (c2 + x.text.length) rest from by
              simp [patchWalk, hx, hr, hlen]]
            exact ih p1 p2 (acc ++ [x]) _ _
          · exact ⟨c1, acc,
              patchWalk m a none (c1 + x.text.length) (c2 + x.text.length) rest,
              by simp [patchWalk, hx, hr, hlen]⟩
      · rw [show patchWalk m a (some ((p1, p2), acc)) c1 c2 (x :: rest) =
            patchWalk m a (some ((p1, p2), acc ++ [x]))
              (c1 + dLen1 x) (c2 + dLen2 x) rest from by
          simp [patchWalk, hx]]
        exact ih p1 p2 (acc ++ [x]) _ _

lemma preCtx_len_le (m : Nat) (a : Str) (p1 : Nat) :
    (preCtx m a p1).length ≤ p1 := by
  unfold preCtx
  rw [List.length_drop, List.length_take]
  omega

/-- The first patch of a closed-state walk from aligned offsets starts with
a full margin of equal context or sits at the origin of both texts. -/
lemma patchWalk_headHF (m : Nat) (hm : 0 < m) (a : Str) :
    ∀ (rest : List Diff) (c : Nat),
      a.drop c = diff_text1 rest → c ≤ a.length →
      ∀ p, (patchWalk m a none c c rest).head? = some p →
        (∃ e t, p.diffs = ⟨Op.equal, e⟩ :: t ∧ m ≤ e.length) ∨
          (p.start1 = 0 ∧ p.start2 = 0) := by
  intro rest
  induction rest with
  | nil =>
      intro c _ _ p hp
      exact absurd hp (by simp [patchWalk])
  | cons x rest ih =>
      intro c hproj hc p hp
      have hsplit1 : diff_text1 (x :: rest) = diff_text1 [x] ++ diff_text1 rest :=
        diff_text1_append [x] rest
      by_cases hx : x.op = Op.equal
      · have hx1 : diff_text1 [x] = x.text := by
          rw [diff_text1_single, if_neg (by simp [hx])]
        have hN1x : a.drop c = x.text ++ diff_text1 rest := by
          rw [hproj, hsplit1, hx1]
        have hla : x.text.length + c ≤ a.length := by
          have := congrArg List.length hN1x
          rw [List.length_drop, List.length_append] at this
          omega
        rw [show patchWalk m a none c c (x :: rest) =
            patchWalk m a none (c + x.text.length) (c + x.text.length) rest from by
          simp [patchWalk, hx]] at hp
        exact ih (c + x.text.length)
          (by rw [← List.drop_drop, hN1x, List.drop_left]) (by omega) p hp
      · obtain ⟨c', acc', tail, hshape⟩ :=
          patchWalk_some_head m a rest c c [x] (c + dLen1 x) (c + dLen2 x)
        rw [show patchWalk m a none c c (x :: rest) =
            patchWalk m a (some ((c, c), [x])) (c + dLen1 x) (c + dLen2 x) rest from by
          simp [patchWalk, hx], hshape, List.head?_cons] at hp
        obtain rfl : closePatch m a c c c' acc' = p := Option.some.inj hp
        by_cases hcm : m ≤ c
        · left
          have hprelen : (preCtx m a c).length = m := by
            unfold preCtx
            rw [List.length_drop, List.length_take]
            omega
          have hprene : preCtx m a c ≠ [] := by
            intro h0
            rw [h0] at hprelen
            simp at hprelen
            omega
          refine ⟨preCtx m a c,
            acc' ++ (if sufCtx m a c' = [] then []
              else [⟨Op.equal, sufCtx m a c'⟩]), ?_, by omega⟩
          show ctxDiffs m a c c' acc' = _
          unfold ctxDiffs
          rw [if_neg hprene, List.cons_append]
        · right
          have hprelen : (preCtx m a c).length = c := by
            unfold preCtx
            rw [List.length_drop, List.length_take]
            omega
          constructor
          · show c - (preCtx m a c).length = 0
            omega
          · show c - (preCtx m a c).length = 0
            omega

lemma closePatch_end1 (m : Nat) (a : Str) (p1 p2 c1 : Nat) (acc : List Diff)
    (hO5 : c1 = p1 + (diff_text1 acc).length) :
    (closePatch m a p1 p2 c1 acc).start1 +
      (diff_text1 (closePatch m a p1 p2 c1 acc).diffs).length =
      c1 + (sufCtx m a c1).length := by
  show (p1 - (preCtx m a p1).length) +
    (diff_text1 (ctxDiffs m a p1 c1 acc)).length = _
  rw [diff_text1_ctxDiffs]
  have := preCtx_len_le m a p1
  simp only [List.length_append]
  omega

lemma closePatch_end2 (m : Nat) (a b : Str) (p1 p2 c1 c2 : Nat) (acc : List Diff)
    (hO5b : c2 = p2 + (diff_text2 acc).length)
    (_hpa : p1 ≤ a.length) (hpb : p2 ≤ b.length)
    (hO6 : (a.take p1).drop (p1 - m) = (b.take p2).drop (p2 - m)) :
    (closePatch m a p1 p2 c1 acc).start2 +
      (diff_text2 (closePatch m a p1 p2 c1 acc).diffs).length =
      c2 + (sufCtx m a c1).length := by
  show (p2 - (preCtx m a p1).length) +
    (diff_text2 (ctxDiffs m a p1 c1 acc)).length = _
  rw [diff_text2_ctxDiffs]
  have hl2 : (preCtx m a p1).length = p2 - (p2 - m) := by
    have := congrArg List.length hO6
    rw [List.length_drop, List.length_drop, List.length_take,
      List.length_take] at this
    unfold preCtx
    rw [List.length_drop, List.length_take]
    omega
  simp only [List.length_append]
  omega

lemma padExt_ctxDiffs (m : Nat) (pad : Str) (a : Str) (p1 c1 : Nat)
    (acc : List Diff) (hne : sufCtx m a c1 ≠ []) :
    padExt m pad (ctxDiffs m a p1 c1 acc) =
      if m ≤ (sufCtx m a c1).length then []
      else pad.take (m - (sufCtx m a c1).length) := by
  unfold ctxDiffs
  rw [if_neg hne]
  exact padExt_append_equal m pad (sufCtx m a c1) _

/-- The last patch of the walk either carries a full margin of trailing
equal context (no padding extension) or its window ends flush at the ends
of both texts. -/
lemma patchWalk_lastHL (m : Nat) (hm : 0 < m) (a b : Str) (pad : Str) :
    ∀ rest : List Diff,
      (∀ c1 c2 e1 e2 : Nat,
        a.drop c1 = diff_text1 rest →
        b.drop c2 = diff_text2 rest →
        c1 ≤ a.length → c2 ≤ b.length →
        e1 ≤ c1 - m → e2 ≤ c2 - m →
        c1 - e1 = c2 - e2 →
        (a.drop e1).take (c1 - e1) = (b.drop e2).take (c2 - e2) →
        ∀ p, lastP (patchWalk m a none c1 c2 rest) = some p →
          padExt m pad p.diffs = [] ∨
            (p.start1 + (diff_text1 p.diffs).length = a.length ∧
              p.start2 + (diff_text2 p.diffs).length = b.length)) ∧
      (∀ (p1 p2 : Nat) (acc : List Diff) (c1 c2 : Nat),
        a.drop c1 = diff_text1 rest →
        b.drop c2 = diff_text2 rest →
        a.drop p1 = diff_text1 acc ++ diff_text1 rest →
        b.drop p2 = diff_text2 acc ++ diff_text2 rest →
        c1 = p1 + (diff_text1 acc).length →
        c2 = p2 + (diff_text2 acc).length →
        p1 ≤ a.length → p2 ≤ b.length →
        (a.take p1).drop (p1 - m) = (b.take p2).drop (p2 - m) →
        ∀ p, lastP (patchWalk m a (some ((p1, p2), acc)) c1 c2 rest) = some p →
          padExt m pad p.diffs = [] ∨
            (p.start1 + (diff_text1 p.diffs).length = a.length ∧
              p.start2 + (diff_text2 p.diffs).length = b.length)) := by
  intro rest
  induction rest with
  | nil =>
      constructor
      · intro c1 c2 e1 e2 _ _ _ _ _ _ _ _ p hp
        exact absurd hp (by simp [patchWalk, lastP])
      · intro p1 p2 acc c1 c2 hO1 hO2 hO3 hO4 hO5 hO5b hpa hpb hO6 p hp
        have hca : c1 ≤ a.length := by
          have := congrArg List.length hO3
          rw [List.length_drop, List.length_append] at this
          omega
        have hcb : c2 ≤ b.length := by
          have := congrArg List.length hO4
          rw [List.length_drop, List.length_append] at this
          omega
        have hsufnil : sufCtx m a c1 = [] := by
          unfold sufCtx
          rw [hO1]
          simp [diff_text1]
        obtain rfl : closePatch m a p1 p2 c1 acc = p := by
          simpa [patchWalk, lastP] using hp
        right
        have h0a : a.drop c1 = [] := by
          rw [hO1]
          simp [diff_text1]
        have h0b : b.drop c2 = [] := by
          rw [hO2]
          simp [diff_text2]
        have hln1 := congrArg List.length h0a
        have hln2 := congrArg List.length h0b
        rw [List.length_drop] at hln1 hln2
        simp at hln1 hln2
        constructor
        · rw [closePatch_end1 m a p1 p2 c1 acc hO5, hsufnil]
          simp
          omega
        · rw [closePatch_end2 m a b p1 p2 c1 c2 acc hO5b hpa hpb hO6, hsufnil]
          simp
          omega
  | cons x rest ih =>
      obtain ⟨ihN, ihS⟩ := ih
      have hsplit1 : diff_text1 (x :: rest) = diff_text1 [x] ++ diff_text1 rest :=
        diff_text1_append [x] rest
      have hsplit2 : diff_text2 (x :: rest) = diff_text2 [x] ++ diff_text2 rest :=
        diff_text2_append [x] rest
      constructor
      · intro c1 c2 e1 e2 hN1 hN2 hc1 hc2 he1 he2 hoff hcom p hp
        by_cases hx : x.op = Op.equal
        · have hx1 : diff_text1 [x] = x.text := by
            rw [diff_text1_single, if_neg (by simp [hx])]
          have hx2 : diff_text2 [x] = x.text := by
            rw [diff_text2_single, if_neg (by simp [hx])]
          have hN1x : a.drop c1 = x.text ++ diff_text1 rest := by
            rw [hN1, hsplit1, hx1]
          have hN2x : b.drop c2 = x.text ++ diff_text2 rest := by
            rw [hN2, hsplit2, hx2]
          have hla : x.text.length + c1 ≤ a.length := by
            have := congrArg List.length hN1x
            rw [List.length_drop, List.length_append] at this
            omega
          have hlb : x.text.length + c2 ≤ b.length := by
            have := congrArg List.length hN2x
            rw [List.length_drop, List.length_append] at this
            omega
          rw [show patchWalk m a none c1 c2 (x :: rest) =
              patchWalk m a none (c1 + x.text.length) (c2 + x.text.length) rest
              from by simp [patchWalk, hx]] at hp
          have hsega : (a.drop e1).take (c1 + x.text.length - e1) =
              (a.drop e1).take (c1 - e1) ++ x.text := by
            rw [show c1 + x.text.length - e1 = (c1 - e1) + x.text.length from by
              omega, List.take_add]
            congr 1
            rw [List.drop_drop, show e1 + (c1 - e1) = c1 from by omega, hN1x,
              List.take_left]
          have hsegb : (b.drop e2).take (c2 + x.text.length - e2) =
              (b.drop e2).take (c2 - e2) ++ x.text := by
            rw [show c2 + x.text.length - e2 = (c2 - e2) + x.text.length from by
              omega, List.take_add]
            congr 1
            rw [List.drop_drop, show e2 + (c2 - e2) = c2 from by omega, hN2x,
              List.take_left]
          exact ihN (c1 + x.text.length) (c2 + x.text.length) e1 e2
            (by rw [← List.drop_drop, hN1x, List.drop_left])
            (by rw [← List.drop_drop, hN2x, List.drop_left])
            (by omega) (by omega) (by omega) (by omega) (by omega)
            (by rw [hsega, hsegb, hcom]) p hp
        · rw [show patchWalk m a none c1 c2 (x :: rest) =
              patchWalk m a (some ((c1, c2), [x]))
                (c1 + dLen1 x) (c2 + dLen2 x) rest from by
            simp [patchWalk, hx]] at hp
          have hO6' : (a.take c1).drop (c1 - m) = (b.take c2).drop (c2 - m) :=
            ctx_common a b m e1 e2 c1 c2 he1 he2 hoff hcom hc1 hc2
          exact ihS c1 c2 [x] (c1 + dLen1 x) (c2 + dLen2 x)
            (by rw [← List.drop_drop, hN1, hsplit1, ← diff_text1_single_len x,
              List.drop_left])
            (by rw [← List.drop_drop, hN2, hsplit2, ← diff_text2_single_len x,
              List.drop_left])
            (by rw [hN1, hsplit1])
            (by rw [hN2, hsplit2])
            (by rw [diff_text1_single_len])
            (by rw [diff_text2_single_len])
            hc1 hc2 hO6' p hp
      · intro p1 p2 acc c1 c2 hO1 hO2 hO3 hO4 hO5 hO5b hpa hpb hO6 p hp
        have hca : c1 ≤ a.length := by
          have := congrArg List.length hO3
          rw [List.length_drop, List.length_append] at this
          omega
        have hcb : c2 ≤ b.length := by
          have := congrArg List.length hO4
          rw [List.length_drop, List.length_append] at this
          omega
        by_cases hx : x.op = Op.equal
        · have hx1 : diff_text1 [x] = x.text := by
            rw [diff_text1_single, if_neg (by simp [hx])]
          have hx2 : diff_text2 [x] = x.text := by
            rw [diff_text2_single, if_neg (by simp [hx])]
          have hN1x : a.drop c1 = x.text ++ diff_text1 rest := by
            rw [hO1, hsplit1, hx1]
          have hN2x : b.drop c2 = x.text ++ diff_text2 rest := by
            rw [hO2, hsplit2, hx2]
          by_cases hr : rest = []
          · subst hr
            have hN1t : a.drop c1 = x.text := by
              simpa [diff_text1] using hN1x
            have hN2t : b.drop c2 = x.text := by
              simpa [diff_text2] using hN2x
            have hsuf : sufCtx m a c1 = x.text.take m := by
              unfold sufCtx
              rw [hN1t]
            obtain rfl : closePatch m a p1 p2 c1 acc = p := by
              simpa [patchWalk, hx, lastP] using hp
            by_cases hmt : m ≤ x.text.length
            · left
              have hlsuf : (sufCtx m a c1).length = m := by
                rw [hsuf, List.length_take]
                omega
              have hne : sufCtx m a c1 ≠ [] := by
                intro h0
                rw [h0] at hlsuf
                simp at hlsuf
                omega
              show padExt m pad (ctxDiffs m a p1 c1 acc) = []
              rw [padExt_ctxDiffs m pad a p1 c1 acc hne, if_pos (by omega)]
            · right
              have hsuft : sufCtx m a c1 = x.text := by
                rw [hsuf]
                exact List.take_of_length_le (by omega)
              have hln1 := congrArg List.length hN1t
              have hln2 := congrArg List.length hN2t
              rw [List.length_drop] at hln1 hln2
              constructor
              · rw [closePatch_end1 m a p1 p2 c1 acc hO5, hsuft]
                omega
              · rw [closePatch_end2 m a b p1 p2 c1 c2 acc hO5b hpa hpb hO6, hsuft]
                omega
          · by_cases hlen : x.text.length ≤ 2 * m
            · rw [show patchWalk m a (some ((p1, p2), acc)) c1 c2 (x :: rest) =
                  patchWalk m a (some ((p1, p2), acc ++ [x]))
                    (c1 + x.text.length) (c2 + x.text.length) rest from by
                simp [patchWalk, hx, hr, hlen]] at hp
              exact ihS p1 p2 (acc ++ [x]) (c1 + x.text.length)
                (c2 + x.text.length)
                (by rw [← List.drop_drop, hN1x, List.drop_left])
                (by rw [← List.drop_drop, hN2x, List.drop_left])
                (by rw [hO3, hsplit1, diff_text1_append, ← List.append_assoc])
                (by rw [hO4, hsplit2, diff_text2_append, ← List.append_assoc])
                (by rw [diff_text1_append, List.length_append, hx1]; omega)
                (by rw [diff_text2_append, List.length_append, hx2]; omega)
                hpa hpb hO6 p hp
            · rw [show patchWalk m a (some ((p1, p2), acc)) c1 c2 (x :: rest) =
                  closePatch m a p1 p2 c1 acc ::
                    patchWalk m a none (c1 + x.text.length)
                      (c2 + x.text.length) rest from by
                simp [patchWalk, hx, hr, hlen]] at hp
              have hmx : m ≤ x.text.length := by omega
              have hsuf : sufCtx m a c1 = x.text.take m := by
                unfold sufCtx
                rw [hN1x, List.take_append_of_le_length hmx]
              have hlsuf : (sufCtx m a c1).length = m := by
                rw [hsuf, List.length_take]
                omega
              have hla : x.text.length + c1 ≤ a.length := by
                have := congrArg List.length hN1x
                rw [List.length_drop, List.length_append] at this
                omega
              have hlb : x.text.length + c2 ≤ b.length := by
                have := congrArg List.length hN2x
                rw [List.length_drop, List.length_append] at this
                omega
              cases htw : patchWalk m a none (c1 + x.text.length)
                  (c2 + x.text.length) rest with
              | nil =>
                  rw [htw] at hp
                  obtain rfl : closePatch m a p1 p2 c1 acc = p := by
                    simpa [lastP] using hp
                  left
                  have hne : sufCtx m a c1 ≠ [] := by
                    intro h0
                    rw [h0] at hlsuf
                    simp at hlsuf
                    omega
                  show padExt m pad (ctxDiffs m a p1 c1 acc) = []
                  rw [padExt_ctxDiffs m pad a p1 c1 acc hne, if_pos (by omega)]
              | cons q tw =>
                  rw [htw] at hp
                  have hp' : lastP (q :: tw) = some p := hp
                  rw [← htw] at hp'
                  refine ihN (c1 + x.text.length) (c2 + x.text.length)
                    (c1 + m) (c2 + m)
                    (by rw [← List.drop_drop, hN1x, List.drop_left])
                    (by rw [← List.drop_drop, hN2x, List.drop_left])
                    (by omega) (by omega) (by omega) (by omega) (by omega)
                    ?_ p hp'
                  have hda : a.drop (c1 + m) = x.text.drop m ++ diff_text1 rest := by
                    rw [← List.drop_drop, hN1x, List.drop_append_of_le_length hmx]
                  have hdb : b.drop (c2 + m) = x.text.drop m ++ diff_text2 rest := by
                    rw [← List.drop_drop, hN2x, List.drop_append_of_le_length hmx]
                  rw [hda, hdb,
                    show c1 + x.text.length - (c1 + m) = (x.text.drop m).length
                      from by rw [List.length_drop]; omega,
                    show c2 + x.text.length - (c2 + m) = (x.text.drop m).length
                      from by rw [List.length_drop]; omega,
                    List.take_left, List.take_left]
        · rw [show patchWalk m a (some ((p1, p2), acc)) c1 c2 (x :: rest) =
              patchWalk m a (some ((p1, p2), acc ++ [x]))
                (c1 + dLen1 x) (c2 + dLen2 x) rest from by
            simp [patchWalk, hx]] at hp
          exact ihS p1 p2 (acc ++ [x]) (c1 + dLen1 x) (c2 + dLen2 x)
            (by rw [← List.drop_drop, hO1, hsplit1, ← diff_text1_single_len x,
              List.drop_left])
            (by rw [← List.drop_drop, hO2, hsplit2, ← diff_text2_single_len x,
              List.drop_left])
            (by rw [hO3, hsplit1, diff_text1_append, ← List.append_assoc])
            (by rw [hO4, hsplit2, diff_text2_append, ← List.append_assoc])
            (by
              rw [diff_text1_append, List.length_append, diff_text1_single_len]
              omega)
            (by
              rw [diff_text2_append, List.length_append, diff_text2_single_len]
              omega)
            hpa hpb hO6 p hp

/-- The walk emits no patch only when the script has no edits, in which
case both projections agree. -/
lemma patchWalk_none_nil (m : Nat) (a : Str) :
    ∀ (rest : List Diff) (c1 c2 : Nat),
      patchWalk m a none c1 c2 rest = [] →
      diff_text1 rest = diff_text2 rest := by
  intro rest
  induction rest with
  | nil => intro c1 c2 _; rfl
  | cons x rest ih =>
      intro c1 c2 h
      by_cases hx : x.op = Op.equal
      · rw [show patchWalk m a none c1 c2 (x :: rest) =
            patchWalk m a none (c1 + x.text.length) (c2 + x.text.length) rest
            from by simp [patchWalk, hx]] at h
        have hx1 : diff_text1 [x] = x.text := by
          rw [diff_text1_single, if_neg (by simp [hx])]
        have hx2 : diff_text2 [x] = x.text := by
          rw [diff_text2_single, if_neg (by simp [hx])]
        have hs1 : diff_text1 (x :: rest) = diff_text1 [x] ++ diff_text1 rest :=
          diff_text1_append [x] rest
        have hs2 : diff_text2 (x :: rest) = diff_text2 [x] ++ diff_text2 rest :=
          diff_text2_append [x] rest
        rw [hs1, hs2, hx1, hx2, ih _ _ h]
      · obtain ⟨c', acc', tail, hshape⟩ :=
          patchWalk_some_head m a rest c1 c2 [x] (c1 + dLen1 x) (c2 + dLen2 x)
        rw [show patchWalk m a none c1 c2 (x :: rest) =
            patchWalk m a (some ((c1, c2), [x])) (c1 + dLen1 x) (c2 + dLen2 x)
              rest from by simp [patchWalk, hx], hshape] at h
        exact absurd h (by simp)

lemma mapHead_length (f : Patch → Patch) (l : List Patch) :
    (mapHead f l).length = l.length := by
  cases l <;> simp [mapHead]

lemma mapLast_length (f : Patch → Patch) :
    ∀ l : List Patch, (mapLast f l).length = l.length := by
  intro l
  induction l with
  | nil => rfl
  | cons p l ih =>
      cases l with
      | nil => rfl
      | cons q l' => simpa [mapLast] using ih

lemma lastP_map (f : Patch → Patch) :
    ∀ l : List Patch, lastP (l.map f) = (lastP l).map f := by
  intro l
  induction l with
  | nil => rfl
  | cons p l ih =>
      cases l with
      | nil => rfl
      | cons q l' => simpa [lastP] using ih

lemma nullPadding_length (m : Nat) : (nullPadding m).length = m := by
  simp [nullPadding]

/-- Front-padding a patch preserves the last-patch property: the padding
extension it would need, and its window ends, are unchanged. -/
lemma padFront_HL (m : Nat) (pad : Str) (hpl : pad.length = m)
    (Alen Blen : Nat) (p : Patch)
    (hHF : (∃ e t, p.diffs = ⟨Op.equal, e⟩ :: t ∧ m ≤ e.length) ∨
      (p.start1 = m ∧ p.start2 = m))
    (hHLp : padExt m pad p.diffs = [] ∨
      (p.start1 + (diff_text1 p.diffs).length = Alen ∧
        p.start2 + (diff_text2 p.diffs).length = Blen)) :
    padExt m pad (padFront m pad p).diffs = [] ∨
      ((padFront m pad p).start1 +
          (diff_text1 (padFront m pad p).diffs).length = Alen ∧
        (padFront m pad p).start2 +
          (diff_text2 (padFront m pad p).diffs).length = Blen) := by
  obtain ⟨pdiffs, ps1, ps2, pl1, pl2⟩ := p
  simp only at hHF hHLp
  rcases hd : pdiffs with _ | ⟨⟨op, e⟩, t⟩
  all_goals subst hd
  · left
    show padExt m pad [⟨Op.equal, pad⟩] = []
    simp [padExt, hpl]
  · cases op with
    | equal =>
        by_cases hme : m ≤ e.length
        · rw [show padFront m pad ⟨⟨Op.equal, e⟩ :: t, ps1, ps2, pl1, pl2⟩ =
              ⟨⟨Op.equal, e⟩ :: t, ps1, ps2, pl1, pl2⟩ from by
            simp [padFront, hme]]
          exact hHLp
        · have hHF2 : ps1 = m ∧ ps2 = m := by
            rcases hHF with ⟨e', t', heq, hlen⟩ | h2
            · simp only [List.cons.injEq, Diff.mk.injEq] at heq
              obtain ⟨⟨-, he⟩, -⟩ := heq
              exact absurd (he ▸ hlen) hme
            · exact h2
          rw [show padFront m pad ⟨⟨Op.equal, e⟩ :: t, ps1, ps2, pl1, pl2⟩ =
              { diffs := ⟨Op.equal, pad.drop e.length ++ e⟩ :: t,
                start1 := ps1 - (m - e.length), start2 := ps2 - (m - e.length),
                length1 := (diff_text1 (⟨Op.equal, pad.drop e.length ++ e⟩ :: t)).length,
                length2 := (diff_text2 (⟨Op.equal, pad.drop e.length ++ e⟩ :: t)).length }
              from by simp [padFront, hme]]
          cases t with
          | nil =>
              left
              show padExt m pad [⟨Op.equal, pad.drop e.length ++ e⟩] = []
              have hlen : m ≤ (pad.drop e.length ++ e).length := by
                rw [List.length_append, List.length_drop, hpl]
                omega
              simp [padExt, hlen]
              omega
          | cons y t' =>
              rcases hHLp with hext | ⟨hend1, hend2⟩
              · left
                show padExt m pad (⟨Op.equal, pad.drop e.length ++ e⟩ :: y :: t') = []
                rw [show padExt m pad (⟨Op.equal, pad.drop e.length ++ e⟩ :: y :: t') =
                    padExt m pad (y :: t') from rfl]
                rw [show padExt m pad (y :: t') =
                    padExt m pad (⟨Op.equal, e⟩ :: y :: t') from rfl]
                exact hext
              · right
                constructor
                · show ps1 - (m - e.length) +
                    (diff_text1 (⟨Op.equal, pad.drop e.length ++ e⟩ :: y :: t')).length = Alen
                  have hl : (diff_text1 (⟨Op.equal, pad.drop e.length ++ e⟩ :: y :: t')).length =
                      (m - e.length) + (diff_text1 (⟨Op.equal, e⟩ :: y :: t')).length := by
                    simp [diff_text1, hpl]
                  rw [hl]
                  omega
                · show ps2 - (m - e.length) +
                    (diff_text2 (⟨Op.equal, pad.drop e.length ++ e⟩ :: y :: t')).length = Blen
                  have hl : (diff_text2 (⟨Op.equal, pad.drop e.length ++ e⟩ :: y :: t')).length =
                      (m - e.length) + (diff_text2 (⟨Op.equal, e⟩ :: y :: t')).length := by
                    simp [diff_text2, hpl]
                  rw [hl]
                  omega
    | delete =>
        have hHF2 : ps1 = m ∧ ps2 = m := by
          rcases hHF with ⟨e', t', heq, -⟩ | h2
          · simp only [List.cons.injEq, Diff.mk.injEq] at heq
            obtain ⟨⟨hop, -⟩, -⟩ := heq
            exact absurd hop (by decide)
          · exact h2
        show padExt m pad (⟨Op.equal, pad⟩ :: ⟨Op.delete, e⟩ :: t) = [] ∨
          (ps1 - m + (diff_text1 (⟨Op.equal, pad⟩ :: ⟨Op.delete, e⟩ :: t)).length = Alen ∧
            ps2 - m + (diff_text2 (⟨Op.equal, pad⟩ :: ⟨Op.delete, e⟩ :: t)).length = Blen)
        rcases hHLp with hext | ⟨hend1, hend2⟩
        · left
          rw [show padExt m pad (⟨Op.equal, pad⟩ :: ⟨Op.delete, e⟩ :: t) =
              padExt m pad (⟨Op.delete, e⟩ :: t) from rfl]
          exact hext
        · right
          constructor
          · have hl : (diff_text1 (⟨Op.equal, pad⟩ :: ⟨Op.delete, e⟩ :: t)).length =
                m + (diff_text1 (⟨Op.delete, e⟩ :: t)).length := by
              simp [diff_text1, hpl]
            rw [hl]
            omega
          · have hl : (diff_text2 (⟨Op.equal, pad⟩ :: ⟨Op.delete, e⟩ :: t)).length =
                m + (diff_text2 (⟨Op.delete, e⟩ :: t)).length := by
              simp [diff_text2, hpl]
            rw [hl]
            omega
    | insert =>
        have hHF2 : ps1 = m ∧ ps2 = m := by
          rcases hHF with ⟨e', t', heq, -⟩ | h2
          · simp only [List.cons.injEq, Diff.mk.injEq] at heq
            obtain ⟨⟨hop, -⟩, -⟩ := heq
            exact absurd hop (by decide)
          · exact h2
        show padExt m pad (⟨Op.equal, pad⟩ :: ⟨Op.insert, e⟩ :: t) = [] ∨
          (ps1 - m + (diff_text1 (⟨Op.equal, pad⟩ :: ⟨Op.insert, e⟩ :: t)).length = Alen ∧
            ps2 - m + (diff_text2 (⟨Op.equal, pad⟩ :: ⟨Op.insert, e⟩ :: t)).length = Blen)
        rcases hHLp with hext | ⟨hend1, hend2⟩
        · left
          rw [show padExt m pad (⟨Op.equal, pad⟩ :: ⟨Op.insert, e⟩ :: t) =
              padExt m pad (⟨Op.insert, e⟩ :: t) from rfl]
          exact hext
        · right
          constructor
          · have hl : (diff_text1 (⟨Op.equal, pad⟩ :: ⟨Op.insert, e⟩ :: t)).length =
                m + (diff_text1 (⟨Op.insert, e⟩ :: t)).length := by
              simp [diff_text1, hpl]
            rw [hl]
            omega
          · have hl : (diff_text2 (⟨Op.equal, pad⟩ :: ⟨Op.insert, e⟩ :: t)).length =
                m + (diff_text2 (⟨Op.insert, e⟩ :: t)).length := by
              simp [diff_text2, hpl]
            rw [hl]
            omega

/-- `patch_addPadding`'s transformation yields a covering of the padded
texts. -/
lemma addPadding_covers (m : Nat) (pad : Str) (hpl : pad.length = m)
    (a b : Str) (ps : List Patch)
    (hcov : Covers a b 0 0 ps)
    (hHF : ∀ p, ps.head? = some p →
      (∃ e t, p.diffs = ⟨Op.equal, e⟩ :: t ∧ m ≤ e.length) ∨
        (p.start1 = 0 ∧ p.start2 = 0))
    (hHL : ∀ p, lastP ps = some p →
      padExt m pad p.diffs = [] ∨
        (p.start1 + (diff_text1 p.diffs).length = a.length ∧
          p.start2 + (diff_text2 p.diffs).length = b.length)) :
    Covers ((pad ++ a) ++ pad) ((pad ++ b) ++ pad) 0 0
      (mapLast (padBack m pad)
        (mapHead (padFront m pad) (ps.map (shiftPatch m)))) := by
  have hAtake : ((pad ++ a) ++ pad).take m = pad := by
    rw [List.take_append_of_le_length
      (by simp only [List.length_append, hpl]; omega)]
    exact List.take_left' hpl
  have hBtake : ((pad ++ b) ++ pad).take m = pad := by
    rw [List.take_append_of_le_length
      (by simp only [List.length_append, hpl]; omega)]
    exact List.take_left' hpl
  have hAlen : ((pad ++ a) ++ pad).length = a.length + 2 * m := by
    simp only [List.length_append, hpl]
    omega
  have hBlen : ((pad ++ b) ++ pad).length = b.length + 2 * m := by
    simp only [List.length_append, hpl]
    omega
  have hAdropend : ((pad ++ a) ++ pad).drop (((pad ++ a) ++ pad).length - m) =
      pad := by
    rw [show ((pad ++ a) ++ pad).length - m = (pad ++ a).length from by
      rw [hAlen, List.length_append, hpl]; omega]
    exact List.drop_left _ _
  have hBdropend : ((pad ++ b) ++ pad).drop (((pad ++ b) ++ pad).length - m) =
      pad := by
    rw [show ((pad ++ b) ++ pad).length - m = (pad ++ b).length from by
      rw [hBlen, List.length_append, hpl]; omega]
    exact List.drop_left _ _
  have h1 := Covers_shift m pad hpl a b ps 0 0 hcov
  have h2 : Covers ((pad ++ a) ++ pad) ((pad ++ b) ++ pad) 0 0
      (ps.map (shiftPatch m)) := by
    apply Covers_anchor _ _ 0 0 (0 + m) (0 + m) _ h1 (by omega) (by omega) rfl
    simp only [List.drop_zero, Nat.zero_add, Nat.sub_zero]
    rw [hAtake, hBtake]
  cases ps with
  | nil => simpa [mapHead, mapLast] using h2
  | cons p ps' =>
      have hHFs : (∃ e t, (shiftPatch m p).diffs = ⟨Op.equal, e⟩ :: t ∧
          m ≤ e.length) ∨
          ((shiftPatch m p).start1 = m ∧ (shiftPatch m p).start2 = m) := by
        rcases hHF p rfl with ⟨e, t, hd, hl⟩ | ⟨ha', hb'⟩
        · exact Or.inl ⟨e, t, hd, hl⟩
        · right
          constructor
          · show p.start1 + m = m
            omega
          · show p.start2 + m = m
            omega
      have h3 : Covers ((pad ++ a) ++ pad) ((pad ++ b) ++ pad) 0 0
          (padFront m pad (shiftPatch m p) :: ps'.map (shiftPatch m)) :=
        Covers_padFront m pad hpl _ _ hAtake hBtake (shiftPatch m p)
          (ps'.map (shiftPatch m)) h2 hHFs
      show Covers _ _ 0 0 (mapLast (padBack m pad)
        (padFront m pad (shiftPatch m p) :: ps'.map (shiftPatch m)))
      apply Covers_padBack m pad hpl _ _ hAdropend hBdropend
        (by rw [hAlen]; omega) (by rw [hBlen]; omega) _ 0 0 h3
      intro r hr
      cases ps' with
      | nil =>
          have hrr : padFront m pad (shiftPatch m p) = r := by
            simpa [lastP] using hr
          rw [← hrr]
          apply padFront_HL m pad hpl _ _ (shiftPatch m p) hHFs
          rcases hHL p rfl with hext | ⟨hend1, hend2⟩
          · exact Or.inl hext
          · right
            constructor
            · show p.start1 + m + (diff_text1 p.diffs).length = _ - m
              rw [hAlen]
              omega
            · show p.start2 + m + (diff_text2 p.diffs).length = _ - m
              rw [hBlen]
              omega
      | cons q ps'' =>
          have hr' : lastP ((q :: ps'').map (shiftPatch m)) = some r := hr
          rw [lastP_map] at hr'
          cases hql : lastP (q :: ps'') with
          | none =>
              rw [hql] at hr'
              exact absurd hr' (by simp)
          | some r0 =>
              rw [hql] at hr'
              obtain rfl : shiftPatch m r0 = r := by simpa using hr'
              rcases hHL r0 (show lastP (p :: q :: ps'') = some r0 from hql)
                with hext | ⟨hend1, hend2⟩
              · exact Or.inl hext
              · right
                constructor
                · show r0.start1 + m + (diff_text1 r0.diffs).length = _ - m
                  rw [hAlen]
                  omega
                · show r0.start2 + m + (diff_text2 r0.diffs).length = _ - m
                  rw [hBlen]
                  omega

/-- **C2**: applying the patches built from `a` and `b` back onto the
unmodified source `a` returns exactly `b` together with an all-true applied
flag for every patch, in order — the exact-application case of the patch
engine at the default configuration. -/
theorem claim_C2_patch_roundtrip (a b : Str) :
    patch_apply defaultConfig (patch_make defaultConfig a b) a =
      (b, List.replicate (patch_make defaultConfig a b).length true) := by
  have hm : 0 < defaultConfig.Patch_Margin := by decide
  have hthr : 0 < defaultConfig.Match_Threshold := by
    rw [show defaultConfig.Match_Threshold = mkRat 1 2 from rfl,
      Rat.mkRat_eq_div]
    norm_num
  have hproj1 : a.drop 0 = diff_text1 (diff_main defaultConfig a b true) := by
    simpa using (diff_main_text1 defaultConfig a b true).symm
  have hproj2 : b.drop 0 = diff_text2 (diff_main defaultConfig a b true) := by
    simpa using (diff_main_text2 defaultConfig a b true).symm
  by_cases hnil : patch_make defaultConfig a b = []
  · have heq12 : diff_text1 (diff_main defaultConfig a b true) =
        diff_text2 (diff_main defaultConfig a b true) :=
      patchWalk_none_nil defaultConfig.Patch_Margin a
        (diff_main defaultConfig a b true) 0 0 hnil
    have hab : a = b := by
      rw [← diff_main_text1 defaultConfig a b true, heq12,
        diff_main_text2 defaultConfig a b true]
    rw [hnil, hab]
    simp [patch_apply]
  · have hcov : Covers a b 0 0 (patch_make defaultConfig a b) :=
      (patchWalk_covers defaultConfig.Patch_Margin a b
        (diff_main defaultConfig a b true)).1 0 0 0 0 hproj1 hproj2
        (Nat.zero_le _) (Nat.zero_le _) (by omega) (by omega) rfl rfl
    have hHF := patchWalk_headHF defaultConfig.Patch_Margin hm a
      (diff_main defaultConfig a b true) 0 hproj1 (Nat.zero_le _)
    have hHL := (patchWalk_lastHL defaultConfig.Patch_Margin hm a b
      (nullPadding defaultConfig.Patch_Margin)
      (diff_main defaultConfig a b true)).1 0 0 0 0 hproj1 hproj2
      (Nat.zero_le _) (Nat.zero_le _) (by omega) (by omega) rfl rfl
    have hpadcov := addPadding_covers defaultConfig.Patch_Margin
      (nullPadding defaultConfig.Patch_Margin) (nullPadding_length _) a b
      (patch_make defaultConfig a b) hcov hHF hHL
    have happly := applyLoop_covers defaultConfig hthr
      ((nullPadding defaultConfig.Patch_Margin ++ a) ++
        nullPadding defaultConfig.Patch_Margin)
      ((nullPadding defaultConfig.Patch_Margin ++ b) ++
        nullPadding defaultConfig.Patch_Margin)
      (patch_addPadding defaultConfig (patch_make defaultConfig a b)) 0 0
      hpadcov
    rw [show ((nullPadding defaultConfig.Patch_Margin ++ b) ++
        nullPadding defaultConfig.Patch_Margin).take 0 ++
        ((nullPadding defaultConfig.Patch_Margin ++ a) ++
          nullPadding defaultConfig.Patch_Margin).drop 0 =
        (nullPadding defaultConfig.Patch_Margin ++ a) ++
          nullPadding defaultConfig.Patch_Margin from by simp] at happly
    have hstrip : stripPadding (nullPadding defaultConfig.Patch_Margin).length
        ((nullPadding defaultConfig.Patch_Margin ++ b) ++
          nullPadding defaultConfig.Patch_Margin) = b := by
      unfold stripPadding
      have h1 : ((nullPadding defaultConfig.Patch_Margin ++ b) ++
          nullPadding defaultConfig.Patch_Margin).drop
            (nullPadding defaultConfig.Patch_Margin).length = b ++
          nullPadding defaultConfig.Patch_Margin := by
        rw [List.append_assoc]
        exact List.drop_left _ _
      rw [h1,
        show ((nullPadding defaultConfig.Patch_Margin ++ b) ++
          nullPadding defaultConfig.Patch_Margin).length -
          2 * (nullPadding defaultConfig.Patch_Margin).length = b.length from by
        simp only [List.length_append]
        omega]
      exact List.take_left _ _
    have hflags : (patch_addPadding defaultConfig
        (patch_make defaultConfig a b)).length =
        (patch_make defaultConfig a b).length := by
      unfold patch_addPadding
      rw [mapLast_length, mapHead_length, List.length_map]
    unfold patch_apply
    rw [if_neg hnil,
      show patch_splitMax defaultConfig (patch_addPadding defaultConfig
        (patch_make defaultConfig a b)) = patch_addPadding defaultConfig
        (patch_make defaultConfig a b) from rfl,
      happly, hstrip, hflags]

end DMP
